import Mathlib

/-!
Verification development for the `broccoli-es6-module-transpiler` plugin
(`src/index.js`): an incremental build cache in front of the
es6-module-transpiler.  The JavaScript source is shallowly embedded below:

* Node `path` strings are embedded as `JPath` values (an absolute flag plus
  the list of path segments); `path.join`, `path.resolve`, `path.relative`,
  `path.dirname`, `path.basename`, `path.extname` become the functions
  `joinP`, `resolveP`, `relativeP`, `dirnameP`, `basenameP`, `extnameP`.
* The mutable file system is embedded as explicit association lists:
  the source tree (`SrcTree`, relative path to file node), the scratch/cache
  directory and the destination directory (absolute path to file bytes,
  newest write first, so association lookup sees the latest write).
* The external transpiler (Square's es6-module-transpiler, spec §1: opaque
  "Transformer") is embedded as a structure `Transp` of deterministic
  functions producing parse metadata and generated output bytes.
* `helpers.hashTree` from broccoli-kitchen-sink-helpers is embedded as
  `hashNode`: a deterministic digest of the file node found at the path.
  Per the repository's own comment on the (disabled) `hashFile` wrapper in
  `src/index.js`, plain `hashTree` does not dereference symbolic links: a
  symlink hashes as a link, not as its target's bytes, so `hashNode`
  distinguishes the two constructors.
* Fallible operations (`fs` calls that can raise, e.g. copying a missing
  cached artifact) return `Except String`.
-/

namespace Bcm

/-- A Node `path` string: absolute flag plus its list of segments.
Normalized paths have no `""`, `"."` or `".."` segments; un-normalized
values (e.g. an `importedPath` such as `./a`) are representable too. -/
structure JPath where
  abs : Bool
  segs : List String
deriving DecidableEq, Repr

/-- A segment of a normalized path: not empty, not `.`, not `..`. -/
def goodSeg (s : String) : Prop := s ≠ "" ∧ s ≠ "." ∧ s ≠ ".."

instance (s : String) : Decidable (goodSeg s) := by
  unfold goodSeg; infer_instance

/-- A normalized relative path (as produced by `walk-sync`): non-empty. -/
def isNormRel (p : JPath) : Prop :=
  p.abs = false ∧ p.segs ≠ [] ∧ ∀ s ∈ p.segs, goodSeg s

/-- A normalized absolute path (a Broccoli tmp dir such as `srcDir`). -/
def isNormAbs (p : JPath) : Prop :=
  p.abs = true ∧ ∀ s ∈ p.segs, goodSeg s

instance (p : JPath) : Decidable (isNormRel p) := by
  unfold isNormRel; infer_instance

instance (p : JPath) : Decidable (isNormAbs p) := by
  unfold isNormAbs; infer_instance

/-- Node path normalization over segments: drops empty and `.` segments,
resolves `..` against the accumulated prefix (clamping at the root of an
absolute path, keeping leading `..`s of a relative one). -/
def normGo (ab : Bool) (acc : List String) : List String → List String
  | [] => acc
  | s :: rest =>
    if s = "" ∨ s = "." then normGo ab acc rest
    else if s = ".." then
      match acc.getLast? with
      | some t => if t = ".." then normGo ab (acc ++ [s]) rest
                  else normGo ab acc.dropLast rest
      | none => if ab then normGo ab acc rest else normGo ab [s] rest
    else normGo ab (acc ++ [s]) rest

/-- `path.normalize` on the segment representation. -/
def normP (p : JPath) : JPath := ⟨p.abs, normGo p.abs [] p.segs⟩

/-- `path.join(a, b)`: concatenate, then normalize. -/
def joinP (a b : JPath) : JPath := ⟨a.abs, normGo a.abs [] (a.segs ++ b.segs)⟩

/-- `path.resolve(base, p)` for an absolute `base`. -/
def resolveP (base p : JPath) : JPath := if p.abs then normP p else joinP base p

/-- `path.dirname`. -/
def dirnameP (p : JPath) : JPath := ⟨p.abs, p.segs.dropLast⟩

/-- `path.basename`. -/
def basenameP (p : JPath) : String := (p.segs.getLast?).getD ""

/-- Scan the reversed character list of a file name for its last dot.
`seen` holds the characters already scanned, in original string order. -/
def extSearch : List Char → List Char → Option String
  | _, [] => none
  | seen, c :: rest =>
    if c = '.' then (if rest = [] then none else some (String.mk ('.' :: seen)))
    else extSearch (c :: seen) rest

/-- `path.extname` on a single file name: the substring from the last `.`,
unless that dot is the first character or missing. -/
def extnameOfName (n : String) : String :=
  (extSearch [] n.toList.reverse).getD ""

/-- `path.extname` of a path: extension of its last segment. -/
def extnameP (p : JPath) : String := extnameOfName (basenameP p)

/-- String-append on the final segment (JS `resolved += '.js'` etc.). -/
def onLastSeg (f : String → String) (p : JPath) : JPath :=
  ⟨p.abs, p.segs.dropLast ++ [f ((p.segs.getLast?).getD "")]⟩

/-- Length of the longest common prefix of two segment lists. -/
def commonLen : List String → List String → Nat
  | a :: as, b :: bs => if a = b then commonLen as bs + 1 else 0
  | _, _ => 0

/-- `path.relative(a, b)` for normalized absolute `a`, `b`. -/
def relativeP (a b : JPath) : JPath :=
  let k := commonLen a.segs b.segs
  ⟨false, List.replicate (a.segs.length - k) ".." ++ b.segs.drop k⟩

/-- Render a path back to its string form (used only inside digests). -/
def pstr (p : JPath) : String :=
  (if p.abs then "/" else "") ++ String.intercalate "/" p.segs

/-! ### Basic path lemmas -/

theorem normGo_goodSegs (ab : Bool) :
    ∀ (l acc : List String), (∀ s ∈ l, goodSeg s) → normGo ab acc l = acc ++ l := by
  intro l
  induction l with
  | nil => intro acc _; simp [normGo]
  | cons s rest ih =>
    intro acc h
    have hs : goodSeg s := h s (by simp)
    have hrest : ∀ x ∈ rest, goodSeg x := fun x hx => h x (by simp [hx])
    unfold normGo
    rw [if_neg, if_neg]
    · rw [ih (acc ++ [s]) hrest]; simp
    · exact hs.2.2
    · rintro (h1 | h2)
      · exact hs.1 h1
      · exact hs.2.1 h2

theorem joinP_segs (a b : JPath) (ha : ∀ s ∈ a.segs, goodSeg s)
    (hb : ∀ s ∈ b.segs, goodSeg s) :
    joinP a b = ⟨a.abs, a.segs ++ b.segs⟩ := by
  unfold joinP
  rw [normGo_goodSegs]
  · simp
  · intro s hs
    rcases List.mem_append.mp hs with h | h
    · exact ha s h
    · exact hb s h

theorem commonLen_self_append : ∀ (a m : List String), commonLen a (a ++ m) = a.length
  | [], m => by cases m <;> simp [commonLen]
  | s :: rest, m => by
    simp [commonLen, commonLen_self_append rest m]

theorem relativeP_joinP (a m : JPath) (ha : isNormAbs a) (hm : isNormRel m) :
    relativeP a (joinP a m) = m := by
  obtain ⟨_, hgood⟩ := ha
  obtain ⟨mabs, _, mgood⟩ := hm
  rw [joinP_segs a m hgood mgood]
  unfold relativeP
  simp only [commonLen_self_append]
  cases m with
  | mk mab msegs =>
    simp only [JPath.mk.injEq]
    refine ⟨by simpa using mabs.symm, ?_⟩
    simp

theorem resolveP_rel (base p : JPath) (hp : p.abs = false) :
    resolveP base p = joinP base p := by
  simp [resolveP, hp]

theorem getLast?_append_right {α : Type} (l₁ : List α) :
    ∀ (l₂ : List α), l₂ ≠ [] → (l₁ ++ l₂).getLast? = l₂.getLast? := by
  induction l₁ with
  | nil => intro l₂ _; simp
  | cons a as ih =>
    intro l₂ h
    rw [List.cons_append, List.getLast?_cons, ih l₂ h]
    cases l₂ with
    | nil => exact absurd rfl h
    | cons b bs => simp [List.getLast?_cons]

theorem basenameP_joinP (a m : JPath) (ha : ∀ s ∈ a.segs, goodSeg s)
    (hb : ∀ s ∈ m.segs, goodSeg s) (hne : m.segs ≠ []) :
    basenameP (joinP a m) = basenameP m := by
  rw [joinP_segs a m ha hb]
  unfold basenameP
  simp only
  rw [getLast?_append_right a.segs m.segs hne]

theorem extnameP_joinP (a m : JPath) (ha : ∀ s ∈ a.segs, goodSeg s)
    (hb : ∀ s ∈ m.segs, goodSeg s) (hne : m.segs ≠ []) :
    extnameP (joinP a m) = extnameP m := by
  unfold extnameP
  rw [basenameP_joinP a m ha hb hne]

theorem toList_ne_nil (s : String) (hs : s ≠ "") : s.toList ≠ [] := by
  intro h
  apply hs
  cases s with
  | mk d =>
    simp [String.toList] at h
    subst h
    rfl

/-- The extension of a name extended with `.map` is `.map`. -/
theorem extnameOfName_map (s : String) (hs : s ≠ "") :
    extnameOfName (s ++ ".map") = ".map" := by
  have hrev : (s ++ ".map").toList.reverse = 'p' :: 'a' :: 'm' :: '.' :: s.toList.reverse := by
    have : (s ++ ".map").toList = s.toList ++ ('.' :: 'm' :: 'a' :: 'p' :: []) := by
      simp [String.toList, String.data_append]
    rw [this]
    simp
  have hd : s.data ≠ [] := by
    simpa [String.toList] using toList_ne_nil s hs
  unfold extnameOfName
  rw [hrev]
  simp [extSearch, hd]

/-! ### Association lists (the JS object maps and the modelled directories) -/

/-- First-match association lookup (`cache[key]`, and file lookup in a
modelled directory whose newest write sits at the head). -/
def alookup {α β : Type} [DecidableEq α] : List (α × β) → α → Option β
  | [], _ => none
  | (k, v) :: rest, key => if k = key then some v else alookup rest key

@[simp] theorem alookup_nil {α β : Type} [DecidableEq α] (key : α) :
    alookup ([] : List (α × β)) key = none := rfl

@[simp] theorem alookup_cons {α β : Type} [DecidableEq α]
    (k : α) (v : β) (rest : List (α × β)) (key : α) :
    alookup ((k, v) :: rest) key = if k = key then some v else alookup rest key := rfl

theorem alookup_append_left {α β : Type} [DecidableEq α]
    (l₁ l₂ : List (α × β)) (key : α) (v : β) (h : alookup l₁ key = some v) :
    alookup (l₁ ++ l₂) key = some v := by
  induction l₁ with
  | nil => simp at h
  | cons e rest ih =>
    obtain ⟨k, w⟩ := e
    by_cases hk : k = key
    · simp [hk] at h ⊢; exact h
    · simp [hk] at h ⊢; exact ih h

theorem alookup_append_right {α β : Type} [DecidableEq α]
    (l₁ l₂ : List (α × β)) (key : α) (h : alookup l₁ key = none) :
    alookup (l₁ ++ l₂) key = alookup l₂ key := by
  induction l₁ with
  | nil => simp
  | cons e rest ih =>
    obtain ⟨k, w⟩ := e
    by_cases hk : k = key
    · simp [hk] at h
    · simp [hk] at h ⊢; exact ih h

theorem alookup_not_mem {α β : Type} [DecidableEq α]
    (l : List (α × β)) (key : α) (h : key ∉ l.map Prod.fst) :
    alookup l key = none := by
  induction l with
  | nil => rfl
  | cons e rest ih =>
    obtain ⟨k, w⟩ := e
    simp only [List.map_cons, List.mem_cons] at h
    push_neg at h
    have hk : k ≠ key := Ne.symm h.1
    simp [hk, ih h.2]

/-! ### File-system and hashing model -/

/-- A directory entry of the source tree: a regular file with its byte
content, or a symbolic link whose real path is another source-relative
tree key (`fs.realpathSync`'s answer). -/
inductive FNode where
  | file (content : String)
  | symlink (target : JPath)
deriving DecidableEq, Repr

/-- The source tree: `walk-sync` order association of relative paths to
nodes.  Directory entries (trailing `/` in walk-sync output) are omitted:
`CompileModules.prototype.write` skips them in both branches. -/
abbrev SrcTree := List (JPath × FNode)

def lookupTree (t : SrcTree) (k : JPath) : Option FNode := alookup t k

/-- Byte content a read (`fs.readFileSync`) observes at a node: symlinks
are followed (one hop to the realpath key). -/
def readNode (t : SrcTree) : FNode → Option String
  | .file c => some c
  | .symlink tgt =>
    match lookupTree t tgt with
    | some (.file c) => some c
    | _ => none

/-- The digest `helpers.hashTree` assigns to a node.  Deterministic and
content-identifying for regular files; a symlink is hashed as a link
(no dereferencing — the wrapper that would dereference is commented out
in `src/index.js`), so it hashes differently from the regular file
holding the same bytes. -/
def hashNode : FNode → String
  | .file c => "F" ++ c
  | .symlink tgt => "L" ++ pstr tgt

/-- `hashFile` as defined in `src/index.js`: `helpers.hashTree` applied to
an absolute path, here located inside the modelled source tree.  `none`
models the exception `fs` raises when the path does not exist. -/
def hashFile (tree : SrcTree) (srcDir : JPath) (p : JPath) : Option String :=
  (lookupTree tree (relativeP srcDir p)).map hashNode

/-- The variant `hashFile` of `src/unnamed/part_001` (the same wrapper
appears commented out at the bottom of `src/index.js`): dereference a
symbolic link to its real path before applying `hashTree`. -/
def hashFileDeref (tree : SrcTree) (srcDir : JPath) (p : JPath) : Option String :=
  match lookupTree tree (relativeP srcDir p) with
  | some (.symlink tgt) => (lookupTree tree tgt).map hashNode
  | some n => some (hashNode n)
  | none => none

/-- The `hash(filePaths)` closure of `CompileModules.prototype.write`:
join the digests of the given source-relative paths with `','`.
A missing file would raise in JS; the sentinel keeps the model total and
is unreachable for paths enumerated by the walk. -/
def hashList (tree : SrcTree) (srcDir : JPath) (fps : List JPath) : String :=
  String.intercalate "," (fps.map (fun fp =>
    (hashFile tree srcDir (joinP srcDir fp)).getD "ENOENT"))

/-- `hash(module)` for a single module path (the non-array call). -/
def hashOne (tree : SrcTree) (srcDir : JPath) (fp : JPath) : String :=
  hashList tree srcDir [fp]

theorem hashOne_eq (tree : SrcTree) (srcDir : JPath) (fp : JPath) :
    hashOne tree srcDir fp = (hashFile tree srcDir (joinP srcDir fp)).getD "ENOENT" := by
  simp [hashOne, hashList, String.intercalate]
  rfl

/-! ### Data model: modules, cache entries, the transformer -/

/-- A module's `imports`/`exports` value.  The `CachedModule` constructor
wraps the cached value via `Object.create(cached, ...)` (a prototype
shadow); `Object.getPrototypeOf` removes one shadow. -/
inductive Wrap where
  | base (v : String)
  | shadow (inner : Wrap)
deriving DecidableEq, Repr

/-- `Object.getPrototypeOf` on a `Wrap` (only applied by the source to
values previously wrapped by the `CachedModule` constructor). -/
def getProto : Wrap → Wrap
  | .shadow w => w
  | .base v => .base v

/-- The transpiler's `Module` value as the cache layer observes it:
resolved path, the path it was imported under, parse metadata, and the
`CachedModule` marker (`module instanceof CachedModule`). -/
structure ModuleData where
  path : JPath
  importedPath : JPath
  ast : String
  scope : String
  imports : Wrap
  exports : Wrap
  isCachedModule : Bool
deriving DecidableEq, Repr

/-- A cache entry (`this._cache[key]`).  Bundle entries carry no parse
metadata; per-module entries in bundle mode carry no `dir`/`outputFiles`.
Absent JS object fields are `none` / `[]`. -/
structure CacheEntry where
  hash : String
  ast : Option String := none
  scope : Option String := none
  imports : Option Wrap := none
  exports : Option Wrap := none
  dir : Option JPath := none
  outputFiles : List JPath := []
deriving DecidableEq, Repr

abbrev Cache := List (JPath × CacheEntry)

/-- The opaque external Transformer (spec §1, §6): deterministic parse
metadata and generated bytes.  `gen`/`genMap` give a module's compiled
file and source map in directory mode; `genBundle`/`genBundleMap` the
fused single-file output. -/
structure Transp where
  parseAst : String → String
  parseScope : String → String
  parseImports : String → String
  parseExports : String → String
  gen : SrcTree → JPath → String
  genMap : SrcTree → JPath → String
  genBundle : SrcTree → List JPath → String
  genBundleMap : SrcTree → List JPath → String

/-! ### CacheResolver -/

/-- `importedPath.charAt(0) === '.'` on the path model: an absolute path
starts with `/`, a relative one with the first character of its first
segment. -/
def startsWithDot (p : JPath) : Bool :=
  match p.segs with
  | s :: _ => !p.abs && s.startsWith "."
  | [] => false

/-- `CacheResolver.prototype.resolvePath`: resolve against the directory
of `fromModule` when the imported path starts with `.` and a context
module is given, otherwise against the source root; then append `.js`
whenever the extension is not `.js`. -/
def resolvePath (srcDir : JPath) (importedPath : JPath)
    (fromModule : Option ModuleData) : JPath :=
  let base :=
    match fromModule with
    | some fm => if startsWithDot importedPath then dirnameP fm.path else srcDir
    | none => srcDir
  let resolved := resolveP base importedPath
  if extnameP resolved = ".js" then resolved
  else onLastSeg (fun s => s ++ ".js") resolved

/-- The `CachedModule` constructor: a `Module` whose `ast`/`scope` come
from the cache entry and whose `imports`/`exports` shadow the cached
values (`Object.create(cachedMeta.imports, {module: {value: this}})`). -/
def mkCachedModule (resolvedPath importedPath : JPath) (e : CacheEntry) : ModuleData :=
  { path := resolvedPath
    importedPath := importedPath
    ast := e.ast.getD ""
    scope := e.scope.getD ""
    imports := .shadow (e.imports.getD (.base ""))
    exports := .shadow (e.exports.getD (.base ""))
    isCachedModule := true }

/-- Outcome of `CacheResolver.prototype.resolveModule`, tagged with its
provenance for the statements below: the container's already-live module,
a `CachedModule` hydrated from a cache entry, or `null`. -/
inductive ResolveOut where
  | live (m : ModuleData)
  | hydrated (e : CacheEntry) (m : ModuleData)
  | absent
deriving DecidableEq, Repr

/-- `CacheResolver.prototype.resolveModule`.  `registry` is the
container's module registry consulted by `container.getCachedModule`.
The error case models the exception `hashFile` raises when a cache entry
exists but the resolved file does not. -/
def resolveModule (cache : Cache) (srcDir : JPath) (tree : SrcTree)
    (importedPath : JPath) (fromModule : Option ModuleData)
    (registry : List (JPath × ModuleData)) : Except String ResolveOut :=
  let resolvedPath := resolvePath srcDir importedPath fromModule
  match alookup registry resolvedPath with
  | some m => .ok (.live m)
  | none =>
    match alookup cache (relativeP srcDir resolvedPath) with
    | none => .ok .absent
    | some e =>
      match hashFile tree srcDir resolvedPath with
      | none => .error "hashFile: ENOENT"
      | some h =>
        if e.hash = h then .ok (.hydrated e (mkCachedModule resolvedPath importedPath e))
        else .ok .absent

/-! ### Decimal segment names (`String(this._cacheIndex++)`) -/

theorem digitChar_ne_dot (k : Nat) : Nat.digitChar k ≠ '.' := by
  rcases Nat.lt_or_ge k 16 with hk | hk
  · interval_cases k <;> decide
  · unfold Nat.digitChar
    iterate 16 rw [if_neg (by omega)]
    decide

theorem toDigitsCore_mem (b : Nat) :
    ∀ (fuel n : Nat) (ds : List Char) (c : Char), c ∈ Nat.toDigitsCore b fuel n ds →
      c ∈ ds ∨ ∃ k, c = Nat.digitChar k := by
  intro fuel
  induction fuel with
  | zero => intro n ds c hc; exact Or.inl hc
  | succ f ih =>
    intro n ds c hc
    unfold Nat.toDigitsCore at hc
    simp only at hc
    by_cases hz : n / b = 0
    · rw [if_pos hz] at hc
      rcases List.mem_cons.mp hc with h | h
      · exact Or.inr ⟨n % b, h⟩
      · exact Or.inl h
    · rw [if_neg hz] at hc
      rcases ih (n / b) (Nat.digitChar (n % b) :: ds) c hc with h | h
      · rcases List.mem_cons.mp h with h' | h'
        · exact Or.inr ⟨n % b, h'⟩
        · exact Or.inl h'
      · exact Or.inr h

theorem toDigitsCore_ne_nil (b : Nat) :
    ∀ (fuel n : Nat) (ds : List Char), ds ≠ [] → Nat.toDigitsCore b fuel n ds ≠ [] := by
  intro fuel
  induction fuel with
  | zero => intro n ds h; simpa [Nat.toDigitsCore] using h
  | succ f ih =>
    intro n ds _
    unfold Nat.toDigitsCore
    simp only
    by_cases hz : n / b = 0
    · rw [if_pos hz]; simp
    · rw [if_neg hz]; exact ih (n / b) (Nat.digitChar (n % b) :: ds) (by simp)

theorem toDigits_ne_nil (n : Nat) : Nat.toDigits 10 n ≠ [] := by
  unfold Nat.toDigits
  unfold Nat.toDigitsCore
  simp only
  by_cases hz : n / 10 = 0
  · rw [if_pos hz]; simp
  · rw [if_neg hz]
    exact toDigitsCore_ne_nil 10 n (n / 10) [Nat.digitChar (n % 10)] (by simp)

theorem mem_toDigits_ne_dot (n : Nat) (c : Char) (hc : c ∈ Nat.toDigits 10 n) : c ≠ '.' := by
  rcases toDigitsCore_mem 10 (n + 1) n [] c hc with h | ⟨k, hk⟩
  · simp at h
  · rw [hk]; exact digitChar_ne_dot k

/-- `String(n)` for a natural `n` is a well-formed path segment. -/
theorem goodSeg_repr (n : Nat) : goodSeg (Nat.repr n) := by
  have hrepr : Nat.repr n = String.mk (Nat.toDigits 10 n) := rfl
  refine ⟨?_, ?_, ?_⟩
  · rw [hrepr]
    intro h
    have : Nat.toDigits 10 n = [] := by
      have := congrArg String.data h
      simpa using this
    exact toDigits_ne_nil n this
  · rw [hrepr]
    intro h
    have hd : Nat.toDigits 10 n = ['.'] := by
      have := congrArg String.data h
      simpa using this
    exact mem_toDigits_ne_dot n '.' (by rw [hd]; simp) rfl
  · rw [hrepr]
    intro h
    have hd : Nat.toDigits 10 n = ['.', '.'] := by
      have := congrArg String.data h
      simpa using this
    exact mem_toDigits_ne_dot n '.' (by rw [hd]; simp) rfl

/-! ### Build state and observable events -/

/-- The mutable state of a `CompileModules` instance that survives across
builds: `this._cache`, `this._cacheIndex`, and the bytes stored in the
scratch directory `this.getCacheDir()` (newest write first). -/
structure BState where
  cache : Cache
  cacheIndex : Nat
  scratch : List (JPath × String)
deriving DecidableEq, Repr

/-- A freshly constructed `CompileModules` instance. -/
def initState : BState := ⟨[], 0, []⟩

/-- Observable events of one `write` invocation, recorded in order.
They instrument the model; no decision of the embedded code depends on
them. -/
inductive Ev where
  | mode (bundle : Bool)
  | reuseBundle (key : JPath) (entryHash freshHash : String)
  | reuseModule (key : JPath) (entryHash freshHash : String)
  | queuedMods (rels : List JPath)
  | containerNew (modulePaths : List JPath)
  | cachePut (key : JPath) (isBundleEntry : Bool)
deriving DecidableEq, Repr

/-! ### Materializer (`copyFromCache`) and passthrough copying -/

/-- Copy the listed artifact files from the cache sub-directory into the
destination: errors when a recorded artifact is missing from the scratch
area (`copyPreserveSync` raises `ENOENT`). New writes are prepended. -/
def copyFiles (scratch : List (JPath × String)) (cacheDir destDirArg : JPath) :
    List JPath → List (JPath × String) → Except String (List (JPath × String))
  | [], dest => .ok dest
  | f :: fs, dest =>
    match alookup scratch (joinP cacheDir f) with
    | some bytes => copyFiles scratch cacheDir destDirArg fs ((joinP destDirArg f, bytes) :: dest)
    | none => .error "copyPreserveSync: ENOENT"

/-- `CompileModules.prototype.copyFromCache`. -/
def copyFromCache (scratch : List (JPath × String)) (e : CacheEntry) (destDirArg : JPath)
    (dest : List (JPath × String)) : Except String (List (JPath × String)) :=
  match e.dir with
  | none => .error "cacheEntry.dir is undefined"
  | some cacheDir => copyFiles scratch cacheDir destDirArg e.outputFiles dest

/-- The walk loop of `write`: copy every non-module file to the
destination unconditionally (`copyPreserveSync` reads through symlinks). -/
def copyPassthroughGo (tree : SrcTree) (destDir : JPath) :
    List (JPath × FNode) → List (JPath × String) → List (JPath × String)
  | [], dest => dest
  | (k, n) :: rest, dest =>
    copyPassthroughGo tree destDir rest
      (if extnameP k = ".js" then dest
       else (joinP destDir k, (readNode tree n).getD "") :: dest)

/-- The module files collected by the walk loop (`.js` extension). -/
def modulesOf (tree : SrcTree) : List JPath :=
  (tree.map Prod.fst).filter (fun k => decide (extnameP k = ".js"))

/-! ### The reuse decisions of `write` -/

/-- Directory mode, per module: the cache entry is reused iff present and
its hash equals a fresh hash of the module file. -/
def validEntry (cache : Cache) (tree : SrcTree) (srcDir : JPath) (m : JPath) :
    Option CacheEntry :=
  match alookup cache m with
  | some e => if e.hash = hashOne tree srcDir m then some e else none
  | none => none

/-- Bundle mode: the entry keyed by the output file's base name is reused
iff present and its hash equals the aggregate hash of all module files. -/
def bundleValid (cache : Cache) (tree : SrcTree) (srcDir : JPath) (outputPath : JPath)
    (modules : List JPath) : Option CacheEntry :=
  match alookup cache ⟨false, [basenameP outputPath]⟩ with
  | some e => if e.hash = hashList tree srcDir modules then some e else none
  | none => none

/-! ### The container (external transpiler) -/

/-- `relPath + '.map'`. -/
def mapName (p : JPath) : JPath := onLastSeg (fun s => s ++ ".map") p

/-- The external `FileResolver` reading and parsing a module file
(`fs.readFileSync` follows symlinks). -/
def freshModule (T : Transp) (tree : SrcTree) (srcDir : JPath)
    (resolvedPath importedPath : JPath) : Except String ModuleData :=
  match (lookupTree tree (relativeP srcDir resolvedPath)).bind (readNode tree) with
  | some c => .ok ⟨resolvedPath, importedPath, T.parseAst c, T.parseScope c,
      .base (T.parseImports c), .base (T.parseExports c), false⟩
  | none => .error "FileResolver: cannot resolve module"

/-- `container.getModule(modulePath)`: the `CacheResolver` is consulted
first, then the `FileResolver`; the resulting module is registered. -/
def getModule (T : Transp) (cache : Cache) (srcDir : JPath) (tree : SrcTree)
    (registry : List (JPath × ModuleData)) (modulePath : JPath) :
    Except String (ModuleData × List (JPath × ModuleData)) :=
  match resolveModule cache srcDir tree modulePath none registry with
  | .error e => .error e
  | .ok (.live m) => .ok (m, registry)
  | .ok (.hydrated _ m) => .ok (m, (m.path, m) :: registry)
  | .ok .absent =>
    match freshModule T tree srcDir (resolvePath srcDir modulePath none) modulePath with
    | .ok m => .ok (m, (m.path, m) :: registry)
    | .error e => .error e

/-- `modulePaths.map(container.getModule)` threading the registry. -/
def getModules (T : Transp) (cache : Cache) (srcDir : JPath) (tree : SrcTree) :
    List JPath → List (JPath × ModuleData) →
    Except String (List ModuleData × List (JPath × ModuleData))
  | [], registry => .ok ([], registry)
  | mp :: rest, registry =>
    match getModule T cache srcDir tree registry mp with
    | .error e => .error e
    | .ok (md, registry') =>
      match getModules T cache srcDir tree rest registry' with
      | .error e => .error e
      | .ok (mds, registry'') => .ok (md :: mds, registry'')

/-- Files `container.write(target)` places in the fresh cache
sub-directory in directory mode: one compiled file and one source map per
module, mirroring the source-relative layout. -/
def dirScratchFiles (T : Transp) (tree : SrcTree) (srcDir cacheDir : JPath) :
    List ModuleData → List (JPath × String)
  | [] => []
  | md :: rest =>
    let rel := relativeP srcDir md.path
    (joinP cacheDir rel, T.gen tree rel) ::
      (joinP cacheDir (mapName rel), T.genMap tree rel) ::
      dirScratchFiles T tree srcDir cacheDir rest

/-- Files `container.write(target)` places in bundle mode: the fused
output file (at `cacheDir/basename(outputPath)`) and its source map. -/
def bundleScratchFiles (T : Transp) (tree : SrcTree) (cacheDir outputPath : JPath)
    (queued : List JPath) : List (JPath × String) :=
  let base : JPath := ⟨false, [basenameP outputPath]⟩
  [(joinP cacheDir base, T.genBundle tree queued),
   (joinP cacheDir (mapName base), T.genBundleMap tree queued)]

/-! ### `compileAndCacheModules` -/

/-- The `modules.forEach` bookkeeping loop of `compileAndCacheModules`:
hash each visited module, store its cache entry (un-wrapping a
`CachedModule`'s `imports`/`exports`), and in directory mode record the
output artifacts and copy them to the destination; in bundle mode
accumulate the per-module hashes instead. -/
def cacheModulesLoop (tree : SrcTree) (srcDir outputPath cacheDir : JPath)
    (outputIsFile : Bool) (scratch : List (JPath × String)) :
    List ModuleData → Cache → List (JPath × String) → List Ev → List String →
    Except String (Cache × List (JPath × String) × List Ev × List String)
  | [], cache, dest, evs, outputHash => .ok (cache, dest, evs, outputHash)
  | md :: rest, cache, dest, evs, outputHash =>
    let h := (hashFile tree srcDir md.path).getD "ENOENT"
    let rel := relativeP srcDir md.path
    let modImports := if md.isCachedModule then getProto md.imports else md.imports
    let modExports := if md.isCachedModule then getProto md.exports else md.exports
    if outputIsFile then
      let entry : CacheEntry :=
        { hash := h, ast := some md.ast, scope := some md.scope,
          imports := some modImports, exports := some modExports }
      cacheModulesLoop tree srcDir outputPath cacheDir outputIsFile scratch rest
        ((rel, entry) :: cache) dest (evs ++ [.cachePut rel false]) (outputHash ++ [h])
    else
      let entry : CacheEntry :=
        { hash := h, ast := some md.ast, scope := some md.scope,
          imports := some modImports, exports := some modExports,
          dir := some cacheDir, outputFiles := [rel, mapName rel] }
      match copyFromCache scratch entry outputPath dest with
      | .error e => .error e
      | .ok dest' =>
        cacheModulesLoop tree srcDir outputPath cacheDir outputIsFile scratch rest
          ((rel, entry) :: cache) dest' (evs ++ [.cachePut rel false]) outputHash

/-- `CompileModules.prototype.compileAndCacheModules`. -/
def compileAndCacheModules (T : Transp) (st : BState) (tree : SrcTree)
    (srcDir outputPath cacheRoot : JPath) (modulePaths : List JPath)
    (dest : List (JPath × String)) (evs : List Ev) :
    Except String (BState × List (JPath × String) × List Ev) :=
  if modulePaths.length < 1 then .ok (st, dest, evs)
  else
    let outputIsFile : Bool := extnameP outputPath == ".js"
    let evs1 := evs ++ [.containerNew modulePaths]
    match getModules T st.cache srcDir tree modulePaths [] with
    | .error e => .error e
    | .ok (mods, _) =>
      let cacheDir := joinP cacheRoot ⟨false, [Nat.repr st.cacheIndex]⟩
      let scratch' :=
        (if outputIsFile then bundleScratchFiles T tree cacheDir outputPath modulePaths
         else dirScratchFiles T tree srcDir cacheDir mods) ++ st.scratch
      match cacheModulesLoop tree srcDir outputPath cacheDir outputIsFile scratch'
          mods st.cache dest evs1 [] with
      | .error e => .error e
      | .ok (cache', dest', evs', outputHash) =>
        if outputIsFile then
          let outputFile : JPath := ⟨false, [basenameP outputPath]⟩
          let entry : CacheEntry :=
            { hash := String.intercalate "," outputHash, dir := some cacheDir,
              outputFiles := [outputFile, mapName outputFile] }
          match copyFromCache scratch' entry (dirnameP outputPath) dest' with
          | .error e => .error e
          | .ok dest'' =>
            .ok (⟨(outputFile, entry) :: cache', st.cacheIndex + 1, scratch'⟩, dest'',
                 evs' ++ [.cachePut outputFile true])
        else
          .ok (⟨cache', st.cacheIndex + 1, scratch'⟩, dest', evs')

/-! ### `write` -/

/-- The module loop of `write` in directory mode: reuse valid entries
(copying their artifacts), queue the rest. -/
def dirCachePass (cache : Cache) (tree : SrcTree) (srcDir outputPath : JPath)
    (scratch : List (JPath × String)) :
    List JPath → List JPath → List (JPath × String) → List Ev →
    Except String (List JPath × List (JPath × String) × List Ev)
  | [], queued, dest, evs => .ok (queued, dest, evs)
  | m :: rest, queued, dest, evs =>
    match validEntry cache tree srcDir m with
    | some e =>
      match copyFromCache scratch e outputPath dest with
      | .error err => .error err
      | .ok dest' =>
        dirCachePass cache tree srcDir outputPath scratch rest queued dest'
          (evs ++ [.reuseModule m e.hash (hashOne tree srcDir m)])
    | none =>
      dirCachePass cache tree srcDir outputPath scratch rest (queued ++ [m]) dest evs

/-- `CompileModules.prototype.write` for one build invocation: walk the
source tree (collecting modules, copying passthrough files), decide reuse
per mode, then compile and cache the queued modules.  Returns the updated
instance state, the destination writes (newest first) and the event
trace. -/
def write (T : Transp) (st : BState) (tree : SrcTree)
    (srcDir destDir output cacheRoot : JPath) :
    Except String (BState × List (JPath × String) × List Ev) :=
  let outputPath := joinP destDir output
  let modules := modulesOf tree
  let dest0 := copyPassthroughGo tree destDir tree []
  let isFile : Bool := extnameP outputPath == ".js"
  let evs0 : List Ev := [.mode isFile]
  if isFile then
    match bundleValid st.cache tree srcDir outputPath modules with
    | some e =>
      match copyFromCache st.scratch e (dirnameP outputPath) dest0 with
      | .error err => .error err
      | .ok dest1 =>
        compileAndCacheModules T st tree srcDir outputPath cacheRoot [] dest1
          (evs0 ++ [.reuseBundle ⟨false, [basenameP outputPath]⟩ e.hash
                      (hashList tree srcDir modules), .queuedMods []])
    | none =>
      compileAndCacheModules T st tree srcDir outputPath cacheRoot modules dest0
        (evs0 ++ [.queuedMods modules])
  else
    match dirCachePass st.cache tree srcDir outputPath st.scratch modules [] dest0 evs0 with
    | .error err => .error err
    | .ok (queued, dest1, evs1) =>
      compileAndCacheModules T st tree srcDir outputPath cacheRoot queued dest1
        (evs1 ++ [.queuedMods queued])

/-! ### Observers on `write`'s result -/

def exOk {ε α : Type} : Except ε α → Bool
  | .ok _ => true
  | .error _ => false

def wState (r : Except String (BState × List (JPath × String) × List Ev)) : BState :=
  match r with
  | .ok (st, _, _) => st
  | .error _ => initState

def wDest (r : Except String (BState × List (JPath × String) × List Ev)) :
    List (JPath × String) :=
  match r with
  | .ok (_, d, _) => d
  | .error _ => []

def wTrace (r : Except String (BState × List (JPath × String) × List Ev)) : List Ev :=
  match r with
  | .ok (_, _, t) => t
  | .error _ => []

/-! ### Well-formedness and further basic lemmas -/

/-- Well-formed source tree snapshot: distinct normalized relative keys
(as `walk-sync` produces) and every node readable (no broken symlink —
reading one would abort the build before any claim-relevant behavior). -/
def treeWF (t : SrcTree) : Prop :=
  (t.map Prod.fst).Nodup ∧ ∀ e ∈ t, isNormRel e.1 ∧ readNode t e.2 ≠ none

instance (t : SrcTree) : Decidable (treeWF t) := by
  unfold treeWF; infer_instance

theorem alookup_isSome_of_mem {α β : Type} [DecidableEq α]
    (l : List (α × β)) (k : α) (h : k ∈ l.map Prod.fst) :
    ∃ v, alookup l k = some v := by
  induction l with
  | nil => simp at h
  | cons e rest ih =>
    obtain ⟨k0, v0⟩ := e
    by_cases hk : k0 = k
    · exact ⟨v0, by simp [hk]⟩
    · simp only [List.map_cons, List.mem_cons] at h
      rcases h with h | h
      · exact absurd h.symm hk
      · obtain ⟨v, hv⟩ := ih h
        exact ⟨v, by simp [hk, hv]⟩

theorem alookup_mem {α β : Type} [DecidableEq α]
    (l : List (α × β)) (k : α) (v : β) (h : alookup l k = some v) :
    (k, v) ∈ l := by
  induction l with
  | nil => simp at h
  | cons e rest ih =>
    obtain ⟨k0, v0⟩ := e
    by_cases hk : k0 = k
    · subst hk
      simp at h
      simp [h]
    · simp [hk] at h
      exact List.mem_cons_of_mem _ (ih h)

theorem mem_modulesOf (tree : SrcTree) (m : JPath) (h : m ∈ modulesOf tree) :
    m ∈ tree.map Prod.fst ∧ extnameP m = ".js" := by
  unfold modulesOf at h
  have h1 := List.of_mem_filter h
  have h2 := List.mem_of_mem_filter h
  exact ⟨h2, by simpa using h1⟩

/-- Every walked module file has a node, is readable and well-formed. -/
theorem module_facts (tree : SrcTree) (m : JPath) (hwf : treeWF tree)
    (h : m ∈ modulesOf tree) :
    extnameP m = ".js" ∧ isNormRel m ∧
      ∃ nd, lookupTree tree m = some nd ∧ readNode tree nd ≠ none := by
  obtain ⟨hmem, hext⟩ := mem_modulesOf tree m h
  obtain ⟨nd, hnd⟩ := alookup_isSome_of_mem tree m hmem
  have hin : (m, nd) ∈ tree := alookup_mem tree m nd hnd
  obtain ⟨hrel, hread⟩ := hwf.2 (m, nd) hin
  exact ⟨hext, hrel, nd, hnd, hread⟩

theorem modulesOf_nodup (tree : SrcTree) (hwf : treeWF tree) :
    (modulesOf tree).Nodup :=
  List.Nodup.filter _ hwf.1

/-! ### Composite path lemmas -/

theorem extnameP_ne_nil (p : JPath) (h : extnameP p ≠ "") : p.segs ≠ [] := by
  intro hnil
  apply h
  unfold extnameP basenameP
  rw [hnil]
  rfl

theorem goodSeg_basenameP (p : JPath) (hgood : ∀ s ∈ p.segs, goodSeg s)
    (hne : p.segs ≠ []) : goodSeg (basenameP p) := by
  unfold basenameP
  rw [List.getLast?_eq_getLast_of_ne_nil hne]
  simp only [Option.getD_some]
  exact hgood _ (List.getLast_mem hne)

theorem joinP_inj (d a b : JPath) (hd : isNormAbs d)
    (ha : isNormRel a) (hb : isNormRel b) (h : joinP d a = joinP d b) : a = b := by
  rw [joinP_segs d a hd.2 ha.2.2, joinP_segs d b hd.2 hb.2.2] at h
  have hsegs : a.segs = b.segs := by
    have := congrArg JPath.segs h
    simpa using this
  cases a with
  | mk aab asegs =>
    cases b with
    | mk bab bsegs =>
      obtain ⟨ha1, -, -⟩ := ha
      obtain ⟨hb1, -, -⟩ := hb
      simp at ha1 hb1 hsegs
      simp [ha1, hb1, hsegs]

theorem mapName_segs (m : JPath) :
    (mapName m).segs = m.segs.dropLast ++ [((m.segs.getLast?).getD "") ++ ".map"] := rfl

theorem length_map_lit : (".map" : String).length = 4 := rfl

theorem str_append_map_ne (s : String) : s ≠ s ++ ".map" := by
  intro h
  have hl := congrArg String.length h
  rw [String.length_append, length_map_lit] at hl
  omega

theorem goodSeg_append_map (s : String) : goodSeg (s ++ ".map") := by
  refine ⟨?_, ?_, ?_⟩ <;> intro h <;> have hl := congrArg String.length h <;>
    rw [String.length_append, length_map_lit] at hl
  · have h0 : ("" : String).length = 0 := rfl
    rw [h0] at hl; omega
  · have h1 : ("." : String).length = 1 := rfl
    rw [h1] at hl; omega
  · have h2 : (".." : String).length = 2 := rfl
    rw [h2] at hl; omega

theorem isNormRel_mapName (m : JPath) (hm : isNormRel m) : isNormRel (mapName m) := by
  obtain ⟨h1, h2, h3⟩ := hm
  refine ⟨h1, by simp [mapName, onLastSeg], ?_⟩
  intro s hs
  simp only [mapName, onLastSeg] at hs
  rcases List.mem_append.mp hs with h | h
  · exact h3 s (List.dropLast_subset _ h)
  · simp at h
    rw [h]
    exact goodSeg_append_map _

theorem extnameP_mapName (m : JPath) (hm : isNormRel m) :
    extnameP (mapName m) = ".map" := by
  obtain ⟨-, h2, h3⟩ := hm
  unfold extnameP basenameP mapName onLastSeg
  simp only
  rw [List.getLast?_concat]
  simp only [Option.getD_some]
  apply extnameOfName_map
  rw [List.getLast?_eq_getLast_of_ne_nil h2]
  simp only [Option.getD_some]
  exact (h3 _ (List.getLast_mem h2)).1

theorem mapName_ne_module (m m' : JPath) (hm : isNormRel m) (hext : extnameP m' = ".js") :
    mapName m ≠ m' := by
  intro h
  have := extnameP_mapName m hm
  rw [h, hext] at this
  simp at this

/-- `CacheResolver.resolvePath` on a top-level module path: resolves to
`srcDir/modulePath` with no extension appended. -/
theorem resolvePath_module (srcDir m : JPath) (hsrc : isNormAbs srcDir)
    (hm : isNormRel m) (hext : extnameP m = ".js") :
    resolvePath srcDir m none = joinP srcDir m := by
  unfold resolvePath
  simp only
  rw [resolveP_rel srcDir m hm.1]
  rw [if_pos]
  rw [extnameP_joinP srcDir m hsrc.2 hm.2.2 hm.2.1]
  exact hext

theorem hashFile_joinP (tree : SrcTree) (srcDir m : JPath) (hsrc : isNormAbs srcDir)
    (hm : isNormRel m) :
    hashFile tree srcDir (joinP srcDir m) = (lookupTree tree m).map hashNode := by
  unfold hashFile
  rw [relativeP_joinP srcDir m hsrc hm]

theorem hashOne_node (tree : SrcTree) (srcDir m : JPath) (hsrc : isNormAbs srcDir)
    (hm : isNormRel m) (nd : FNode) (hnd : lookupTree tree m = some nd) :
    hashOne tree srcDir m = hashNode nd := by
  rw [hashOne_eq, hashFile_joinP tree srcDir m hsrc hm, hnd]
  rfl

/-! ### Reuse-check characterizations (used by C4 and others) -/

theorem validEntry_eq_some (cache : Cache) (tree : SrcTree) (srcDir m : JPath)
    (e : CacheEntry) (hl : alookup cache m = some e)
    (hh : e.hash = hashOne tree srcDir m) :
    validEntry cache tree srcDir m = some e := by
  simp [validEntry, hl, hh]

theorem validEntry_some (cache : Cache) (tree : SrcTree) (srcDir m : JPath)
    (e : CacheEntry) (h : validEntry cache tree srcDir m = some e) :
    alookup cache m = some e ∧ e.hash = hashOne tree srcDir m := by
  cases hl : alookup cache m with
  | none => simp [validEntry, hl] at h
  | some e' =>
    by_cases hh : e'.hash = hashOne tree srcDir m
    · have he : validEntry cache tree srcDir m = some e' := by simp [validEntry, hl, hh]
      rw [he] at h
      have hee : e' = e := Option.some.inj h
      subst hee
      exact ⟨rfl, hh⟩
    · have he : validEntry cache tree srcDir m = none := by simp [validEntry, hl, hh]
      rw [he] at h
      simp at h

theorem validEntry_none_of_mismatch (cache : Cache) (tree : SrcTree) (srcDir m : JPath)
    (e : CacheEntry) (hl : alookup cache m = some e)
    (hh : e.hash ≠ hashOne tree srcDir m) :
    validEntry cache tree srcDir m = none := by
  simp [validEntry, hl, hh]

theorem validEntry_none_of_absent (cache : Cache) (tree : SrcTree) (srcDir m : JPath)
    (hl : alookup cache m = none) :
    validEntry cache tree srcDir m = none := by
  simp [validEntry, hl]

theorem bundleValid_eq_some (cache : Cache) (tree : SrcTree) (srcDir outputPath : JPath)
    (modules : List JPath) (e : CacheEntry)
    (hl : alookup cache ⟨false, [basenameP outputPath]⟩ = some e)
    (hh : e.hash = hashList tree srcDir modules) :
    bundleValid cache tree srcDir outputPath modules = some e := by
  simp [bundleValid, hl, hh]

theorem bundleValid_some (cache : Cache) (tree : SrcTree) (srcDir outputPath : JPath)
    (modules : List JPath) (e : CacheEntry)
    (h : bundleValid cache tree srcDir outputPath modules = some e) :
    alookup cache ⟨false, [basenameP outputPath]⟩ = some e ∧
      e.hash = hashList tree srcDir modules := by
  cases hl : alookup cache ⟨false, [basenameP outputPath]⟩ with
  | none => simp [bundleValid, hl] at h
  | some e' =>
    by_cases hh : e'.hash = hashList tree srcDir modules
    · have he : bundleValid cache tree srcDir outputPath modules = some e' := by
        simp [bundleValid, hl, hh]
      rw [he] at h
      have hee : e' = e := Option.some.inj h
      subst hee
      exact ⟨rfl, hh⟩
    · have he : bundleValid cache tree srcDir outputPath modules = none := by
        simp [bundleValid, hl, hh]
      rw [he] at h
      simp at h

theorem str_append_cancel_right (s t u : String) (h : s ++ u = t ++ u) : s = t := by
  have hd := congrArg String.data h
  rw [String.data_append, String.data_append] at hd
  exact String.ext (List.append_cancel_right hd)

theorem mapName_inj (a b : JPath) (ha : isNormRel a) (hb : isNormRel b)
    (h : mapName a = mapName b) : a = b := by
  obtain ⟨ha1, ha2, -⟩ := ha
  obtain ⟨hb1, hb2, -⟩ := hb
  have habs : a.abs = b.abs := by rw [ha1, hb1]
  have hsegs := congrArg JPath.segs h
  rw [mapName_segs, mapName_segs] at hsegs
  rw [List.getLast?_eq_getLast_of_ne_nil ha2, List.getLast?_eq_getLast_of_ne_nil hb2] at hsegs
  simp only [Option.getD_some] at hsegs
  have hdl : a.segs.dropLast = b.segs.dropLast := by
    have := congrArg List.dropLast hsegs
    simpa [List.dropLast_concat] using this
  have hlast : a.segs.getLast ha2 ++ ".map" = b.segs.getLast hb2 ++ ".map" := by
    have := congrArg List.getLast? hsegs
    rw [List.getLast?_concat, List.getLast?_concat] at this
    exact Option.some.inj this
  have hl := str_append_cancel_right _ _ _ hlast
  have : a.segs = b.segs := by
    rw [← List.dropLast_append_getLast ha2, ← List.dropLast_append_getLast hb2, hdl, hl]
  cases a; cases b
  simp_all

/-! ### Specification-side accumulators for the compile pipeline -/

/-- Total version of `copyFiles` under the assumption that every artifact
is present (values read off the scratch area). -/
def copyVals (scratch : List (JPath × String)) (cacheDir destDirArg : JPath) :
    List JPath → List (JPath × String) → List (JPath × String)
  | [], dest => dest
  | f :: fs, dest =>
    copyVals scratch cacheDir destDirArg fs
      ((joinP destDirArg f, (alookup scratch (joinP cacheDir f)).getD "") :: dest)

theorem copyFiles_ok (scratch : List (JPath × String)) (cacheDir destDirArg : JPath) :
    ∀ (fs : List JPath) (dest : List (JPath × String)),
      (∀ f ∈ fs, (alookup scratch (joinP cacheDir f)).isSome) →
      copyFiles scratch cacheDir destDirArg fs dest =
        .ok (copyVals scratch cacheDir destDirArg fs dest) := by
  intro fs
  induction fs with
  | nil => intro dest _; rfl
  | cons f fs ih =>
    intro dest h
    have hf := h f (by simp)
    obtain ⟨bytes, hb⟩ := Option.isSome_iff_exists.mp hf
    unfold copyFiles copyVals
    rw [hb]
    simp only [Option.getD_some]
    exact ih _ (fun f' hf' => h f' (by simp [hf']))

theorem copyFiles_error (scratch : List (JPath × String)) (cacheDir destDirArg : JPath) :
    ∀ (fs : List JPath) (dest : List (JPath × String)) (f : JPath), f ∈ fs →
      alookup scratch (joinP cacheDir f) = none →
      copyFiles scratch cacheDir destDirArg fs dest = .error "copyPreserveSync: ENOENT" := by
  intro fs
  induction fs with
  | nil => intro dest f h; simp at h
  | cons f0 fs ih =>
    intro dest f hmem hnone
    rcases List.mem_cons.mp hmem with h | h
    · subst h
      unfold copyFiles
      rw [hnone]
    · unfold copyFiles
      cases hl : alookup scratch (joinP cacheDir f0) with
      | none => rfl
      | some bytes => exact ih _ f h hnone

/-- The external `FileResolver`'s freshly parsed module for a walked
module path. -/
def freshOf (T : Transp) (tree : SrcTree) (srcDir m : JPath) : ModuleData :=
  let c := ((lookupTree tree m).bind (readNode tree)).getD ""
  ⟨joinP srcDir m, m, T.parseAst c, T.parseScope c,
    .base (T.parseImports c), .base (T.parseExports c), false⟩

/-- The module `container.getModule` yields for a queued module path:
hydrated from the cache when the entry is valid, freshly parsed
otherwise. -/
def moduleFor (T : Transp) (cache : Cache) (tree : SrcTree) (srcDir m : JPath) : ModuleData :=
  match validEntry cache tree srcDir m with
  | some e => mkCachedModule (joinP srcDir m) m e
  | none => freshOf T tree srcDir m

theorem moduleFor_path (T : Transp) (cache : Cache) (tree : SrcTree) (srcDir m : JPath) :
    (moduleFor T cache tree srcDir m).path = joinP srcDir m := by
  unfold moduleFor
  cases validEntry cache tree srcDir m <;> rfl

theorem moduleFor_not_cached_of_none (T : Transp) (cache : Cache) (tree : SrcTree)
    (srcDir m : JPath) (h : validEntry cache tree srcDir m = none) :
    moduleFor T cache tree srcDir m = freshOf T tree srcDir m := by
  unfold moduleFor
  rw [h]

theorem moduleFor_of_some (T : Transp) (cache : Cache) (tree : SrcTree)
    (srcDir m : JPath) (e : CacheEntry) (h : validEntry cache tree srcDir m = some e) :
    moduleFor T cache tree srcDir m = mkCachedModule (joinP srcDir m) m e := by
  unfold moduleFor
  rw [h]

/-! ### `resolveModule` step equations -/

theorem resolveModule_live (cache : Cache) (srcDir : JPath) (tree : SrcTree)
    (imp : JPath) (fm : Option ModuleData) (registry : List (JPath × ModuleData))
    (md : ModuleData)
    (hreg : alookup registry (resolvePath srcDir imp fm) = some md) :
    resolveModule cache srcDir tree imp fm registry = .ok (.live md) := by
  simp [resolveModule, hreg]

theorem resolveModule_absent_nocache (cache : Cache) (srcDir : JPath) (tree : SrcTree)
    (imp : JPath) (fm : Option ModuleData) (registry : List (JPath × ModuleData))
    (hreg : alookup registry (resolvePath srcDir imp fm) = none)
    (hcache : alookup cache (relativeP srcDir (resolvePath srcDir imp fm)) = none) :
    resolveModule cache srcDir tree imp fm registry = .ok .absent := by
  simp [resolveModule, hreg, hcache]

theorem resolveModule_hydrated (cache : Cache) (srcDir : JPath) (tree : SrcTree)
    (imp : JPath) (fm : Option ModuleData) (registry : List (JPath × ModuleData))
    (e : CacheEntry) (h : String)
    (hreg : alookup registry (resolvePath srcDir imp fm) = none)
    (hcache : alookup cache (relativeP srcDir (resolvePath srcDir imp fm)) = some e)
    (hhash : hashFile tree srcDir (resolvePath srcDir imp fm) = some h)
    (heq : e.hash = h) :
    resolveModule cache srcDir tree imp fm registry =
      .ok (.hydrated e (mkCachedModule (resolvePath srcDir imp fm) imp e)) := by
  simp [resolveModule, hreg, hcache, hhash, heq]

theorem resolveModule_absent_mismatch (cache : Cache) (srcDir : JPath) (tree : SrcTree)
    (imp : JPath) (fm : Option ModuleData) (registry : List (JPath × ModuleData))
    (e : CacheEntry) (h : String)
    (hreg : alookup registry (resolvePath srcDir imp fm) = none)
    (hcache : alookup cache (relativeP srcDir (resolvePath srcDir imp fm)) = some e)
    (hhash : hashFile tree srcDir (resolvePath srcDir imp fm) = some h)
    (hne : e.hash ≠ h) :
    resolveModule cache srcDir tree imp fm registry = .ok .absent := by
  simp [resolveModule, hreg, hcache, hhash, hne]

theorem resolveModule_hash_error (cache : Cache) (srcDir : JPath) (tree : SrcTree)
    (imp : JPath) (fm : Option ModuleData) (registry : List (JPath × ModuleData))
    (e : CacheEntry)
    (hreg : alookup registry (resolvePath srcDir imp fm) = none)
    (hcache : alookup cache (relativeP srcDir (resolvePath srcDir imp fm)) = some e)
    (hhash : hashFile tree srcDir (resolvePath srcDir imp fm) = none) :
    resolveModule cache srcDir tree imp fm registry = .error "hashFile: ENOENT" := by
  simp [resolveModule, hreg, hcache, hhash]

theorem freshModule_ok (T : Transp) (tree : SrcTree) (srcDir rp imp : JPath)
    (nd : FNode) (c : String)
    (hnd : lookupTree tree (relativeP srcDir rp) = some nd)
    (hc : readNode tree nd = some c) :
    freshModule T tree srcDir rp imp =
      .ok ⟨rp, imp, T.parseAst c, T.parseScope c,
        .base (T.parseImports c), .base (T.parseExports c), false⟩ := by
  simp [freshModule, hnd, hc]

/-! ### `getModules` characterization -/

theorem getModule_char (T : Transp) (cache : Cache) (srcDir : JPath) (tree : SrcTree)
    (hsrc : isNormAbs srcDir) (hwf : treeWF tree)
    (registry : List (JPath × ModuleData)) (m : JPath)
    (hm : m ∈ modulesOf tree)
    (hreg : alookup registry (joinP srcDir m) = none) :
    getModule T cache srcDir tree registry m =
      .ok (moduleFor T cache tree srcDir m,
           (joinP srcDir m, moduleFor T cache tree srcDir m) :: registry) := by
  obtain ⟨hext, hrel, nd, hnd, hread⟩ := module_facts tree m hwf hm
  have hrp : resolvePath srcDir m none = joinP srcDir m :=
    resolvePath_module srcDir m hsrc hrel hext
  have hrel2 : relativeP srcDir (joinP srcDir m) = m := relativeP_joinP srcDir m hsrc hrel
  have hhf : hashFile tree srcDir (joinP srcDir m) = some (hashNode nd) := by
    rw [hashFile_joinP tree srcDir m hsrc hrel, hnd]
    rfl
  obtain ⟨c, hc⟩ := Option.ne_none_iff_exists'.mp hread
  have hfm : freshModule T tree srcDir (joinP srcDir m) m = .ok (freshOf T tree srcDir m) := by
    rw [freshModule_ok T tree srcDir (joinP srcDir m) m nd c (by rw [hrel2, hnd]) hc]
    unfold freshOf
    rw [hnd]
    simp [hc]
  cases hl : alookup cache m with
  | none =>
    have hve : validEntry cache tree srcDir m = none := validEntry_none_of_absent _ _ _ _ hl
    have hrm : resolveModule cache srcDir tree m none registry = .ok .absent :=
      resolveModule_absent_nocache cache srcDir tree m none registry
        (by rw [hrp]; exact hreg) (by rw [hrp, hrel2]; exact hl)
    rw [moduleFor_not_cached_of_none T cache tree srcDir m hve]
    simp [getModule, hrm, hrp, hfm]
    unfold freshOf
    simp
  | some e =>
    by_cases hh : e.hash = hashNode nd
    · have hve : validEntry cache tree srcDir m = some e :=
        validEntry_eq_some cache tree srcDir m e hl
          (by rw [hh, hashOne_node tree srcDir m hsrc hrel nd hnd])
      have hrm : resolveModule cache srcDir tree m none registry =
          .ok (.hydrated e (mkCachedModule (resolvePath srcDir m none) m e)) :=
        resolveModule_hydrated cache srcDir tree m none registry e (hashNode nd)
          (by rw [hrp]; exact hreg) (by rw [hrp, hrel2]; exact hl)
          (by rw [hrp]; exact hhf) hh
      rw [moduleFor_of_some T cache tree srcDir m e hve]
      simp [getModule, hrm, hrp]
      unfold mkCachedModule
      simp
    · have hve : validEntry cache tree srcDir m = none :=
        validEntry_none_of_mismatch cache tree srcDir m e hl
          (by rw [hashOne_node tree srcDir m hsrc hrel nd hnd]; exact hh)
      have hrm : resolveModule cache srcDir tree m none registry = .ok .absent :=
        resolveModule_absent_mismatch cache srcDir tree m none registry e (hashNode nd)
          (by rw [hrp]; exact hreg) (by rw [hrp, hrel2]; exact hl)
          (by rw [hrp]; exact hhf) hh
      rw [moduleFor_not_cached_of_none T cache tree srcDir m hve]
      simp [getModule, hrm, hrp, hfm]
      unfold freshOf
      simp

theorem getModules_char (T : Transp) (cache : Cache) (srcDir : JPath) (tree : SrcTree)
    (hsrc : isNormAbs srcDir) (hwf : treeWF tree) :
    ∀ (mps : List JPath) (registry : List (JPath × ModuleData)),
      (∀ m ∈ mps, m ∈ modulesOf tree) → mps.Nodup →
      (∀ m ∈ mps, alookup registry (joinP srcDir m) = none) →
      ∃ regOut, getModules T cache srcDir tree mps registry =
        .ok (mps.map (moduleFor T cache tree srcDir), regOut) := by
  intro mps
  induction mps with
  | nil => intro registry _ _ _; exact ⟨registry, rfl⟩
  | cons m rest ih =>
    intro registry hmem hnodup hreg
    have hm := hmem m (by simp)
    have hgm := getModule_char T cache srcDir tree hsrc hwf registry m hm
      (hreg m (by simp))
    have hreg' : ∀ m' ∈ rest,
        alookup ((joinP srcDir m, moduleFor T cache tree srcDir m) :: registry)
          (joinP srcDir m') = none := by
      intro m' hm'
      have hne : m ≠ m' := by
        intro h
        rw [h] at hnodup
        exact (List.nodup_cons.mp hnodup).1 hm'
      have hrelm := (module_facts tree m hwf hm).2.1
      have hrelm' := (module_facts tree m' hwf (hmem m' (by simp [hm']))).2.1
      have : joinP srcDir m ≠ joinP srcDir m' := by
        intro h
        exact hne (joinP_inj srcDir m m' hsrc hrelm hrelm' h)
      simp [this, hreg m' (by simp [hm'])]
    obtain ⟨regOut, hrest⟩ := ih ((joinP srcDir m, moduleFor T cache tree srcDir m) :: registry)
      (fun m' hm' => hmem m' (by simp [hm'])) (List.nodup_cons.mp hnodup).2 hreg'
    refine ⟨regOut, ?_⟩
    unfold getModules
    rw [hgm]
    simp only []
    rw [hrest]
    simp

/-! ### Loop characterizations -/

/-- The cache entry stored for a visited module in directory mode. -/
def dirEntryFor (T : Transp) (cache0 : Cache) (tree : SrcTree) (srcDir cd m : JPath) :
    CacheEntry :=
  let md := moduleFor T cache0 tree srcDir m
  { hash := hashOne tree srcDir m, ast := some md.ast, scope := some md.scope,
    imports := some (if md.isCachedModule then getProto md.imports else md.imports),
    exports := some (if md.isCachedModule then getProto md.exports else md.exports),
    dir := some cd, outputFiles := [m, mapName m] }

/-- The cache entry stored for a visited module in bundle mode. -/
def metaEntryFor (T : Transp) (cache0 : Cache) (tree : SrcTree) (srcDir m : JPath) :
    CacheEntry :=
  let md := moduleFor T cache0 tree srcDir m
  { hash := hashOne tree srcDir m, ast := some md.ast, scope := some md.scope,
    imports := some (if md.isCachedModule then getProto md.imports else md.imports),
    exports := some (if md.isCachedModule then getProto md.exports else md.exports) }

def cacheStackDir (T : Transp) (cache0 : Cache) (tree : SrcTree) (srcDir cd : JPath) :
    List JPath → Cache → Cache
  | [], c => c
  | m :: r, c =>
    cacheStackDir T cache0 tree srcDir cd r ((m, dirEntryFor T cache0 tree srcDir cd m) :: c)

def cacheStackBundle (T : Transp) (cache0 : Cache) (tree : SrcTree) (srcDir : JPath) :
    List JPath → Cache → Cache
  | [], c => c
  | m :: r, c =>
    cacheStackBundle T cache0 tree srcDir r ((m, metaEntryFor T cache0 tree srcDir m) :: c)

def destStackDir (T : Transp) (tree : SrcTree) (outputPath : JPath) :
    List JPath → List (JPath × String) → List (JPath × String)
  | [], d => d
  | m :: r, d =>
    destStackDir T tree outputPath r
      ((joinP outputPath (mapName m), T.genMap tree m) ::
        (joinP outputPath m, T.gen tree m) :: d)

/-- Scratch contents `container.write` produces in directory mode, at the
path level. -/
def dsfSpec (T : Transp) (tree : SrcTree) (cd : JPath) : List JPath → List (JPath × String)
  | [] => []
  | m :: r =>
    (joinP cd m, T.gen tree m) :: (joinP cd (mapName m), T.genMap tree m) :: dsfSpec T tree cd r

theorem dirScratchFiles_map (T : Transp) (cache0 : Cache) (tree : SrcTree)
    (srcDir cd : JPath) (hsrc : isNormAbs srcDir) :
    ∀ (mps : List JPath), (∀ m ∈ mps, isNormRel m) →
      dirScratchFiles T tree srcDir cd (mps.map (moduleFor T cache0 tree srcDir)) =
        dsfSpec T tree cd mps := by
  intro mps
  induction mps with
  | nil => intro _; rfl
  | cons m r ih =>
    intro h
    have hrel : isNormRel m := h m (by simp)
    have hrw : relativeP srcDir (moduleFor T cache0 tree srcDir m).path = m := by
      rw [moduleFor_path]
      exact relativeP_joinP srcDir m hsrc hrel
    simp only [List.map_cons]
    unfold dirScratchFiles dsfSpec
    rw [hrw, ih (fun x hx => h x (by simp [hx]))]

theorem dsf_lookup_gen (T : Transp) (tree : SrcTree) (cd : JPath) (hcd : isNormAbs cd) :
    ∀ (mps : List JPath) (rest : List (JPath × String)) (m : JPath),
      (∀ x ∈ mps, isNormRel x ∧ extnameP x = ".js") → m ∈ mps →
      alookup (dsfSpec T tree cd mps ++ rest) (joinP cd m) = some (T.gen tree m) := by
  intro mps
  induction mps with
  | nil => intro rest m _ hm; simp at hm
  | cons m0 r ih =>
    intro rest m hwfm hm
    have h0 := hwfm m0 (by simp)
    have hmw := hwfm m hm
    unfold dsfSpec
    by_cases hemm : m0 = m
    · subst hemm
      simp
    · have hk1 : joinP cd m0 ≠ joinP cd m := by
        intro h
        exact hemm (joinP_inj cd m0 m hcd h0.1 hmw.1 h)
      have hk2 : joinP cd (mapName m0) ≠ joinP cd m := by
        intro h
        have := joinP_inj cd (mapName m0) m hcd (isNormRel_mapName m0 h0.1) hmw.1 h
        exact mapName_ne_module m0 m h0.1 hmw.2 this
      rcases List.mem_cons.mp hm with h | h
      · exact absurd h.symm hemm
      · simp only [List.cons_append, alookup_cons, hk1, hk2, if_neg]
        exact ih rest m (fun x hx => hwfm x (by simp [hx])) h

theorem dsf_lookup_map (T : Transp) (tree : SrcTree) (cd : JPath) (hcd : isNormAbs cd) :
    ∀ (mps : List JPath) (rest : List (JPath × String)) (m : JPath),
      (∀ x ∈ mps, isNormRel x ∧ extnameP x = ".js") → m ∈ mps →
      alookup (dsfSpec T tree cd mps ++ rest) (joinP cd (mapName m)) =
        some (T.genMap tree m) := by
  intro mps
  induction mps with
  | nil => intro rest m _ hm; simp at hm
  | cons m0 r ih =>
    intro rest m hwfm hm
    have h0 := hwfm m0 (by simp)
    have hmw := hwfm m hm
    unfold dsfSpec
    by_cases hemm : m0 = m
    · subst hemm
      have hk1 : joinP cd m0 ≠ joinP cd (mapName m0) := by
        intro h
        have := joinP_inj cd m0 (mapName m0) hcd h0.1 (isNormRel_mapName m0 h0.1) h
        exact mapName_ne_module m0 m0 h0.1 h0.2 this.symm
      simp [hk1]
    · have hk1 : joinP cd m0 ≠ joinP cd (mapName m) := by
        intro h
        have := joinP_inj cd m0 (mapName m) hcd h0.1 (isNormRel_mapName m hmw.1) h
        exact mapName_ne_module m m0 hmw.1 h0.2 this.symm
      have hk2 : joinP cd (mapName m0) ≠ joinP cd (mapName m) := by
        intro h
        have := joinP_inj cd (mapName m0) (mapName m) hcd
          (isNormRel_mapName m0 h0.1) (isNormRel_mapName m hmw.1) h
        exact hemm (mapName_inj m0 m h0.1 hmw.1 this)
      rcases List.mem_cons.mp hm with h | h
      · exact absurd h.symm hemm
      · simp only [List.cons_append, alookup_cons, hk1, hk2, if_neg]
        exact ih rest m (fun x hx => hwfm x (by simp [hx])) h

theorem loop_dir_char (T : Transp) (cache0 : Cache) (tree : SrcTree)
    (srcDir outputPath cd : JPath) (scratch : List (JPath × String))
    (hsrc : isNormAbs srcDir) :
    ∀ (mps : List JPath) (cache : Cache) (dest : List (JPath × String))
      (evs : List Ev) (oh : List String),
      (∀ m ∈ mps, isNormRel m) →
      (∀ m ∈ mps, alookup scratch (joinP cd m) = some (T.gen tree m) ∧
                  alookup scratch (joinP cd (mapName m)) = some (T.genMap tree m)) →
      cacheModulesLoop tree srcDir outputPath cd false scratch
          (mps.map (moduleFor T cache0 tree srcDir)) cache dest evs oh =
        .ok (cacheStackDir T cache0 tree srcDir cd mps cache,
             destStackDir T tree outputPath mps dest,
             evs ++ mps.map (fun m => .cachePut m false), oh) := by
  intro mps
  induction mps with
  | nil => intro cache dest evs oh _ _; simp [cacheModulesLoop, cacheStackDir, destStackDir]
  | cons m r ih =>
    intro cache dest evs oh hrel hscr
    have hm : isNormRel m := hrel m (by simp)
    have hrw : relativeP srcDir (moduleFor T cache0 tree srcDir m).path = m := by
      rw [moduleFor_path]
      exact relativeP_joinP srcDir m hsrc hm
    have hh : (hashFile tree srcDir (moduleFor T cache0 tree srcDir m).path).getD "ENOENT" =
        hashOne tree srcDir m := by
      rw [moduleFor_path, hashOne_eq]
    have hcf : copyFiles scratch cd outputPath [m, mapName m] dest =
        .ok ((joinP outputPath (mapName m), T.genMap tree m) ::
             (joinP outputPath m, T.gen tree m) :: dest) := by
      have h1 := (hscr m (by simp)).1
      have h2 := (hscr m (by simp)).2
      rw [copyFiles_ok scratch cd outputPath [m, mapName m] dest]
      · unfold copyVals copyVals copyVals
        rw [h1, h2]
        rfl
      · intro f hf
        rcases List.mem_cons.mp hf with h | h
        · rw [h, h1]; rfl
        · simp at h
          rw [h, h2]; rfl
    simp only [List.map_cons]
    unfold cacheModulesLoop
    simp only [Bool.false_eq_true, if_false, hrw, hh]
    unfold copyFromCache
    simp only [dirEntryFor]
    rw [hcf]
    simp only []
    rw [ih _ _ _ _ (fun x hx => hrel x (by simp [hx])) (fun x hx => hscr x (by simp [hx]))]
    simp [cacheStackDir, destStackDir, dirEntryFor, List.append_assoc]

theorem loop_bundle_char (T : Transp) (cache0 : Cache) (tree : SrcTree)
    (srcDir outputPath cd : JPath) (scratch : List (JPath × String))
    (hsrc : isNormAbs srcDir) :
    ∀ (mps : List JPath) (cache : Cache) (dest : List (JPath × String))
      (evs : List Ev) (oh : List String),
      (∀ m ∈ mps, isNormRel m) →
      cacheModulesLoop tree srcDir outputPath cd true scratch
          (mps.map (moduleFor T cache0 tree srcDir)) cache dest evs oh =
        .ok (cacheStackBundle T cache0 tree srcDir mps cache, dest,
             evs ++ mps.map (fun m => .cachePut m false),
             oh ++ mps.map (hashOne tree srcDir)) := by
  intro mps
  induction mps with
  | nil => intro cache dest evs oh _; simp [cacheModulesLoop, cacheStackBundle]
  | cons m r ih =>
    intro cache dest evs oh hrel
    have hm : isNormRel m := hrel m (by simp)
    have hrw : relativeP srcDir (moduleFor T cache0 tree srcDir m).path = m := by
      rw [moduleFor_path]
      exact relativeP_joinP srcDir m hsrc hm
    have hh : (hashFile tree srcDir (moduleFor T cache0 tree srcDir m).path).getD "ENOENT" =
        hashOne tree srcDir m := by
      rw [moduleFor_path, hashOne_eq]
    simp only [List.map_cons]
    unfold cacheModulesLoop
    simp only [if_true, hrw, hh]
    rw [ih _ _ _ _ (fun x hx => hrel x (by simp [hx]))]
    simp [cacheStackBundle, metaEntryFor, List.append_assoc]

/-! ### `compileAndCacheModules` characterizations -/

theorem isNormAbs_joinP (a b : JPath) (ha : isNormAbs a) (hb : isNormRel b) :
    isNormAbs (joinP a b) := by
  rw [joinP_segs a b ha.2 hb.2.2]
  refine ⟨ha.1, ?_⟩
  intro s hs
  rcases List.mem_append.mp hs with h | h
  · exact ha.2 s h
  · exact hb.2.2 s h

theorem isNormRel_reprSeg (n : Nat) : isNormRel ⟨false, [Nat.repr n]⟩ := by
  refine ⟨rfl, by simp, ?_⟩
  intro s hs
  simp at hs
  rw [hs]
  exact goodSeg_repr n

theorem hashList_map_hashOne (tree : SrcTree) (srcDir : JPath) (mps : List JPath) :
    hashList tree srcDir mps = String.intercalate "," (mps.map (hashOne tree srcDir)) := by
  have hfe : (fun fp => (hashFile tree srcDir (joinP srcDir fp)).getD "ENOENT") =
      hashOne tree srcDir := by
    funext fp
    rw [hashOne_eq]
  unfold hashList
  rw [hfe]

theorem bundle_base_facts (outputPath : JPath) (hout : isNormAbs outputPath)
    (hext : extnameP outputPath = ".js") :
    isNormRel (⟨false, [basenameP outputPath]⟩ : JPath) ∧
      extnameP (⟨false, [basenameP outputPath]⟩ : JPath) = ".js" := by
  have hne : outputPath.segs ≠ [] := extnameP_ne_nil outputPath (by rw [hext]; simp)
  have hgood : goodSeg (basenameP outputPath) := goodSeg_basenameP outputPath hout.2 hne
  have hb : basenameP (⟨false, [basenameP outputPath]⟩ : JPath) = basenameP outputPath := rfl
  refine ⟨⟨rfl, by simp, ?_⟩, ?_⟩
  · intro s hs
    simp at hs
    rw [hs]
    exact hgood
  · unfold extnameP
    rw [hb]
    exact hext

theorem compile_dir_char (T : Transp) (st : BState) (tree : SrcTree)
    (srcDir outputPath cacheRoot : JPath)
    (mps : List JPath) (dest : List (JPath × String)) (evs : List Ev)
    (hsrc : isNormAbs srcDir) (hroot : isNormAbs cacheRoot) (hwf : treeWF tree)
    (houtf : extnameP outputPath ≠ ".js")
    (hmem : ∀ m ∈ mps, m ∈ modulesOf tree) (hnodup : mps.Nodup) (hne : mps ≠ []) :
    compileAndCacheModules T st tree srcDir outputPath cacheRoot mps dest evs =
      .ok (⟨cacheStackDir T st.cache tree srcDir
              (joinP cacheRoot ⟨false, [Nat.repr st.cacheIndex]⟩) mps st.cache,
            st.cacheIndex + 1,
            dsfSpec T tree (joinP cacheRoot ⟨false, [Nat.repr st.cacheIndex]⟩) mps
              ++ st.scratch⟩,
           destStackDir T tree outputPath mps dest,
           (evs ++ [.containerNew mps]) ++ mps.map (fun m => .cachePut m false)) := by
  have hlen : ¬ (mps.length < 1) := by
    have := List.length_pos.mpr hne
    omega
  have hbool : (extnameP outputPath == ".js") = false := beq_eq_false_iff_ne.mpr houtf
  obtain ⟨regOut, hgm⟩ := getModules_char T st.cache srcDir tree hsrc hwf mps []
    hmem hnodup (fun m _ => rfl)
  have hwfm : ∀ x ∈ mps, isNormRel x ∧ extnameP x = ".js" := fun x hx =>
    ⟨(module_facts tree x hwf (hmem x hx)).2.1, (module_facts tree x hwf (hmem x hx)).1⟩
  have hcd : isNormAbs (joinP cacheRoot ⟨false, [Nat.repr st.cacheIndex]⟩) :=
    isNormAbs_joinP cacheRoot _ hroot (isNormRel_reprSeg st.cacheIndex)
  have hdsf := dirScratchFiles_map T st.cache tree srcDir
    (joinP cacheRoot ⟨false, [Nat.repr st.cacheIndex]⟩) hsrc mps
    (fun x hx => (hwfm x hx).1)
  have hloop := loop_dir_char T st.cache tree srcDir outputPath
    (joinP cacheRoot ⟨false, [Nat.repr st.cacheIndex]⟩)
    (dsfSpec T tree (joinP cacheRoot ⟨false, [Nat.repr st.cacheIndex]⟩) mps ++ st.scratch)
    hsrc mps st.cache dest (evs ++ [.containerNew mps]) []
    (fun x hx => (hwfm x hx).1)
    (fun m hm =>
      ⟨dsf_lookup_gen T tree _ hcd mps st.scratch m hwfm hm,
       dsf_lookup_map T tree _ hcd mps st.scratch m hwfm hm⟩)
  unfold compileAndCacheModules
  rw [if_neg hlen]
  simp only [hbool, hgm]
  simp only [Bool.false_eq_true, if_false]
  rw [hdsf, hloop]

theorem compile_bundle_char (T : Transp) (st : BState) (tree : SrcTree)
    (srcDir outputPath cacheRoot : JPath)
    (mps : List JPath) (dest : List (JPath × String)) (evs : List Ev)
    (hsrc : isNormAbs srcDir) (hroot : isNormAbs cacheRoot) (hwf : treeWF tree)
    (hout : isNormAbs outputPath) (houtf : extnameP outputPath = ".js")
    (hmem : ∀ m ∈ mps, m ∈ modulesOf tree) (hnodup : mps.Nodup) (hne : mps ≠ []) :
    compileAndCacheModules T st tree srcDir outputPath cacheRoot mps dest evs =
      .ok (⟨(⟨false, [basenameP outputPath]⟩,
             { hash := hashList tree srcDir mps,
               dir := some (joinP cacheRoot ⟨false, [Nat.repr st.cacheIndex]⟩),
               outputFiles := [⟨false, [basenameP outputPath]⟩,
                               mapName ⟨false, [basenameP outputPath]⟩] }) ::
              cacheStackBundle T st.cache tree srcDir mps st.cache,
            st.cacheIndex + 1,
            bundleScratchFiles T tree (joinP cacheRoot ⟨false, [Nat.repr st.cacheIndex]⟩)
              outputPath mps ++ st.scratch⟩,
           (joinP (dirnameP outputPath) (mapName ⟨false, [basenameP outputPath]⟩),
              T.genBundleMap tree mps) ::
             (joinP (dirnameP outputPath) ⟨false, [basenameP outputPath]⟩,
                T.genBundle tree mps) :: dest,
           ((evs ++ [.containerNew mps]) ++ mps.map (fun m => .cachePut m false))
             ++ [.cachePut ⟨false, [basenameP outputPath]⟩ true]) := by
  have hlen : ¬ (mps.length < 1) := by
    have := List.length_pos.mpr hne
    omega
  have hbool : (extnameP outputPath == ".js") = true := beq_iff_eq.mpr houtf
  obtain ⟨regOut, hgm⟩ := getModules_char T st.cache srcDir tree hsrc hwf mps []
    hmem hnodup (fun m _ => rfl)
  have hwfm : ∀ x ∈ mps, isNormRel x := fun x hx =>
    (module_facts tree x hwf (hmem x hx)).2.1
  have hcd : isNormAbs (joinP cacheRoot ⟨false, [Nat.repr st.cacheIndex]⟩) :=
    isNormAbs_joinP cacheRoot _ hroot (isNormRel_reprSeg st.cacheIndex)
  obtain ⟨hbrel, hbext⟩ := bundle_base_facts outputPath hout houtf
  have hloop := loop_bundle_char T st.cache tree srcDir outputPath
    (joinP cacheRoot ⟨false, [Nat.repr st.cacheIndex]⟩)
    (bundleScratchFiles T tree (joinP cacheRoot ⟨false, [Nat.repr st.cacheIndex]⟩)
      outputPath mps ++ st.scratch)
    hsrc mps st.cache dest (evs ++ [.containerNew mps]) [] hwfm
  have hkey : joinP (joinP cacheRoot ⟨false, [Nat.repr st.cacheIndex]⟩)
      (⟨false, [basenameP outputPath]⟩ : JPath) ≠
      joinP (joinP cacheRoot ⟨false, [Nat.repr st.cacheIndex]⟩)
        (mapName ⟨false, [basenameP outputPath]⟩) := by
    intro h
    have := joinP_inj _ _ _ hcd hbrel (isNormRel_mapName _ hbrel) h
    exact mapName_ne_module _ _ hbrel hbext this.symm
  have hcf : copyFiles
      (bundleScratchFiles T tree (joinP cacheRoot ⟨false, [Nat.repr st.cacheIndex]⟩)
        outputPath mps ++ st.scratch)
      (joinP cacheRoot ⟨false, [Nat.repr st.cacheIndex]⟩) (dirnameP outputPath)
      [⟨false, [basenameP outputPath]⟩, mapName ⟨false, [basenameP outputPath]⟩] dest =
      .ok ((joinP (dirnameP outputPath) (mapName ⟨false, [basenameP outputPath]⟩),
              T.genBundleMap tree mps) ::
           (joinP (dirnameP outputPath) ⟨false, [basenameP outputPath]⟩,
              T.genBundle tree mps) :: dest) := by
    have h1 : alookup
        (bundleScratchFiles T tree (joinP cacheRoot ⟨false, [Nat.repr st.cacheIndex]⟩)
          outputPath mps ++ st.scratch)
        (joinP (joinP cacheRoot ⟨false, [Nat.repr st.cacheIndex]⟩)
          (⟨false, [basenameP outputPath]⟩ : JPath)) = some (T.genBundle tree mps) := by
      unfold bundleScratchFiles
      simp
    have h2 : alookup
        (bundleScratchFiles T tree (joinP cacheRoot ⟨false, [Nat.repr st.cacheIndex]⟩)
          outputPath mps ++ st.scratch)
        (joinP (joinP cacheRoot ⟨false, [Nat.repr st.cacheIndex]⟩)
          (mapName ⟨false, [basenameP outputPath]⟩)) = some (T.genBundleMap tree mps) := by
      unfold bundleScratchFiles
      simp [hkey]
    rw [copyFiles_ok]
    · unfold copyVals copyVals copyVals
      rw [h1, h2]
      rfl
    · intro f hf
      rcases List.mem_cons.mp hf with h | h
      · rw [h, h1]; rfl
      · simp at h
        rw [h, h2]; rfl
  unfold compileAndCacheModules
  rw [if_neg hlen]
  simp only [hbool, hgm]
  simp only [if_true]
  rw [hloop]
  simp only []
  unfold copyFromCache
  simp only []
  rw [hcf]
  simp only [List.nil_append, hashList_map_hashOne]

/-! ### `dirCachePass` characterization -/

/-- Destination writes of the directory-mode reuse pass. -/
def passDest (cache : Cache) (tree : SrcTree) (srcDir outputPath : JPath)
    (scratch : List (JPath × String)) :
    List JPath → List (JPath × String) → List (JPath × String)
  | [], d => d
  | m :: r, d =>
    match validEntry cache tree srcDir m with
    | some e =>
      passDest cache tree srcDir outputPath scratch r
        (copyVals scratch (e.dir.getD ⟨true, []⟩) outputPath e.outputFiles d)
    | none => passDest cache tree srcDir outputPath scratch r d

/-- Events of the directory-mode reuse pass. -/
def passEvs (cache : Cache) (tree : SrcTree) (srcDir : JPath) : List JPath → List Ev
  | [] => []
  | m :: r =>
    match validEntry cache tree srcDir m with
    | some e => .reuseModule m e.hash (hashOne tree srcDir m) ::
        passEvs cache tree srcDir r
    | none => passEvs cache tree srcDir r

theorem dirCachePass_char (cache : Cache) (tree : SrcTree) (srcDir outputPath : JPath)
    (scratch : List (JPath × String)) :
    ∀ (mps : List JPath) (q0 : List JPath) (dest : List (JPath × String)) (evs : List Ev),
      (∀ m ∈ mps, ∀ e, validEntry cache tree srcDir m = some e →
        ∃ cd, e.dir = some cd ∧
          ∀ f ∈ e.outputFiles, (alookup scratch (joinP cd f)).isSome) →
      dirCachePass cache tree srcDir outputPath scratch mps q0 dest evs =
        .ok (q0 ++ mps.filter (fun m => (validEntry cache tree srcDir m).isNone),
             passDest cache tree srcDir outputPath scratch mps dest,
             evs ++ passEvs cache tree srcDir mps) := by
  intro mps
  induction mps with
  | nil => intro q0 dest evs _; simp [dirCachePass, passDest, passEvs]
  | cons m r ih =>
    intro q0 dest evs hok
    cases hve : validEntry cache tree srcDir m with
    | some e =>
      obtain ⟨cd, hdir, hsome⟩ := hok m (by simp) e hve
      have hcf : copyFromCache scratch e outputPath dest =
          .ok (copyVals scratch cd outputPath e.outputFiles dest) := by
        unfold copyFromCache
        rw [hdir]
        exact copyFiles_ok scratch cd outputPath e.outputFiles dest hsome
      unfold dirCachePass
      rw [hve]
      simp only []
      rw [hcf]
      simp only []
      rw [ih _ _ _ (fun x hx => hok x (by simp [hx]))]
      simp [passDest, passEvs, List.filter_cons, hve, hdir, List.append_assoc]
    | none =>
      unfold dirCachePass
      rw [hve]
      simp only []
      rw [ih _ _ _ (fun x hx => hok x (by simp [hx]))]
      simp [passDest, passEvs, List.filter_cons, hve, List.append_assoc]

/-! ### `write` branch equations -/

theorem write_dir_eq (T : Transp) (st : BState) (tree : SrcTree)
    (srcDir destDir output cacheRoot : JPath)
    (houtf : extnameP (joinP destDir output) ≠ ".js") :
    write T st tree srcDir destDir output cacheRoot =
      match dirCachePass st.cache tree srcDir (joinP destDir output) st.scratch
          (modulesOf tree) [] (copyPassthroughGo tree destDir tree []) [.mode false] with
      | .error err => .error err
      | .ok (q, d1, e1) =>
        compileAndCacheModules T st tree srcDir (joinP destDir output) cacheRoot q d1
          (e1 ++ [.queuedMods q]) := by
  have hbool : (extnameP (joinP destDir output) == ".js") = false :=
    beq_eq_false_iff_ne.mpr houtf
  simp [write, hbool]

theorem write_bundle_reuse_eq (T : Transp) (st : BState) (tree : SrcTree)
    (srcDir destDir output cacheRoot : JPath) (e : CacheEntry)
    (houtf : extnameP (joinP destDir output) = ".js")
    (hbv : bundleValid st.cache tree srcDir (joinP destDir output) (modulesOf tree) = some e) :
    write T st tree srcDir destDir output cacheRoot =
      match copyFromCache st.scratch e (dirnameP (joinP destDir output))
          (copyPassthroughGo tree destDir tree []) with
      | .error err => .error err
      | .ok dest1 =>
        .ok (st, dest1,
             [.mode true,
              .reuseBundle ⟨false, [basenameP (joinP destDir output)]⟩ e.hash
                (hashList tree srcDir (modulesOf tree)), .queuedMods []]) := by
  have hbool : (extnameP (joinP destDir output) == ".js") = true := beq_iff_eq.mpr houtf
  simp only [write, hbool, if_true, hbv]
  cases copyFromCache st.scratch e (dirnameP (joinP destDir output))
      (copyPassthroughGo tree destDir tree []) with
  | error err => rfl
  | ok dest1 => simp [compileAndCacheModules]

theorem write_bundle_miss_eq (T : Transp) (st : BState) (tree : SrcTree)
    (srcDir destDir output cacheRoot : JPath)
    (houtf : extnameP (joinP destDir output) = ".js")
    (hbv : bundleValid st.cache tree srcDir (joinP destDir output) (modulesOf tree) = none) :
    write T st tree srcDir destDir output cacheRoot =
      compileAndCacheModules T st tree srcDir (joinP destDir output) cacheRoot
        (modulesOf tree) (copyPassthroughGo tree destDir tree [])
        [.mode true, .queuedMods (modulesOf tree)] := by
  have hbool : (extnameP (joinP destDir output) == ".js") = true := beq_iff_eq.mpr houtf
  simp [write, hbool, hbv]

theorem compile_noop (T : Transp) (st : BState) (tree : SrcTree)
    (srcDir outputPath cacheRoot : JPath) (dest : List (JPath × String)) (evs : List Ev) :
    compileAndCacheModules T st tree srcDir outputPath cacheRoot [] dest evs =
      .ok (st, dest, evs) := by
  simp [compileAndCacheModules]

/-! ### Cache lookup after a compile pass -/

theorem cacheStackDir_frame (T : Transp) (c0 : Cache) (tree : SrcTree) (srcDir cd : JPath) :
    ∀ (mps : List JPath) (cache : Cache) (m : JPath), m ∉ mps →
      alookup (cacheStackDir T c0 tree srcDir cd mps cache) m = alookup cache m := by
  intro mps
  induction mps with
  | nil => intro cache m _; rfl
  | cons m0 r ih =>
    intro cache m hm
    have hm0 : m0 ≠ m := by
      intro h
      exact hm (by simp [h])
    unfold cacheStackDir
    rw [ih _ m (fun h => hm (by simp [h]))]
    simp [hm0]

theorem cacheStackDir_hit (T : Transp) (c0 : Cache) (tree : SrcTree) (srcDir cd : JPath) :
    ∀ (mps : List JPath) (cache : Cache) (m : JPath), m ∈ mps →
      alookup (cacheStackDir T c0 tree srcDir cd mps cache) m =
        some (dirEntryFor T c0 tree srcDir cd m) := by
  intro mps
  induction mps with
  | nil => intro cache m hm; simp at hm
  | cons m0 r ih =>
    intro cache m hm
    by_cases hr : m ∈ r
    · unfold cacheStackDir
      rw [ih _ m hr]
    · have hm0 : m0 = m := by
        rcases List.mem_cons.mp hm with h | h
        · exact h.symm
        · exact absurd h hr
      unfold cacheStackDir
      rw [cacheStackDir_frame T c0 tree srcDir cd r _ m hr]
      simp [hm0]

theorem cacheStackBundle_frame (T : Transp) (c0 : Cache) (tree : SrcTree) (srcDir : JPath) :
    ∀ (mps : List JPath) (cache : Cache) (m : JPath), m ∉ mps →
      alookup (cacheStackBundle T c0 tree srcDir mps cache) m = alookup cache m := by
  intro mps
  induction mps with
  | nil => intro cache m _; rfl
  | cons m0 r ih =>
    intro cache m hm
    have hm0 : m0 ≠ m := by
      intro h
      exact hm (by simp [h])
    unfold cacheStackBundle
    rw [ih _ m (fun h => hm (by simp [h]))]
    simp [hm0]

/-! ### Bundle scratch lookups -/

theorem bsf_lookup_bundle (T : Transp) (tree : SrcTree) (cd outputPath : JPath)
    (mps : List JPath) (rest : List (JPath × String)) :
    alookup (bundleScratchFiles T tree cd outputPath mps ++ rest)
      (joinP cd ⟨false, [basenameP outputPath]⟩) = some (T.genBundle tree mps) := by
  unfold bundleScratchFiles
  simp

theorem bsf_lookup_map (T : Transp) (tree : SrcTree) (cd outputPath : JPath)
    (mps : List JPath) (rest : List (JPath × String))
    (hkey : joinP cd (⟨false, [basenameP outputPath]⟩ : JPath) ≠
      joinP cd (mapName ⟨false, [basenameP outputPath]⟩)) :
    alookup (bundleScratchFiles T tree cd outputPath mps ++ rest)
      (joinP cd (mapName ⟨false, [basenameP outputPath]⟩)) =
      some (T.genBundleMap tree mps) := by
  unfold bundleScratchFiles
  simp [hkey]

/-! ### Empty reuse pass (first build) -/

theorem passDest_allnone (cache : Cache) (tree : SrcTree) (srcDir outputPath : JPath)
    (scratch : List (JPath × String)) :
    ∀ (mps : List JPath) (d : List (JPath × String)),
      (∀ m ∈ mps, validEntry cache tree srcDir m = none) →
      passDest cache tree srcDir outputPath scratch mps d = d := by
  intro mps
  induction mps with
  | nil => intro d _; rfl
  | cons m r ih =>
    intro d h
    unfold passDest
    rw [h m (by simp)]
    exact ih d (fun x hx => h x (by simp [hx]))

theorem passEvs_allnone (cache : Cache) (tree : SrcTree) (srcDir : JPath) :
    ∀ (mps : List JPath), (∀ m ∈ mps, validEntry cache tree srcDir m = none) →
      passEvs cache tree srcDir mps = [] := by
  intro mps
  induction mps with
  | nil => intro _; rfl
  | cons m r ih =>
    intro h
    unfold passEvs
    rw [h m (by simp)]
    exact ih (fun x hx => h x (by simp [hx]))

theorem passEvs_no_container (cache : Cache) (tree : SrcTree) (srcDir : JPath) :
    ∀ (mps : List JPath) (q : List JPath),
      Ev.containerNew q ∉ passEvs cache tree srcDir mps := by
  intro mps
  induction mps with
  | nil => intro q h; simp [passEvs] at h
  | cons m r ih =>
    intro q h
    unfold passEvs at h
    cases hve : validEntry cache tree srcDir m with
    | some e =>
      rw [hve] at h
      rcases List.mem_cons.mp h with h' | h'
      · simp at h'
      · exact ih q h'
    | none =>
      rw [hve] at h
      exact ih q h

theorem passEvs_hashes_match (cache : Cache) (tree : SrcTree) (srcDir : JPath) :
    ∀ (mps : List JPath) (k : JPath) (eh fh : String),
      Ev.reuseModule k eh fh ∈ passEvs cache tree srcDir mps → eh = fh := by
  intro mps
  induction mps with
  | nil => intro k eh fh h; simp [passEvs] at h
  | cons m r ih =>
    intro k eh fh h
    unfold passEvs at h
    cases hve : validEntry cache tree srcDir m with
    | some e =>
      rw [hve] at h
      rcases List.mem_cons.mp h with h' | h'
      · have hmatch := (validEntry_some cache tree srcDir m e hve).2
        injection h' with h1 h2 h3
        rw [← h2] at hmatch
        rw [hmatch, h3]
      · exact ih k eh fh h'
    | none =>
      rw [hve] at h
      exact ih k eh fh h

/-! ### The four run-level characterizations -/

theorem validEntry_initial (tree : SrcTree) (srcDir m : JPath) :
    validEntry ([] : Cache) tree srcDir m = none :=
  validEntry_none_of_absent [] tree srcDir m rfl

theorem run1_dir (T : Transp) (tree : SrcTree) (srcDir destDir output cacheRoot : JPath)
    (hsrc : isNormAbs srcDir) (hroot : isNormAbs cacheRoot) (hwf : treeWF tree)
    (houtf : extnameP (joinP destDir output) ≠ ".js") (hne : modulesOf tree ≠ []) :
    write T initState tree srcDir destDir output cacheRoot =
      .ok (⟨cacheStackDir T [] tree srcDir (joinP cacheRoot ⟨false, [Nat.repr 0]⟩)
              (modulesOf tree) [],
            1, dsfSpec T tree (joinP cacheRoot ⟨false, [Nat.repr 0]⟩) (modulesOf tree) ++ []⟩,
           destStackDir T tree (joinP destDir output) (modulesOf tree)
             (copyPassthroughGo tree destDir tree []),
           (([.mode false] ++ [.queuedMods (modulesOf tree)]) ++ [.containerNew (modulesOf tree)])
             ++ (modulesOf tree).map (fun m => .cachePut m false)) := by
  rw [write_dir_eq T initState tree srcDir destDir output cacheRoot houtf]
  rw [show initState.cache = ([] : Cache) from rfl,
      show initState.scratch = ([] : List (JPath × String)) from rfl]
  have hpass := dirCachePass_char ([] : Cache) tree srcDir (joinP destDir output) []
    (modulesOf tree) [] (copyPassthroughGo tree destDir tree []) [.mode false]
    (fun m _ e he => absurd (validEntry_initial tree srcDir m ▸ he) (by simp))
  rw [hpass]
  simp only []
  have hfilter : (modulesOf tree).filter
      (fun m => (validEntry ([] : Cache) tree srcDir m).isNone) = modulesOf tree := by
    apply List.filter_eq_self.mpr
    intro a _
    rw [validEntry_initial]
    rfl
  rw [hfilter, passDest_allnone _ _ _ _ _ _ _ (fun m _ => validEntry_initial tree srcDir m),
    passEvs_allnone _ _ _ _ (fun m _ => validEntry_initial tree srcDir m)]
  simp only [List.nil_append]
  have hchar := compile_dir_char T initState tree srcDir (joinP destDir output) cacheRoot
    (modulesOf tree) (copyPassthroughGo tree destDir tree [])
    (([Ev.mode false] ++ []) ++ [Ev.queuedMods (modulesOf tree)])
    hsrc hroot hwf houtf (fun m hm => hm) (modulesOf_nodup tree hwf) hne
  rw [hchar]
  simp [initState]

theorem run1_bundle (T : Transp) (tree : SrcTree) (srcDir destDir output cacheRoot : JPath)
    (hsrc : isNormAbs srcDir) (hroot : isNormAbs cacheRoot) (hwf : treeWF tree)
    (hout : isNormAbs (joinP destDir output))
    (houtf : extnameP (joinP destDir output) = ".js") (hne : modulesOf tree ≠ []) :
    write T initState tree srcDir destDir output cacheRoot =
      .ok (⟨(⟨false, [basenameP (joinP destDir output)]⟩,
             { hash := hashList tree srcDir (modulesOf tree),
               dir := some (joinP cacheRoot ⟨false, [Nat.repr 0]⟩),
               outputFiles := [⟨false, [basenameP (joinP destDir output)]⟩,
                               mapName ⟨false, [basenameP (joinP destDir output)]⟩] }) ::
              cacheStackBundle T [] tree srcDir (modulesOf tree) [],
            1, bundleScratchFiles T tree (joinP cacheRoot ⟨false, [Nat.repr 0]⟩)
                 (joinP destDir output) (modulesOf tree) ++ []⟩,
           (joinP (dirnameP (joinP destDir output))
              (mapName ⟨false, [basenameP (joinP destDir output)]⟩),
             T.genBundleMap tree (modulesOf tree)) ::
             (joinP (dirnameP (joinP destDir output))
                (⟨false, [basenameP (joinP destDir output)]⟩ : JPath),
               T.genBundle tree (modulesOf tree)) ::
               copyPassthroughGo tree destDir tree [],
           (([.mode true, .queuedMods (modulesOf tree)] ++ [.containerNew (modulesOf tree)])
             ++ (modulesOf tree).map (fun m => .cachePut m false))
             ++ [.cachePut ⟨false, [basenameP (joinP destDir output)]⟩ true]) := by
  have hbv : bundleValid ([] : Cache) tree srcDir (joinP destDir output)
      (modulesOf tree) = none := by
    simp [bundleValid]
  rw [write_bundle_miss_eq T initState tree srcDir destDir output cacheRoot houtf hbv]
  have hchar := compile_bundle_char T initState tree srcDir (joinP destDir output) cacheRoot
    (modulesOf tree) (copyPassthroughGo tree destDir tree [])
    [Ev.mode true, Ev.queuedMods (modulesOf tree)]
    hsrc hroot hwf hout houtf (fun m hm => hm) (modulesOf_nodup tree hwf) hne
  rw [hchar]
  simp [initState]

theorem passDest_valid (T : Transp) (c0 : Cache) (tree : SrcTree)
    (srcDir outputPath cd : JPath) (scratch : List (JPath × String)) (cache : Cache) :
    ∀ (mps : List JPath) (d : List (JPath × String)),
      (∀ m ∈ mps, validEntry cache tree srcDir m =
        some (dirEntryFor T c0 tree srcDir cd m)) →
      (∀ m ∈ mps, alookup scratch (joinP cd m) = some (T.gen tree m) ∧
                  alookup scratch (joinP cd (mapName m)) = some (T.genMap tree m)) →
      passDest cache tree srcDir outputPath scratch mps d =
        destStackDir T tree outputPath mps d := by
  intro mps
  induction mps with
  | nil => intro d _ _; rfl
  | cons m r ih =>
    intro d hent hscr
    unfold passDest
    rw [hent m (by simp)]
    simp only []
    have h1 := (hscr m (by simp)).1
    have h2 := (hscr m (by simp)).2
    have hcv : copyVals scratch ((dirEntryFor T c0 tree srcDir cd m).dir.getD ⟨true, []⟩)
        outputPath (dirEntryFor T c0 tree srcDir cd m).outputFiles d =
        (joinP outputPath (mapName m), T.genMap tree m) ::
          (joinP outputPath m, T.gen tree m) :: d := by
      have hdir : (dirEntryFor T c0 tree srcDir cd m).dir.getD ⟨true, []⟩ = cd := rfl
      have hof : (dirEntryFor T c0 tree srcDir cd m).outputFiles = [m, mapName m] := rfl
      rw [hdir, hof]
      unfold copyVals copyVals copyVals
      rw [h1, h2]
      rfl
    rw [hcv]
    rw [ih _ (fun x hx => hent x (by simp [hx])) (fun x hx => hscr x (by simp [hx]))]
    rfl

theorem run2_dir (T : Transp) (tree : SrcTree) (srcDir destDir output cacheRoot : JPath)
    (hsrc : isNormAbs srcDir) (hroot : isNormAbs cacheRoot) (hwf : treeWF tree)
    (houtf : extnameP (joinP destDir output) ≠ ".js") :
    write T (⟨cacheStackDir T [] tree srcDir (joinP cacheRoot ⟨false, [Nat.repr 0]⟩)
                (modulesOf tree) [],
              1, dsfSpec T tree (joinP cacheRoot ⟨false, [Nat.repr 0]⟩) (modulesOf tree) ++ []⟩)
        tree srcDir destDir output cacheRoot =
      .ok (⟨cacheStackDir T [] tree srcDir (joinP cacheRoot ⟨false, [Nat.repr 0]⟩)
               (modulesOf tree) [],
             1, dsfSpec T tree (joinP cacheRoot ⟨false, [Nat.repr 0]⟩) (modulesOf tree) ++ []⟩,
           destStackDir T tree (joinP destDir output) (modulesOf tree)
             (copyPassthroughGo tree destDir tree []),
           ([.mode false] ++
              passEvs (cacheStackDir T [] tree srcDir (joinP cacheRoot ⟨false, [Nat.repr 0]⟩)
                (modulesOf tree) []) tree srcDir (modulesOf tree))
             ++ [.queuedMods []]) := by
  have hcd : isNormAbs (joinP cacheRoot ⟨false, [Nat.repr 0]⟩) :=
    isNormAbs_joinP cacheRoot _ hroot (isNormRel_reprSeg 0)
  have hwfm : ∀ x ∈ modulesOf tree, isNormRel x ∧ extnameP x = ".js" := fun x hx =>
    ⟨(module_facts tree x hwf hx).2.1, (module_facts tree x hwf hx).1⟩
  have hscr : ∀ m ∈ modulesOf tree,
      alookup (dsfSpec T tree (joinP cacheRoot ⟨false, [Nat.repr 0]⟩) (modulesOf tree) ++ [])
        (joinP (joinP cacheRoot ⟨false, [Nat.repr 0]⟩) m) = some (T.gen tree m) ∧
      alookup (dsfSpec T tree (joinP cacheRoot ⟨false, [Nat.repr 0]⟩) (modulesOf tree) ++ [])
        (joinP (joinP cacheRoot ⟨false, [Nat.repr 0]⟩) (mapName m)) =
          some (T.genMap tree m) := fun m hm =>
    ⟨dsf_lookup_gen T tree _ hcd (modulesOf tree) [] m hwfm hm,
     dsf_lookup_map T tree _ hcd (modulesOf tree) [] m hwfm hm⟩
  have hent : ∀ m ∈ modulesOf tree,
      validEntry (cacheStackDir T [] tree srcDir (joinP cacheRoot ⟨false, [Nat.repr 0]⟩)
          (modulesOf tree) []) tree srcDir m =
        some (dirEntryFor T [] tree srcDir (joinP cacheRoot ⟨false, [Nat.repr 0]⟩) m) := by
    intro m hm
    apply validEntry_eq_some
    · exact cacheStackDir_hit T [] tree srcDir _ (modulesOf tree) [] m hm
    · rfl
  rw [write_dir_eq _ _ tree srcDir destDir output cacheRoot houtf]
  have hpass := dirCachePass_char
    (cacheStackDir T [] tree srcDir (joinP cacheRoot ⟨false, [Nat.repr 0]⟩) (modulesOf tree) [])
    tree srcDir (joinP destDir output)
    (dsfSpec T tree (joinP cacheRoot ⟨false, [Nat.repr 0]⟩) (modulesOf tree) ++ [])
    (modulesOf tree) [] (copyPassthroughGo tree destDir tree []) [.mode false]
    (by
      intro m hm e he
      rw [hent m hm] at he
      have hee := Option.some.inj he
      refine ⟨joinP cacheRoot ⟨false, [Nat.repr 0]⟩, ?_, ?_⟩
      · rw [← hee]; rfl
      · intro f hf
        rw [← hee] at hf
        have hof : (dirEntryFor T [] tree srcDir (joinP cacheRoot ⟨false, [Nat.repr 0]⟩) m).outputFiles
            = [m, mapName m] := rfl
        rw [hof] at hf
        rcases List.mem_cons.mp hf with h | h
        · rw [h, ((hscr m hm).1)]; rfl
        · simp at h
          rw [h, ((hscr m hm).2)]; rfl)
  rw [hpass]
  simp only []
  have hfilter : (modulesOf tree).filter
      (fun m => (validEntry (cacheStackDir T [] tree srcDir
        (joinP cacheRoot ⟨false, [Nat.repr 0]⟩) (modulesOf tree) []) tree srcDir m).isNone)
      = [] := by
    rw [List.filter_eq_nil_iff]
    intro a ha
    rw [hent a ha]
    simp
  rw [hfilter]
  rw [passDest_valid T [] tree srcDir (joinP destDir output)
    (joinP cacheRoot ⟨false, [Nat.repr 0]⟩) _ _ (modulesOf tree)
    (copyPassthroughGo tree destDir tree []) hent hscr]
  simp only [List.append_nil, List.nil_append]
  rw [compile_noop]

theorem run2_bundle (T : Transp) (tree : SrcTree) (srcDir destDir output cacheRoot : JPath)
    (hsrc : isNormAbs srcDir) (hroot : isNormAbs cacheRoot) (hwf : treeWF tree)
    (hout : isNormAbs (joinP destDir output))
    (houtf : extnameP (joinP destDir output) = ".js") :
    write T (⟨(⟨false, [basenameP (joinP destDir output)]⟩,
               { hash := hashList tree srcDir (modulesOf tree),
                 dir := some (joinP cacheRoot ⟨false, [Nat.repr 0]⟩),
                 outputFiles := [⟨false, [basenameP (joinP destDir output)]⟩,
                                 mapName ⟨false, [basenameP (joinP destDir output)]⟩] }) ::
                cacheStackBundle T [] tree srcDir (modulesOf tree) [],
              1, bundleScratchFiles T tree (joinP cacheRoot ⟨false, [Nat.repr 0]⟩)
                   (joinP destDir output) (modulesOf tree) ++ []⟩)
        tree srcDir destDir output cacheRoot =
      .ok (⟨(⟨false, [basenameP (joinP destDir output)]⟩,
             { hash := hashList tree srcDir (modulesOf tree),
               dir := some (joinP cacheRoot ⟨false, [Nat.repr 0]⟩),
               outputFiles := [⟨false, [basenameP (joinP destDir output)]⟩,
                               mapName ⟨false, [basenameP (joinP destDir output)]⟩] }) ::
              cacheStackBundle T [] tree srcDir (modulesOf tree) [],
            1, bundleScratchFiles T tree (joinP cacheRoot ⟨false, [Nat.repr 0]⟩)
                 (joinP destDir output) (modulesOf tree) ++ []⟩,
           (joinP (dirnameP (joinP destDir output))
              (mapName ⟨false, [basenameP (joinP destDir output)]⟩),
             T.genBundleMap tree (modulesOf tree)) ::
             (joinP (dirnameP (joinP destDir output))
                (⟨false, [basenameP (joinP destDir output)]⟩ : JPath),
               T.genBundle tree (modulesOf tree)) ::
               copyPassthroughGo tree destDir tree [],
           [.mode true,
            .reuseBundle ⟨false, [basenameP (joinP destDir output)]⟩
              (hashList tree srcDir (modulesOf tree)) (hashList tree srcDir (modulesOf tree)),
            .queuedMods []]) := by
  have hcd : isNormAbs (joinP cacheRoot ⟨false, [Nat.repr 0]⟩) :=
    isNormAbs_joinP cacheRoot _ hroot (isNormRel_reprSeg 0)
  obtain ⟨hbrel, hbext⟩ := bundle_base_facts (joinP destDir output) hout houtf
  have hkey : joinP (joinP cacheRoot ⟨false, [Nat.repr 0]⟩)
      (⟨false, [basenameP (joinP destDir output)]⟩ : JPath) ≠
      joinP (joinP cacheRoot ⟨false, [Nat.repr 0]⟩)
        (mapName ⟨false, [basenameP (joinP destDir output)]⟩) := by
    intro h
    have := joinP_inj _ _ _ hcd hbrel (isNormRel_mapName _ hbrel) h
    exact mapName_ne_module _ _ hbrel hbext this.symm
  have hbv : bundleValid
      ((⟨false, [basenameP (joinP destDir output)]⟩,
        { hash := hashList tree srcDir (modulesOf tree),
          dir := some (joinP cacheRoot ⟨false, [Nat.repr 0]⟩),
          outputFiles := [⟨false, [basenameP (joinP destDir output)]⟩,
                          mapName ⟨false, [basenameP (joinP destDir output)]⟩] }) ::
        cacheStackBundle T [] tree srcDir (modulesOf tree) [] : Cache)
      tree srcDir (joinP destDir output) (modulesOf tree) =
      some { hash := hashList tree srcDir (modulesOf tree),
             dir := some (joinP cacheRoot ⟨false, [Nat.repr 0]⟩),
             outputFiles := [⟨false, [basenameP (joinP destDir output)]⟩,
                             mapName ⟨false, [basenameP (joinP destDir output)]⟩] } := by
    apply bundleValid_eq_some
    · simp
    · rfl
  rw [write_bundle_reuse_eq T _ tree srcDir destDir output cacheRoot _ houtf hbv]
  have hcf : copyFromCache
      (bundleScratchFiles T tree (joinP cacheRoot ⟨false, [Nat.repr 0]⟩)
        (joinP destDir output) (modulesOf tree) ++ [])
      { hash := hashList tree srcDir (modulesOf tree),
        dir := some (joinP cacheRoot ⟨false, [Nat.repr 0]⟩),
        outputFiles := [⟨false, [basenameP (joinP destDir output)]⟩,
                        mapName ⟨false, [basenameP (joinP destDir output)]⟩] }
      (dirnameP (joinP destDir output)) (copyPassthroughGo tree destDir tree []) =
      .ok ((joinP (dirnameP (joinP destDir output))
              (mapName ⟨false, [basenameP (joinP destDir output)]⟩),
             T.genBundleMap tree (modulesOf tree)) ::
           (joinP (dirnameP (joinP destDir output))
              (⟨false, [basenameP (joinP destDir output)]⟩ : JPath),
             T.genBundle tree (modulesOf tree)) ::
           copyPassthroughGo tree destDir tree []) := by
    unfold copyFromCache
    simp only []
    have h1 := bsf_lookup_bundle T tree (joinP cacheRoot ⟨false, [Nat.repr 0]⟩)
      (joinP destDir output) (modulesOf tree) []
    have h2 := bsf_lookup_map T tree (joinP cacheRoot ⟨false, [Nat.repr 0]⟩)
      (joinP destDir output) (modulesOf tree) [] hkey
    rw [copyFiles_ok]
    · unfold copyVals copyVals copyVals
      rw [h1, h2]
      rfl
    · intro f hf
      rcases List.mem_cons.mp hf with h | h
      · rw [h, h1]; rfl
      · simp at h
        rw [h, h2]; rfl
  rw [hcf]

/-! ### Claim C1 -/

/-- C1: For every source tree, running the Build Orchestrator's `write`
twice in a row with no change to any source file produces byte-identical
destination output both times (the second run's destination writes equal
the first run's exactly), and on the second run the Transformer
(`Container`) is never constructed or invoked — no `containerNew` event
appears in its trace — because every module hits a valid cache entry and
`compileAndCacheModules` returns immediately on an empty module list
(the second run queues `[]`). -/
theorem claim_C1 (T : Transp) (tree : SrcTree) (srcDir destDir output cacheRoot : JPath)
    (hsrc : isNormAbs srcDir) (hroot : isNormAbs cacheRoot)
    (hout : isNormAbs (joinP destDir output)) (hwf : treeWF tree) :
    exOk (write T initState tree srcDir destDir output cacheRoot) = true ∧
    exOk (write T (wState (write T initState tree srcDir destDir output cacheRoot))
      tree srcDir destDir output cacheRoot) = true ∧
    wDest (write T (wState (write T initState tree srcDir destDir output cacheRoot))
      tree srcDir destDir output cacheRoot) =
      wDest (write T initState tree srcDir destDir output cacheRoot) ∧
    (∀ q, Ev.containerNew q ∉
      wTrace (write T (wState (write T initState tree srcDir destDir output cacheRoot))
        tree srcDir destDir output cacheRoot)) ∧
    Ev.queuedMods [] ∈
      wTrace (write T (wState (write T initState tree srcDir destDir output cacheRoot))
        tree srcDir destDir output cacheRoot) := by
  by_cases hbm : extnameP (joinP destDir output) = ".js"
  · by_cases hmm : modulesOf tree = []
    · have hbv : bundleValid initState.cache tree srcDir (joinP destDir output)
          (modulesOf tree) = none := by
        simp [bundleValid, initState, alookup]
      have h1 : write T initState tree srcDir destDir output cacheRoot =
          .ok (initState, copyPassthroughGo tree destDir tree [],
               [.mode true, .queuedMods (modulesOf tree)]) := by
        rw [write_bundle_miss_eq T initState tree srcDir destDir output cacheRoot hbm hbv,
          hmm, compile_noop]
      rw [h1]
      have hst : wState (Except.ok (initState, copyPassthroughGo tree destDir tree [],
          [Ev.mode true, Ev.queuedMods (modulesOf tree)]) :
            Except String (BState × List (JPath × String) × List Ev)) = initState := rfl
      rw [hst, h1]
      refine ⟨rfl, rfl, rfl, ?_, ?_⟩
      · intro q hq
        simp [wTrace] at hq
      · simp [wTrace, hmm]
    · have h1 := run1_bundle T tree srcDir destDir output cacheRoot
        hsrc hroot hwf hout hbm hmm
      have h2 := run2_bundle T tree srcDir destDir output cacheRoot hsrc hroot hwf hout hbm
      have hst : wState (write T initState tree srcDir destDir output cacheRoot) =
          ⟨(⟨false, [basenameP (joinP destDir output)]⟩,
            { hash := hashList tree srcDir (modulesOf tree),
              dir := some (joinP cacheRoot ⟨false, [Nat.repr 0]⟩),
              outputFiles := [⟨false, [basenameP (joinP destDir output)]⟩,
                              mapName ⟨false, [basenameP (joinP destDir output)]⟩] }) ::
              cacheStackBundle T [] tree srcDir (modulesOf tree) [],
            1, bundleScratchFiles T tree (joinP cacheRoot ⟨false, [Nat.repr 0]⟩)
                 (joinP destDir output) (modulesOf tree) ++ []⟩ := by
        rw [h1]
        rfl
      rw [hst, h2, h1]
      refine ⟨rfl, rfl, rfl, ?_, ?_⟩
      · intro q hq
        simp [wTrace] at hq
      · simp [wTrace]
  · by_cases hmm : modulesOf tree = []
    · have h1 : write T initState tree srcDir destDir output cacheRoot =
          .ok (initState, copyPassthroughGo tree destDir tree [],
               [.mode false, .queuedMods []]) := by
        rw [write_dir_eq T initState tree srcDir destDir output cacheRoot hbm, hmm]
        rw [show initState.cache = ([] : Cache) from rfl,
            show initState.scratch = ([] : List (JPath × String)) from rfl]
        unfold dirCachePass
        simp only []
        rw [compile_noop]
        rfl
      rw [h1]
      have hst : wState (Except.ok (initState, copyPassthroughGo tree destDir tree [],
          [Ev.mode false, Ev.queuedMods []]) :
            Except String (BState × List (JPath × String) × List Ev)) = initState := rfl
      rw [hst, h1]
      refine ⟨rfl, rfl, rfl, ?_, ?_⟩
      · intro q hq
        simp [wTrace] at hq
      · simp [wTrace]
    · have h1 := run1_dir T tree srcDir destDir output cacheRoot hsrc hroot hwf hbm hmm
      have h2 := run2_dir T tree srcDir destDir output cacheRoot hsrc hroot hwf hbm
      have hst : wState (write T initState tree srcDir destDir output cacheRoot) =
          ⟨cacheStackDir T [] tree srcDir (joinP cacheRoot ⟨false, [Nat.repr 0]⟩)
              (modulesOf tree) [],
            1, dsfSpec T tree (joinP cacheRoot ⟨false, [Nat.repr 0]⟩) (modulesOf tree) ++ []⟩ := by
        rw [h1]
        rfl
      rw [hst, h2, h1]
      refine ⟨rfl, rfl, rfl, ?_, ?_⟩
      · intro q hq
        simp [wTrace] at hq
        exact passEvs_no_container _ tree srcDir (modulesOf tree) q hq
      · simp [wTrace]

/-- Concrete witness for C1: a two-module tree with a passthrough file,
directory output. -/
def trW : SrcTree :=
  [(⟨false, ["a.js"]⟩, .file "ca"), (⟨false, ["sub", "b.js"]⟩, .file "cb"),
   (⟨false, ["style.css"]⟩, .file "cp")]

/-- A concrete transformer instance for witnesses. -/
def trT : Transp :=
  ⟨fun c => "A" ++ c, fun c => "S" ++ c, fun c => "I" ++ c, fun c => "E" ++ c,
   fun _ m => "G" ++ pstr m, fun _ m => "M" ++ pstr m,
   fun _ q => "B" ++ Nat.repr q.length, fun _ q => "N" ++ Nat.repr q.length⟩

def srcW : JPath := ⟨true, ["src"]⟩

def destW : JPath := ⟨true, ["dest"]⟩

def cacheW : JPath := ⟨true, ["cr"]⟩

def outDirW : JPath := ⟨false, ["out"]⟩

theorem claim_C1_witness :
    exOk (write trT initState trW srcW destW outDirW cacheW) = true ∧
    exOk (write trT (wState (write trT initState trW srcW destW outDirW cacheW))
      trW srcW destW outDirW cacheW) = true ∧
    wDest (write trT (wState (write trT initState trW srcW destW outDirW cacheW))
      trW srcW destW outDirW cacheW) =
      wDest (write trT initState trW srcW destW outDirW cacheW) ∧
    (∀ q, Ev.containerNew q ∉
      wTrace (write trT (wState (write trT initState trW srcW destW outDirW cacheW))
        trW srcW destW outDirW cacheW)) ∧
    Ev.queuedMods [] ∈
      wTrace (write trT (wState (write trT initState trW srcW destW outDirW cacheW))
        trW srcW destW outDirW cacheW) :=
  claim_C1 trT trW srcW destW outDirW cacheW (by decide) (by decide) (by decide) (by decide)

/-! ### Updating one file's content (claim C2's scenario) -/

/-- The source tree after overwriting `b`'s content with `c`. -/
def treeUpdate (t : SrcTree) (b : JPath) (c : String) : SrcTree :=
  t.map (fun e => if e.1 = b then (e.1, .file c) else e)

theorem treeUpdate_keys (t : SrcTree) (b : JPath) (c : String) :
    (treeUpdate t b c).map Prod.fst = t.map Prod.fst := by
  induction t with
  | nil => rfl
  | cons e r ih =>
    by_cases he : e.1 = b
    · simp [treeUpdate, he] at ih ⊢
      exact ih
    · simp [treeUpdate, he] at ih ⊢
      exact ih

theorem treeUpdate_modulesOf (t : SrcTree) (b : JPath) (c : String) :
    modulesOf (treeUpdate t b c) = modulesOf t := by
  unfold modulesOf
  rw [treeUpdate_keys]

theorem treeUpdate_lookup_ne (t : SrcTree) (b : JPath) (c : String) (k : JPath)
    (hk : k ≠ b) : lookupTree (treeUpdate t b c) k = lookupTree t k := by
  induction t with
  | nil => rfl
  | cons e r ih =>
    obtain ⟨k0, n0⟩ := e
    simp only [treeUpdate, lookupTree, List.map_cons] at ih ⊢
    by_cases hk0 : k0 = k
    · have he : ¬ (k0 = b) := by rw [hk0]; exact hk
      simp [he, hk0, hk]
    · by_cases he : k0 = b
      · have hbk : ¬ (b = k) := fun h => hk h.symm
        simp [he, hk0, hbk, ih]
      · simp [he, hk0, ih]

theorem treeUpdate_lookup_b (t : SrcTree) (b : JPath) (c : String)
    (hb : b ∈ t.map Prod.fst) :
    lookupTree (treeUpdate t b c) b = some (.file c) := by
  induction t with
  | nil => simp at hb
  | cons e r ih =>
    obtain ⟨k0, n0⟩ := e
    simp only [treeUpdate, lookupTree, List.map_cons] at ih ⊢
    by_cases he : k0 = b
    · simp [he]
    · simp only [List.map_cons, List.mem_cons] at hb
      rcases hb with h | h
      · exact absurd h.symm he
      · simp [he, ih h]

theorem readNode_treeUpdate (t : SrcTree) (b : JPath) (c : String) (n : FNode)
    (hb : b ∈ t.map Prod.fst) (h : readNode t n ≠ none) :
    readNode (treeUpdate t b c) n ≠ none := by
  cases n with
  | file cf => simp [readNode]
  | symlink tgt =>
    simp only [readNode] at h ⊢
    by_cases htgt : tgt = b
    · rw [htgt, treeUpdate_lookup_b t b c hb]
      simp
    · rw [treeUpdate_lookup_ne t b c tgt htgt]
      exact h

theorem treeWF_treeUpdate (t : SrcTree) (b : JPath) (c : String)
    (hwf : treeWF t) (hb : b ∈ t.map Prod.fst) :
    treeWF (treeUpdate t b c) := by
  constructor
  · rw [treeUpdate_keys]
    exact hwf.1
  · intro e' he'
    obtain ⟨e, he, heq⟩ := List.mem_map.mp he'
    obtain ⟨hrel, hread⟩ := hwf.2 e he
    by_cases hcase : e.1 = b
    · rw [if_pos hcase] at heq
      rw [← heq]
      exact ⟨hrel, by simp [readNode]⟩
    · rw [if_neg hcase] at heq
      rw [← heq]
      exact ⟨hrel, readNode_treeUpdate t b c e.2 hb hread⟩

theorem hashOne_treeUpdate_ne (t : SrcTree) (b : JPath) (c : String) (srcDir m : JPath)
    (hsrc : isNormAbs srcDir) (hm : isNormRel m) (hne : m ≠ b) :
    hashOne (treeUpdate t b c) srcDir m = hashOne t srcDir m := by
  rw [hashOne_eq, hashOne_eq, hashFile_joinP _ srcDir m hsrc hm,
    hashFile_joinP _ srcDir m hsrc hm, treeUpdate_lookup_ne t b c m hne]

theorem hashOne_treeUpdate_b (t : SrcTree) (b : JPath) (c : String) (srcDir : JPath)
    (hsrc : isNormAbs srcDir) (hb : isNormRel b) (hmem : b ∈ t.map Prod.fst) :
    hashOne (treeUpdate t b c) srcDir b = "F" ++ c := by
  rw [hashOne_eq, hashFile_joinP _ srcDir b hsrc hb, treeUpdate_lookup_b t b c hmem]
  rfl

theorem str_append_cancel_left (s u v : String) (h : s ++ u = s ++ v) : u = v := by
  have hd := congrArg String.data h
  rw [String.data_append, String.data_append] at hd
  exact String.ext (List.append_cancel_left hd)

/-! ### Lookup in accumulated destinations -/

theorem copyVals_frame (scratch : List (JPath × String)) (cd dd : JPath) :
    ∀ (fs : List JPath) (d : List (JPath × String)) (key : JPath),
      (∀ f ∈ fs, joinP dd f ≠ key) →
      alookup (copyVals scratch cd dd fs d) key = alookup d key := by
  intro fs
  induction fs with
  | nil => intro d key _; rfl
  | cons f fs ih =>
    intro d key h
    unfold copyVals
    rw [ih _ key (fun f' hf' => h f' (by simp [hf']))]
    simp [h f (by simp)]

theorem passDest_frame (cache : Cache) (tree : SrcTree) (srcDir outputPath : JPath)
    (scratch : List (JPath × String)) :
    ∀ (mps : List JPath) (d : List (JPath × String)) (key : JPath),
      (∀ m ∈ mps, ∀ e, validEntry cache tree srcDir m = some e →
        ∀ f ∈ e.outputFiles, joinP outputPath f ≠ key) →
      alookup (passDest cache tree srcDir outputPath scratch mps d) key = alookup d key := by
  intro mps
  induction mps with
  | nil => intro d key _; rfl
  | cons m r ih =>
    intro d key h
    unfold passDest
    cases hve : validEntry cache tree srcDir m with
    | some e =>
      simp only []
      rw [ih _ key (fun x hx => h x (by simp [hx]))]
      exact copyVals_frame scratch _ outputPath e.outputFiles d key
        (h m (by simp) e hve)
    | none =>
      simp only []
      exact ih _ key (fun x hx => h x (by simp [hx]))

theorem destStackDir_frame (T : Transp) (tree : SrcTree) (outputPath : JPath) :
    ∀ (mps : List JPath) (d : List (JPath × String)) (key : JPath),
      (∀ m ∈ mps, joinP outputPath m ≠ key ∧ joinP outputPath (mapName m) ≠ key) →
      alookup (destStackDir T tree outputPath mps d) key = alookup d key := by
  intro mps
  induction mps with
  | nil => intro d key _; rfl
  | cons m r ih =>
    intro d key h
    unfold destStackDir
    rw [ih _ key (fun x hx => h x (by simp [hx]))]
    simp [(h m (by simp)).1, (h m (by simp)).2]

theorem destStackDir_lookup (T : Transp) (tree : SrcTree) (outputPath : JPath)
    (houtP : isNormAbs outputPath) :
    ∀ (mps : List JPath) (d : List (JPath × String)) (a : JPath),
      mps.Nodup → a ∈ mps → (∀ m ∈ mps, isNormRel m ∧ extnameP m = ".js") →
      alookup (destStackDir T tree outputPath mps d) (joinP outputPath a) =
        some (T.gen tree a) := by
  intro mps
  induction mps with
  | nil => intro d a _ ha _; simp at ha
  | cons m r ih =>
    intro d a hnodup ha hwfm
    have hma := hwfm a ha
    by_cases har : a ∈ r
    · unfold destStackDir
      exact ih _ a (List.nodup_cons.mp hnodup).2 har (fun x hx => hwfm x (by simp [hx]))
    · have hma' : m = a := by
        rcases List.mem_cons.mp ha with h | h
        · exact h.symm
        · exact absurd h har
      subst hma'
      unfold destStackDir
      rw [destStackDir_frame T tree outputPath r _ (joinP outputPath m) ?_]
      · have hk : joinP outputPath (mapName m) ≠ joinP outputPath m := by
          intro h
          have := joinP_inj outputPath _ _ houtP (isNormRel_mapName m hma.1) hma.1 h
          exact mapName_ne_module m m hma.1 hma.2 this
        simp [hk]
      · intro m' hm'
        have hm'w := hwfm m' (by simp [hm'])
        have hne : m' ≠ m := by
          intro h
          rw [h] at hm'
          exact (List.nodup_cons.mp hnodup).1 hm'
        constructor
        · intro h
          exact hne (joinP_inj outputPath m' m houtP hm'w.1 hma.1 h)
        · intro h
          have := joinP_inj outputPath _ _ houtP (isNormRel_mapName m' hm'w.1) hma.1 h
          exact mapName_ne_module m' m hm'w.1 hma.2 this

theorem passDest_lookup_all (T : Transp) (c0 cache : Cache) (treeOld tree' : SrcTree)
    (srcDir outputPath cd : JPath) (scratch : List (JPath × String))
    (houtP : isNormAbs outputPath) :
    ∀ (mps : List JPath) (d : List (JPath × String)) (a : JPath),
      mps.Nodup → a ∈ mps →
      (∀ m ∈ mps, isNormRel m ∧ extnameP m = ".js") →
      (∀ m ∈ mps, validEntry cache tree' srcDir m = none ∨
        validEntry cache tree' srcDir m = some (dirEntryFor T c0 treeOld srcDir cd m)) →
      validEntry cache tree' srcDir a = some (dirEntryFor T c0 treeOld srcDir cd a) →
      (∀ m ∈ mps, alookup scratch (joinP cd m) = some (T.gen treeOld m) ∧
        alookup scratch (joinP cd (mapName m)) = some (T.genMap treeOld m)) →
      alookup (passDest cache tree' srcDir outputPath scratch mps d) (joinP outputPath a) =
        some (T.gen treeOld a) := by
  intro mps
  induction mps with
  | nil => intro d a _ ha _ _ _ _; simp at ha
  | cons m r ih =>
    intro d a hnodup ha hwfm hshape hva hscr
    have hma := hwfm a ha
    by_cases har : a ∈ r
    · unfold passDest
      cases hve : validEntry cache tree' srcDir m with
      | some e =>
        simp only []
        exact ih _ a (List.nodup_cons.mp hnodup).2 har
          (fun x hx => hwfm x (by simp [hx])) (fun x hx => hshape x (by simp [hx])) hva
          (fun x hx => hscr x (by simp [hx]))
      | none =>
        simp only []
        exact ih _ a (List.nodup_cons.mp hnodup).2 har
          (fun x hx => hwfm x (by simp [hx])) (fun x hx => hshape x (by simp [hx])) hva
          (fun x hx => hscr x (by simp [hx]))
    · have hma' : m = a := by
        rcases List.mem_cons.mp ha with h | h
        · exact h.symm
        · exact absurd h har
      subst hma'
      unfold passDest
      rw [hva]
      simp only []
      have hframe : alookup (passDest cache tree' srcDir outputPath scratch r
          (copyVals scratch ((dirEntryFor T c0 treeOld srcDir cd m).dir.getD ⟨true, []⟩)
            outputPath (dirEntryFor T c0 treeOld srcDir cd m).outputFiles d))
          (joinP outputPath m) =
          alookup (copyVals scratch ((dirEntryFor T c0 treeOld srcDir cd m).dir.getD ⟨true, []⟩)
            outputPath (dirEntryFor T c0 treeOld srcDir cd m).outputFiles d)
            (joinP outputPath m) := by
        apply passDest_frame
        intro m' hm' e he f hf
        have hm'w := hwfm m' (by simp [hm'])
        have hne : m' ≠ m := by
          intro h
          rw [h] at hm'
          exact (List.nodup_cons.mp hnodup).1 hm'
        rcases hshape m' (by simp [hm']) with h | h
        · rw [h] at he; simp at he
        · rw [h] at he
          have hee := Option.some.inj he
          rw [← hee] at hf
          have hof : (dirEntryFor T c0 treeOld srcDir cd m').outputFiles =
              [m', mapName m'] := rfl
          rw [hof] at hf
          rcases List.mem_cons.mp hf with h' | h'
          · rw [h']
            intro hx
            exact hne (joinP_inj outputPath m' m houtP hm'w.1 hma.1 hx)
          · simp at h'
            rw [h']
            intro hx
            have := joinP_inj outputPath _ _ houtP (isNormRel_mapName m' hm'w.1) hma.1 hx
            exact mapName_ne_module m' m hm'w.1 hma.2 this
      rw [hframe]
      have hdir : (dirEntryFor T c0 treeOld srcDir cd m).dir.getD ⟨true, []⟩ = cd := rfl
      have hof : (dirEntryFor T c0 treeOld srcDir cd m).outputFiles = [m, mapName m] := rfl
      rw [hdir, hof]
      unfold copyVals copyVals copyVals
      have hk : joinP outputPath (mapName m) ≠ joinP outputPath m := by
        intro h
        have := joinP_inj outputPath _ _ houtP (isNormRel_mapName m hma.1) hma.1 h
        exact mapName_ne_module m m hma.1 hma.2 this
      simp only [alookup_cons, hk, if_neg, if_pos rfl]
      rw [(hscr m (by simp)).1]
      rfl

theorem filter_eq_single {α : Type} (p : α → Bool) :
    ∀ (l : List α) (b : α), l.Nodup → b ∈ l → p b = true →
      (∀ a ∈ l, a ≠ b → p a = false) → l.filter p = [b] := by
  intro l
  induction l with
  | nil => intro b _ hb; simp at hb
  | cons x r ih =>
    intro b hnodup hb hpb hpa
    by_cases hxb : x = b
    · subst hxb
      have hbr : x ∉ r := (List.nodup_cons.mp hnodup).1
      rw [List.filter_cons, if_pos hpb]
      have : r.filter p = [] := by
        rw [List.filter_eq_nil_iff]
        intro a ha
        have hab : a ≠ x := fun h => hbr (h ▸ ha)
        simp [hpa a (by simp [ha]) hab]
      rw [this]
    · have hbr : b ∈ r := by
        rcases List.mem_cons.mp hb with h | h
        · exact absurd h.symm hxb
        · exact h
      rw [List.filter_cons, if_neg (by simp [hpa x (by simp) hxb])]
      exact ih b (List.nodup_cons.mp hnodup).2 hbr hpb
        (fun a ha hab => hpa a (by simp [ha]) hab)

/-! ### Claim C2 -/

/-- C2: In directory mode, after a first build of `tree`, changing only
module `b`'s content and rebuilding recompiles only `b` (the second run
queues exactly `[b]` and the container is constructed for `[b]` alone);
every other cache key is left unchanged and only `b`'s entry hash is
updated (from the old content digest to the new one); and every other
module's destination output is materialized from cache byte-identically
(its destination bytes equal the first run's bytes, namely the cached
compiled output of the old tree). -/
theorem claim_C2 (T : Transp) (tree : SrcTree) (srcDir destDir output cacheRoot b : JPath)
    (oldC c' : String)
    (hsrc : isNormAbs srcDir) (hroot : isNormAbs cacheRoot)
    (hout : isNormAbs (joinP destDir output)) (hwf : treeWF tree)
    (houtf : extnameP (joinP destDir output) ≠ ".js")
    (hb : b ∈ modulesOf tree)
    (hold : lookupTree tree b = some (.file oldC)) (hnec : c' ≠ oldC) :
    exOk (write T initState tree srcDir destDir output cacheRoot) = true ∧
    exOk (write T (wState (write T initState tree srcDir destDir output cacheRoot))
      (treeUpdate tree b c') srcDir destDir output cacheRoot) = true ∧
    Ev.queuedMods [b] ∈ wTrace (write T
      (wState (write T initState tree srcDir destDir output cacheRoot))
      (treeUpdate tree b c') srcDir destDir output cacheRoot) ∧
    Ev.containerNew [b] ∈ wTrace (write T
      (wState (write T initState tree srcDir destDir output cacheRoot))
      (treeUpdate tree b c') srcDir destDir output cacheRoot) ∧
    (∀ k, k ≠ b →
      alookup (wState (write T
        (wState (write T initState tree srcDir destDir output cacheRoot))
        (treeUpdate tree b c') srcDir destDir output cacheRoot)).cache k =
      alookup (wState (write T initState tree srcDir destDir output cacheRoot)).cache k) ∧
    (alookup (wState (write T
        (wState (write T initState tree srcDir destDir output cacheRoot))
        (treeUpdate tree b c') srcDir destDir output cacheRoot)).cache b).map
      CacheEntry.hash = some ("F" ++ c') ∧
    (alookup (wState (write T initState tree srcDir destDir output cacheRoot)).cache b).map
      CacheEntry.hash = some ("F" ++ oldC) ∧
    ("F" ++ c' : String) ≠ ("F" ++ oldC : String) ∧
    (∀ a, a ∈ modulesOf tree → a ≠ b →
      alookup (wDest (write T
          (wState (write T initState tree srcDir destDir output cacheRoot))
          (treeUpdate tree b c') srcDir destDir output cacheRoot))
        (joinP (joinP destDir output) a) =
        alookup (wDest (write T initState tree srcDir destDir output cacheRoot))
          (joinP (joinP destDir output) a) ∧
      alookup (wDest (write T
          (wState (write T initState tree srcDir destDir output cacheRoot))
          (treeUpdate tree b c') srcDir destDir output cacheRoot))
        (joinP (joinP destDir output) a) = some (T.gen tree a)) := by
  have hmm : modulesOf tree ≠ [] := List.ne_nil_of_mem hb
  have h1 := run1_dir T tree srcDir destDir output cacheRoot hsrc hroot hwf houtf hmm
  have hbkeys : b ∈ tree.map Prod.fst := (mem_modulesOf tree b hb).1
  obtain ⟨hbext, hbrel, bnd, hbnd, -⟩ := module_facts tree b hwf hb
  have hwf' : treeWF (treeUpdate tree b c') := treeWF_treeUpdate tree b c' hwf hbkeys
  have hwfm : ∀ x ∈ modulesOf tree, isNormRel x ∧ extnameP x = ".js" := fun x hx =>
    ⟨(module_facts tree x hwf hx).2.1, (module_facts tree x hwf hx).1⟩
  have hcd0 : isNormAbs (joinP cacheRoot ⟨false, [Nat.repr 0]⟩) :=
    isNormAbs_joinP cacheRoot _ hroot (isNormRel_reprSeg 0)
  have hscr : ∀ m ∈ modulesOf tree,
      alookup (dsfSpec T tree (joinP cacheRoot ⟨false, [Nat.repr 0]⟩) (modulesOf tree) ++ [])
        (joinP (joinP cacheRoot ⟨false, [Nat.repr 0]⟩) m) = some (T.gen tree m) ∧
      alookup (dsfSpec T tree (joinP cacheRoot ⟨false, [Nat.repr 0]⟩) (modulesOf tree) ++ [])
        (joinP (joinP cacheRoot ⟨false, [Nat.repr 0]⟩) (mapName m)) =
          some (T.genMap tree m) := fun m hm =>
    ⟨dsf_lookup_gen T tree _ hcd0 (modulesOf tree) [] m hwfm hm,
     dsf_lookup_map T tree _ hcd0 (modulesOf tree) [] m hwfm hm⟩
  have hhashb_old : hashOne tree srcDir b = "F" ++ oldC := by
    rw [hashOne_node tree srcDir b hsrc hbrel (.file oldC) hold]
    rfl
  have hhashb_new : hashOne (treeUpdate tree b c') srcDir b = "F" ++ c' :=
    hashOne_treeUpdate_b tree b c' srcDir hsrc hbrel hbkeys
  have hFne : ("F" ++ c' : String) ≠ ("F" ++ oldC : String) := by
    intro h
    exact hnec (str_append_cancel_left "F" c' oldC h)
  have hva : ∀ m ∈ modulesOf tree, m ≠ b →
      validEntry (cacheStackDir T [] tree srcDir (joinP cacheRoot ⟨false, [Nat.repr 0]⟩)
          (modulesOf tree) []) (treeUpdate tree b c') srcDir m =
        some (dirEntryFor T [] tree srcDir (joinP cacheRoot ⟨false, [Nat.repr 0]⟩) m) := by
    intro m hm hmb
    apply validEntry_eq_some
    · exact cacheStackDir_hit T [] tree srcDir _ (modulesOf tree) [] m hm
    · show hashOne tree srcDir m = _
      rw [hashOne_treeUpdate_ne tree b c' srcDir m hsrc (hwfm m hm).1 hmb]
  have hvb : validEntry (cacheStackDir T [] tree srcDir
      (joinP cacheRoot ⟨false, [Nat.repr 0]⟩) (modulesOf tree) [])
      (treeUpdate tree b c') srcDir b = none := by
    apply validEntry_none_of_mismatch _ _ _ _
      (dirEntryFor T [] tree srcDir (joinP cacheRoot ⟨false, [Nat.repr 0]⟩) b)
      (cacheStackDir_hit T [] tree srcDir _ (modulesOf tree) [] b hb)
    show hashOne tree srcDir b ≠ _
    rw [hhashb_old, hhashb_new]
    exact fun h => hFne h.symm
  have hshape : ∀ m ∈ modulesOf tree,
      validEntry (cacheStackDir T [] tree srcDir (joinP cacheRoot ⟨false, [Nat.repr 0]⟩)
          (modulesOf tree) []) (treeUpdate tree b c') srcDir m = none ∨
      validEntry (cacheStackDir T [] tree srcDir (joinP cacheRoot ⟨false, [Nat.repr 0]⟩)
          (modulesOf tree) []) (treeUpdate tree b c') srcDir m =
        some (dirEntryFor T [] tree srcDir (joinP cacheRoot ⟨false, [Nat.repr 0]⟩) m) := by
    intro m hm
    by_cases hmb : m = b
    · subst hmb
      exact Or.inl hvb
    · exact Or.inr (hva m hm hmb)
  -- run 2 analysis
  have hst : wState (write T initState tree srcDir destDir output cacheRoot) =
      ⟨cacheStackDir T [] tree srcDir (joinP cacheRoot ⟨false, [Nat.repr 0]⟩)
          (modulesOf tree) [],
        1, dsfSpec T tree (joinP cacheRoot ⟨false, [Nat.repr 0]⟩) (modulesOf tree) ++ []⟩ := by
    rw [h1]
    rfl
  have hpass := dirCachePass_char
    (cacheStackDir T [] tree srcDir (joinP cacheRoot ⟨false, [Nat.repr 0]⟩) (modulesOf tree) [])
    (treeUpdate tree b c') srcDir (joinP destDir output)
    (dsfSpec T tree (joinP cacheRoot ⟨false, [Nat.repr 0]⟩) (modulesOf tree) ++ [])
    (modulesOf (treeUpdate tree b c')) []
    (copyPassthroughGo (treeUpdate tree b c') destDir (treeUpdate tree b c') []) [.mode false]
    (by
      rw [treeUpdate_modulesOf]
      intro m hm e he
      rcases hshape m hm with h | h
      · rw [h] at he; simp at he
      · rw [h] at he
        have hee := Option.some.inj he
        refine ⟨joinP cacheRoot ⟨false, [Nat.repr 0]⟩, ?_, ?_⟩
        · rw [← hee]; rfl
        · intro f hf
          rw [← hee] at hf
          have hof : (dirEntryFor T [] tree srcDir (joinP cacheRoot ⟨false, [Nat.repr 0]⟩)
              m).outputFiles = [m, mapName m] := rfl
          rw [hof] at hf
          rcases List.mem_cons.mp hf with h' | h'
          · rw [h', (hscr m hm).1]; rfl
          · simp at h'
            rw [h', (hscr m hm).2]; rfl)
  have hfilter : (modulesOf (treeUpdate tree b c')).filter
      (fun m => (validEntry (cacheStackDir T [] tree srcDir
        (joinP cacheRoot ⟨false, [Nat.repr 0]⟩) (modulesOf tree) [])
        (treeUpdate tree b c') srcDir m).isNone) = [b] := by
    rw [treeUpdate_modulesOf]
    apply filter_eq_single _ (modulesOf tree) b (modulesOf_nodup tree hwf) hb
    · rw [hvb]; rfl
    · intro a ha hab
      rw [hva a ha hab]
      rfl
  have hcompile := compile_dir_char T
    ⟨cacheStackDir T [] tree srcDir (joinP cacheRoot ⟨false, [Nat.repr 0]⟩)
        (modulesOf tree) [],
      1, dsfSpec T tree (joinP cacheRoot ⟨false, [Nat.repr 0]⟩) (modulesOf tree) ++ []⟩
    (treeUpdate tree b c') srcDir (joinP destDir output) cacheRoot [b]
    (passDest (cacheStackDir T [] tree srcDir (joinP cacheRoot ⟨false, [Nat.repr 0]⟩)
        (modulesOf tree) [])
      (treeUpdate tree b c') srcDir (joinP destDir output)
      (dsfSpec T tree (joinP cacheRoot ⟨false, [Nat.repr 0]⟩) (modulesOf tree) ++ [])
      (modulesOf (treeUpdate tree b c'))
      (copyPassthroughGo (treeUpdate tree b c') destDir (treeUpdate tree b c') []))
    (([Ev.mode false] ++ passEvs (cacheStackDir T [] tree srcDir
        (joinP cacheRoot ⟨false, [Nat.repr 0]⟩) (modulesOf tree) [])
        (treeUpdate tree b c') srcDir (modulesOf (treeUpdate tree b c')))
      ++ [Ev.queuedMods [b]])
    hsrc hroot hwf' houtf
    (by
      intro m hm
      simp at hm
      rw [hm, treeUpdate_modulesOf]
      exact hb)
    (by simp) (by simp)
  have h2 : write T
      ⟨cacheStackDir T [] tree srcDir (joinP cacheRoot ⟨false, [Nat.repr 0]⟩)
          (modulesOf tree) [],
        1, dsfSpec T tree (joinP cacheRoot ⟨false, [Nat.repr 0]⟩) (modulesOf tree) ++ []⟩
      (treeUpdate tree b c') srcDir destDir output cacheRoot =
      .ok (⟨cacheStackDir T
              (cacheStackDir T [] tree srcDir (joinP cacheRoot ⟨false, [Nat.repr 0]⟩)
                (modulesOf tree) [])
              (treeUpdate tree b c') srcDir (joinP cacheRoot ⟨false, [Nat.repr 1]⟩) [b]
              (cacheStackDir T [] tree srcDir (joinP cacheRoot ⟨false, [Nat.repr 0]⟩)
                (modulesOf tree) []),
            2, dsfSpec T (treeUpdate tree b c') (joinP cacheRoot ⟨false, [Nat.repr 1]⟩) [b]
                 ++ (dsfSpec T tree (joinP cacheRoot ⟨false, [Nat.repr 0]⟩)
                      (modulesOf tree) ++ [])⟩,
           destStackDir T (treeUpdate tree b c') (joinP destDir output) [b]
             (passDest (cacheStackDir T [] tree srcDir
                 (joinP cacheRoot ⟨false, [Nat.repr 0]⟩) (modulesOf tree) [])
               (treeUpdate tree b c') srcDir (joinP destDir output)
               (dsfSpec T tree (joinP cacheRoot ⟨false, [Nat.repr 0]⟩) (modulesOf tree) ++ [])
               (modulesOf (treeUpdate tree b c'))
               (copyPassthroughGo (treeUpdate tree b c') destDir (treeUpdate tree b c') [])),
           ((([Ev.mode false] ++ passEvs (cacheStackDir T [] tree srcDir
               (joinP cacheRoot ⟨false, [Nat.repr 0]⟩) (modulesOf tree) [])
               (treeUpdate tree b c') srcDir (modulesOf (treeUpdate tree b c')))
             ++ [Ev.queuedMods [b]]) ++ [Ev.containerNew [b]])
             ++ [b].map (fun m => Ev.cachePut m false)) := by
    rw [write_dir_eq _ _ _ srcDir destDir output cacheRoot houtf]
    rw [show (⟨cacheStackDir T [] tree srcDir (joinP cacheRoot ⟨false, [Nat.repr 0]⟩)
          (modulesOf tree) [],
        1, dsfSpec T tree (joinP cacheRoot ⟨false, [Nat.repr 0]⟩) (modulesOf tree) ++ []⟩
        : BState).cache = cacheStackDir T [] tree srcDir
          (joinP cacheRoot ⟨false, [Nat.repr 0]⟩) (modulesOf tree) [] from rfl]
    rw [show (⟨cacheStackDir T [] tree srcDir (joinP cacheRoot ⟨false, [Nat.repr 0]⟩)
          (modulesOf tree) [],
        1, dsfSpec T tree (joinP cacheRoot ⟨false, [Nat.repr 0]⟩) (modulesOf tree) ++ []⟩
        : BState).scratch = dsfSpec T tree (joinP cacheRoot ⟨false, [Nat.repr 0]⟩)
          (modulesOf tree) ++ [] from rfl]
    rw [hpass]
    simp only [List.nil_append]
    rw [hfilter]
    simpa using hcompile
  rw [hst, h2, h1]
  refine ⟨rfl, rfl, by simp [wTrace], by simp [wTrace], ?_, ?_, ?_, hFne, ?_⟩
  · intro k hk
    have hbk : ¬ (b = k) := fun h => hk h.symm
    simp only [wState, cacheStackDir, alookup_cons, if_neg hbk]
  · simp only [wState, cacheStackDir, alookup_cons, if_pos rfl, Option.map_some]
    show some (hashOne (treeUpdate tree b c') srcDir b) = _
    rw [hhashb_new]
  · show (alookup (cacheStackDir T [] tree srcDir (joinP cacheRoot ⟨false, [Nat.repr 0]⟩)
        (modulesOf tree) []) b).map CacheEntry.hash = some ("F" ++ oldC)
    rw [cacheStackDir_hit T [] tree srcDir _ (modulesOf tree) [] b hb]
    show some (hashOne tree srcDir b) = some ("F" ++ oldC)
    rw [hhashb_old]
  · intro a ha hab
    have haw := hwfm a ha
    have hd2 : alookup (destStackDir T (treeUpdate tree b c') (joinP destDir output) [b]
        (passDest (cacheStackDir T [] tree srcDir
            (joinP cacheRoot ⟨false, [Nat.repr 0]⟩) (modulesOf tree) [])
          (treeUpdate tree b c') srcDir (joinP destDir output)
          (dsfSpec T tree (joinP cacheRoot ⟨false, [Nat.repr 0]⟩) (modulesOf tree) ++ [])
          (modulesOf (treeUpdate tree b c'))
          (copyPassthroughGo (treeUpdate tree b c') destDir (treeUpdate tree b c') [])))
        (joinP (joinP destDir output) a) = some (T.gen tree a) := by
      rw [destStackDir_frame T (treeUpdate tree b c') (joinP destDir output) [b] _
        (joinP (joinP destDir output) a) ?_]
      · rw [treeUpdate_modulesOf]
        exact passDest_lookup_all T [] _ tree (treeUpdate tree b c') srcDir
          (joinP destDir output) (joinP cacheRoot ⟨false, [Nat.repr 0]⟩) _ hout
          (modulesOf tree) _ a (modulesOf_nodup tree hwf) ha hwfm
          hshape (hva a ha hab) hscr
      · intro m hm
        simp at hm
        rw [hm]
        constructor
        · intro h
          exact hab (joinP_inj (joinP destDir output) b a hout hbrel haw.1 h).symm
        · intro h
          have := joinP_inj (joinP destDir output) (mapName b) a hout
            (isNormRel_mapName b hbrel) haw.1 h
          exact mapName_ne_module b a hbrel haw.2 this
    have hd1 : alookup (destStackDir T tree (joinP destDir output) (modulesOf tree)
        (copyPassthroughGo tree destDir tree [])) (joinP (joinP destDir output) a) =
        some (T.gen tree a) :=
      destStackDir_lookup T tree (joinP destDir output) hout (modulesOf tree) _ a
        (modulesOf_nodup tree hwf) ha hwfm
    simp only [wDest]
    rw [hd1, hd2]
    exact ⟨rfl, rfl⟩

def bW : JPath := ⟨false, ["sub", "b.js"]⟩

theorem claim_C2_witness :
    exOk (write trT initState trW srcW destW outDirW cacheW) = true ∧
    exOk (write trT (wState (write trT initState trW srcW destW outDirW cacheW))
      (treeUpdate trW bW "cb2") srcW destW outDirW cacheW) = true ∧
    Ev.queuedMods [bW] ∈ wTrace (write trT
      (wState (write trT initState trW srcW destW outDirW cacheW))
      (treeUpdate trW bW "cb2") srcW destW outDirW cacheW) ∧
    Ev.containerNew [bW] ∈ wTrace (write trT
      (wState (write trT initState trW srcW destW outDirW cacheW))
      (treeUpdate trW bW "cb2") srcW destW outDirW cacheW) ∧
    (∀ k, k ≠ bW →
      alookup (wState (write trT
        (wState (write trT initState trW srcW destW outDirW cacheW))
        (treeUpdate trW bW "cb2") srcW destW outDirW cacheW)).cache k =
      alookup (wState (write trT initState trW srcW destW outDirW cacheW)).cache k) ∧
    (alookup (wState (write trT
        (wState (write trT initState trW srcW destW outDirW cacheW))
        (treeUpdate trW bW "cb2") srcW destW outDirW cacheW)).cache bW).map
      CacheEntry.hash = some ("F" ++ "cb2") ∧
    (alookup (wState (write trT initState trW srcW destW outDirW cacheW)).cache bW).map
      CacheEntry.hash = some ("F" ++ "cb") ∧
    ("F" ++ "cb2" : String) ≠ ("F" ++ "cb" : String) ∧
    (∀ a, a ∈ modulesOf trW → a ≠ bW →
      alookup (wDest (write trT
          (wState (write trT initState trW srcW destW outDirW cacheW))
          (treeUpdate trW bW "cb2") srcW destW outDirW cacheW))
        (joinP (joinP destW outDirW) a) =
        alookup (wDest (write trT initState trW srcW destW outDirW cacheW))
          (joinP (joinP destW outDirW) a) ∧
      alookup (wDest (write trT
          (wState (write trT initState trW srcW destW outDirW cacheW))
          (treeUpdate trW bW "cb2") srcW destW outDirW cacheW))
        (joinP (joinP destW outDirW) a) = some (trT.gen trW a)) :=
  claim_C2 trT trW srcW destW outDirW cacheW bW "cb" "cb2"
    (by decide) (by decide) (by decide) (by decide) (by decide) (by decide)
    (by decide) (by decide)

/-! ### Claim C3 -/

theorem isNormAbs_dirnameP (p : JPath) (h : isNormAbs p) : isNormAbs (dirnameP p) := by
  refine ⟨h.1, ?_⟩
  intro s hs
  exact h.2 s (List.dropLast_subset _ hs)

/-- C3: In bundle mode (configured output path with the `.js` extension),
the cached bundle is reused only when the aggregate hash over all module
files matches the stored entry's hash — every `reuseBundle` event of a
successful run comes from a `bundleValid` hit whose stored hash equals
the fresh aggregate hash; and when the entry is absent or any module's
hash changed (`bundleValid` misses), all modules are queued for
compilation, the container is invoked on all of them, and the
bundle-level artifact is regenerated in full: the destination holds a
freshly generated bundle and the bundle cache entry is rebuilt with the
current aggregate hash in a fresh cache sub-directory. -/
theorem claim_C3 (T : Transp) (st : BState) (tree : SrcTree)
    (srcDir destDir output cacheRoot : JPath)
    (hsrc : isNormAbs srcDir) (hroot : isNormAbs cacheRoot)
    (hout : isNormAbs (joinP destDir output)) (hwf : treeWF tree)
    (houtf : extnameP (joinP destDir output) = ".js")
    (hne : modulesOf tree ≠ []) :
    (∀ st' d tr, write T st tree srcDir destDir output cacheRoot = .ok (st', d, tr) →
      ∀ k eh fh, Ev.reuseBundle k eh fh ∈ tr →
        ∃ e, bundleValid st.cache tree srcDir (joinP destDir output) (modulesOf tree) =
            some e ∧
          eh = e.hash ∧ fh = hashList tree srcDir (modulesOf tree) ∧ eh = fh) ∧
    (bundleValid st.cache tree srcDir (joinP destDir output) (modulesOf tree) = none →
      ∃ st' d tr, write T st tree srcDir destDir output cacheRoot = .ok (st', d, tr) ∧
        Ev.queuedMods (modulesOf tree) ∈ tr ∧
        Ev.containerNew (modulesOf tree) ∈ tr ∧
        alookup d (joinP (dirnameP (joinP destDir output))
          ⟨false, [basenameP (joinP destDir output)]⟩) =
          some (T.genBundle tree (modulesOf tree)) ∧
        ∃ e', alookup st'.cache ⟨false, [basenameP (joinP destDir output)]⟩ = some e' ∧
          e'.hash = hashList tree srcDir (modulesOf tree) ∧
          e'.dir = some (joinP cacheRoot ⟨false, [Nat.repr st.cacheIndex]⟩)) := by
  have hchar := compile_bundle_char T st tree srcDir (joinP destDir output) cacheRoot
    (modulesOf tree) (copyPassthroughGo tree destDir tree [])
    [Ev.mode true, Ev.queuedMods (modulesOf tree)]
    hsrc hroot hwf hout houtf (fun m hm => hm) (modulesOf_nodup tree hwf) hne
  constructor
  · intro st' d tr hok k eh fh hmem
    cases hbv : bundleValid st.cache tree srcDir (joinP destDir output) (modulesOf tree) with
    | some e =>
      rw [write_bundle_reuse_eq T st tree srcDir destDir output cacheRoot e houtf hbv] at hok
      cases hc : copyFromCache st.scratch e (dirnameP (joinP destDir output))
          (copyPassthroughGo tree destDir tree []) with
      | error err => rw [hc] at hok; simp at hok
      | ok dest1 =>
        rw [hc] at hok
        simp only [Except.ok.injEq, Prod.mk.injEq] at hok
        obtain ⟨-, -, htr⟩ := hok
        rw [← htr] at hmem
        simp only [List.mem_cons, List.mem_singleton, List.not_mem_nil, or_false] at hmem
        rcases hmem with h | h | h
        · simp at h
        · injection h with h1 h2 h3
          refine ⟨e, rfl, h2, h3, ?_⟩
          rw [h2, h3]
          exact (bundleValid_some st.cache tree srcDir (joinP destDir output)
            (modulesOf tree) e hbv).2
        · simp at h
    | none =>
      rw [write_bundle_miss_eq T st tree srcDir destDir output cacheRoot houtf hbv,
        hchar] at hok
      simp only [Except.ok.injEq, Prod.mk.injEq] at hok
      obtain ⟨-, -, htr⟩ := hok
      rw [← htr] at hmem
      simp at hmem
  · intro hbv
    rw [write_bundle_miss_eq T st tree srcDir destDir output cacheRoot houtf hbv, hchar]
    refine ⟨_, _, _, rfl, by simp, by simp, ?_, ?_⟩
    · have hkey : joinP (dirnameP (joinP destDir output))
          (mapName ⟨false, [basenameP (joinP destDir output)]⟩) ≠
          joinP (dirnameP (joinP destDir output))
            (⟨false, [basenameP (joinP destDir output)]⟩ : JPath) := by
        obtain ⟨hbrel, hbext⟩ := bundle_base_facts (joinP destDir output) hout houtf
        intro h
        have := joinP_inj (dirnameP (joinP destDir output)) _ _
          (isNormAbs_dirnameP _ hout) (isNormRel_mapName _ hbrel) hbrel h
        exact mapName_ne_module _ _ hbrel hbext this
      simp [alookup_cons, hkey]
    · refine ⟨{ hash := hashList tree srcDir (modulesOf tree),
                dir := some (joinP cacheRoot ⟨false, [Nat.repr st.cacheIndex]⟩),
                outputFiles := [⟨false, [basenameP (joinP destDir output)]⟩,
                                mapName ⟨false, [basenameP (joinP destDir output)]⟩] },
        ?_, rfl, rfl⟩
      exact if_pos rfl

def outBW : JPath := ⟨false, ["app.js"]⟩

theorem claim_C3_witness :
    ((∀ st' d tr, write trT initState trW srcW destW outBW cacheW = .ok (st', d, tr) →
      ∀ k eh fh, Ev.reuseBundle k eh fh ∈ tr →
        ∃ e, bundleValid initState.cache trW srcW (joinP destW outBW) (modulesOf trW) =
            some e ∧
          eh = e.hash ∧ fh = hashList trW srcW (modulesOf trW) ∧ eh = fh) ∧
    (bundleValid initState.cache trW srcW (joinP destW outBW) (modulesOf trW) = none →
      ∃ st' d tr, write trT initState trW srcW destW outBW cacheW = .ok (st', d, tr) ∧
        Ev.queuedMods (modulesOf trW) ∈ tr ∧
        Ev.containerNew (modulesOf trW) ∈ tr ∧
        alookup d (joinP (dirnameP (joinP destW outBW))
          ⟨false, [basenameP (joinP destW outBW)]⟩) =
          some (trT.genBundle trW (modulesOf trW)) ∧
        ∃ e', alookup st'.cache ⟨false, [basenameP (joinP destW outBW)]⟩ = some e' ∧
          e'.hash = hashList trW srcW (modulesOf trW) ∧
          e'.dir = some (joinP cacheW ⟨false, [Nat.repr initState.cacheIndex]⟩))) :=
  claim_C3 trT initState trW srcW destW outBW cacheW
    (by decide) (by decide) (by decide) (by decide) (by decide) (by decide)


/-! ### Claim C4 -/

theorem cacheModulesLoop_evs (tree : SrcTree) (srcDir outputPath cacheDir : JPath)
    (oif : Bool) (scratch : List (JPath × String)) :
    ∀ (mds : List ModuleData) (cache : Cache) (dest : List (JPath × String))
      (evs : List Ev) (oh : List String) (c' : Cache) (d' : List (JPath × String))
      (evs' : List Ev) (oh' : List String),
      cacheModulesLoop tree srcDir outputPath cacheDir oif scratch mds cache dest evs oh =
        .ok (c', d', evs', oh') →
      ∀ ev ∈ evs', ev ∈ evs ∨ ∃ k, ev = Ev.cachePut k false := by
  intro mds
  induction mds with
  | nil =>
    intro cache dest evs oh c' d' evs' oh' h ev hev
    simp only [cacheModulesLoop, Except.ok.injEq, Prod.mk.injEq] at h
    obtain ⟨-, -, hevs, -⟩ := h
    rw [← hevs] at hev
    exact Or.inl hev
  | cons md rest ih =>
    intro cache dest evs oh c' d' evs' oh' h ev hev
    simp only [cacheModulesLoop] at h
    split at h
    · rcases ih _ _ _ _ _ _ _ _ h ev hev with h1 | h1
      · rcases List.mem_append.mp h1 with h2 | h2
        · exact Or.inl h2
        · simp only [List.mem_singleton] at h2
          exact Or.inr ⟨_, h2⟩
      · exact Or.inr h1
    · split at h
      · exact absurd h (by simp)
      · rcases ih _ _ _ _ _ _ _ _ h ev hev with h1 | h1
        · rcases List.mem_append.mp h1 with h2 | h2
          · exact Or.inl h2
          · simp only [List.mem_singleton] at h2
            exact Or.inr ⟨_, h2⟩
        · exact Or.inr h1

theorem compile_evs (T : Transp) (st : BState) (tree : SrcTree)
    (srcDir outputPath cacheRoot : JPath) (mps : List JPath)
    (dest : List (JPath × String)) (evs : List Ev) (st' : BState)
    (d' : List (JPath × String)) (tr : List Ev)
    (h : compileAndCacheModules T st tree srcDir outputPath cacheRoot mps dest evs =
      .ok (st', d', tr)) :
    ∀ ev ∈ tr, ev ∈ evs ∨ (∃ q, ev = Ev.containerNew q) ∨ ∃ k b, ev = Ev.cachePut k b := by
  intro ev hev
  simp only [compileAndCacheModules] at h
  split at h
  · simp only [Except.ok.injEq, Prod.mk.injEq] at h
    obtain ⟨-, -, htr⟩ := h
    rw [← htr] at hev
    exact Or.inl hev
  · split at h
    · exact absurd h (by simp)
    · split at h
      · exact absurd h (by simp)
      · rename_i mods reg hgm cache2 dest2 evs2 oh2 hloop
        have hml := cacheModulesLoop_evs tree srcDir outputPath _ _ _ _ _ _ _ _ _ _ _ _ hloop
        split at h
        · split at h
          · exact absurd h (by simp)
          · simp only [Except.ok.injEq, Prod.mk.injEq] at h
            obtain ⟨-, -, htr⟩ := h
            rw [← htr] at hev
            rcases List.mem_append.mp hev with h1 | h1
            · rcases hml ev h1 with h2 | h2
              · rcases List.mem_append.mp h2 with h3 | h3
                · exact Or.inl h3
                · simp only [List.mem_singleton] at h3
                  exact Or.inr (Or.inl ⟨_, h3⟩)
              · obtain ⟨k, hk⟩ := h2
                exact Or.inr (Or.inr ⟨k, false, hk⟩)
            · simp only [List.mem_singleton] at h1
              exact Or.inr (Or.inr ⟨_, true, h1⟩)
        · simp only [Except.ok.injEq, Prod.mk.injEq] at h
          obtain ⟨-, -, htr⟩ := h
          rw [← htr] at hev
          rcases hml ev hev with h2 | h2
          · rcases List.mem_append.mp h2 with h3 | h3
            · exact Or.inl h3
            · simp only [List.mem_singleton] at h3
              exact Or.inr (Or.inl ⟨_, h3⟩)
          · obtain ⟨k, hk⟩ := h2
            exact Or.inr (Or.inr ⟨k, false, hk⟩)

theorem dirCachePass_evs_reuse (cache : Cache) (tree : SrcTree) (srcDir outputPath : JPath)
    (scratch : List (JPath × String)) :
    ∀ (mps queued : List JPath) (dest : List (JPath × String)) (evs : List Ev)
      (q' : List JPath) (d2 : List (JPath × String)) (evs2 : List Ev),
      dirCachePass cache tree srcDir outputPath scratch mps queued dest evs =
        .ok (q', d2, evs2) →
      ∀ ev ∈ evs2, ev ∈ evs ∨
        ∃ m e, validEntry cache tree srcDir m = some e ∧
          ev = Ev.reuseModule m e.hash (hashOne tree srcDir m) := by
  intro mps
  induction mps with
  | nil =>
    intro queued dest evs q' d2 evs2 h ev hev
    simp only [dirCachePass, Except.ok.injEq, Prod.mk.injEq] at h
    obtain ⟨-, -, hevs⟩ := h
    rw [← hevs] at hev
    exact Or.inl hev
  | cons m r ih =>
    intro queued dest evs q' d2 evs2 h ev hev
    simp only [dirCachePass] at h
    split at h
    · rename_i e hve
      split at h
      · exact absurd h (by simp)
      · rcases ih _ _ _ _ _ _ h ev hev with h1 | h1
        · rcases List.mem_append.mp h1 with h2 | h2
          · exact Or.inl h2
          · simp only [List.mem_singleton] at h2
            exact Or.inr ⟨m, e, hve, h2⟩
        · exact Or.inr h1
    · exact ih _ _ _ _ _ _ h ev hev

theorem resolveModule_hydrated_inv (cache : Cache) (srcDir : JPath) (tree : SrcTree)
    (imp : JPath) (fm : Option ModuleData) (registry : List (JPath × ModuleData))
    (e : CacheEntry) (md : ModuleData)
    (h : resolveModule cache srcDir tree imp fm registry = .ok (.hydrated e md)) :
    alookup registry (resolvePath srcDir imp fm) = none ∧
    alookup cache (relativeP srcDir (resolvePath srcDir imp fm)) = some e ∧
    hashFile tree srcDir (resolvePath srcDir imp fm) = some e.hash ∧
    md = mkCachedModule (resolvePath srcDir imp fm) imp e := by
  simp only [resolveModule] at h
  split at h
  · exact absurd h (by simp)
  · rename_i hreg
    split at h
    · exact absurd h (by simp)
    · rename_i e' hc
      split at h
      · exact absurd h (by simp)
      · rename_i hv hhf
        split at h
        · rename_i heq
          simp only [Except.ok.injEq, ResolveOut.hydrated.injEq] at h
          obtain ⟨he, hmd⟩ := h
          subst he
          exact ⟨hreg, hc, by rw [hhf, heq], hmd.symm⟩
        · exact absurd h (by simp)

theorem write_reuse_guarded (T : Transp) (st : BState) (tree : SrcTree)
    (srcDir destDir output cacheRoot : JPath) (st' : BState)
    (d : List (JPath × String)) (tr : List Ev)
    (h : write T st tree srcDir destDir output cacheRoot = .ok (st', d, tr)) :
    ∀ k eh fh, (Ev.reuseModule k eh fh ∈ tr ∨ Ev.reuseBundle k eh fh ∈ tr) → eh = fh := by
  intro k eh fh hmem
  by_cases hf : extnameP (joinP destDir output) = ".js"
  · cases hbv : bundleValid st.cache tree srcDir (joinP destDir output) (modulesOf tree) with
    | some e =>
      rw [write_bundle_reuse_eq T st tree srcDir destDir output cacheRoot e hf hbv] at h
      split at h
      · exact absurd h (by simp)
      · simp only [Except.ok.injEq, Prod.mk.injEq] at h
        obtain ⟨-, -, htr⟩ := h
        rw [← htr] at hmem
        rcases hmem with hm | hm
        · simp at hm
        · simp only [List.mem_cons, List.mem_singleton] at hm
          rcases hm with h1 | h1 | h1
          · simp at h1
          · injection h1 with h1 h2 h3
            rw [h2, h3]
            exact (bundleValid_some st.cache tree srcDir (joinP destDir output)
              (modulesOf tree) e hbv).2
          · simp at h1
    | none =>
      rw [write_bundle_miss_eq T st tree srcDir destDir output cacheRoot hf hbv] at h
      have hce := compile_evs T st tree srcDir (joinP destDir output) cacheRoot
        (modulesOf tree) (copyPassthroughGo tree destDir tree [])
        [Ev.mode true, Ev.queuedMods (modulesOf tree)] st' d tr h
      rcases hmem with hm | hm
      · rcases hce _ hm with h1 | h1 | h1
        · simp at h1
        · obtain ⟨q, hq⟩ := h1; exact absurd hq (by simp)
        · obtain ⟨a, b, hab⟩ := h1; exact absurd hab (by simp)
      · rcases hce _ hm with h1 | h1 | h1
        · simp at h1
        · obtain ⟨q, hq⟩ := h1; exact absurd hq (by simp)
        · obtain ⟨a, b, hab⟩ := h1; exact absurd hab (by simp)
  · rw [write_dir_eq T st tree srcDir destDir output cacheRoot hf] at h
    split at h
    · exact absurd h (by simp)
    · rename_i q d1 e1 hdp
      have hce := compile_evs T st tree srcDir (joinP destDir output) cacheRoot
        q d1 (e1 ++ [Ev.queuedMods q]) st' d tr h
      have hdpe := dirCachePass_evs_reuse st.cache tree srcDir (joinP destDir output)
        st.scratch (modulesOf tree) [] (copyPassthroughGo tree destDir tree [])
        [Ev.mode false] q d1 e1 hdp
      rcases hmem with hm | hm
      · rcases hce _ hm with h1 | h1 | h1
        · rcases List.mem_append.mp h1 with h2 | h2
          · rcases hdpe _ h2 with h3 | h3
            · simp at h3
            · obtain ⟨m, e, hve, hev⟩ := h3
              injection hev with e1 e2 e3
              rw [e2, e3]
              exact (validEntry_some st.cache tree srcDir m e hve).2
          · simp at h2
        · obtain ⟨q0, hq⟩ := h1; exact absurd hq (by simp)
        · obtain ⟨a, b, hab⟩ := h1; exact absurd hab (by simp)
      · rcases hce _ hm with h1 | h1 | h1
        · rcases List.mem_append.mp h1 with h2 | h2
          · rcases hdpe _ h2 with h3 | h3
            · simp at h3
            · obtain ⟨m, e, hve, hev⟩ := h3
              exact absurd hev (by simp)
          · simp at h2
        · obtain ⟨q0, hq⟩ := h1; exact absurd hq (by simp)
        · obtain ⟨a, b, hab⟩ := h1; exact absurd hab (by simp)

/-- C4: every reuse decision is guarded by the hash equality check.  At
the two `write`-level sites, a reused entry (`validEntry` in directory
mode, `bundleValid` in bundle mode) is exactly a present entry whose
stored hash equals the freshly computed hash, and a present entry with a
mismatched hash is never reused; at the `CacheResolver.resolveModule`
site, a hydrated `CachedModule` arises only from an entry whose stored
hash equals a fresh `hashFile` of the resolved file; and on every
successful run every `reuseModule`/`reuseBundle` event in the trace
records equal stored and fresh hashes. -/
theorem claim_C4 (T : Transp) (st : BState) (tree : SrcTree)
    (srcDir destDir output cacheRoot : JPath) :
    (∀ m e, validEntry st.cache tree srcDir m = some e →
      alookup st.cache m = some e ∧ e.hash = hashOne tree srcDir m) ∧
    (∀ m e, alookup st.cache m = some e → e.hash ≠ hashOne tree srcDir m →
      validEntry st.cache tree srcDir m = none) ∧
    (∀ mods e, bundleValid st.cache tree srcDir (joinP destDir output) mods = some e →
      alookup st.cache ⟨false, [basenameP (joinP destDir output)]⟩ = some e ∧
        e.hash = hashList tree srcDir mods) ∧
    (∀ mods e, alookup st.cache ⟨false, [basenameP (joinP destDir output)]⟩ = some e →
      e.hash ≠ hashList tree srcDir mods →
      bundleValid st.cache tree srcDir (joinP destDir output) mods = none) ∧
    (∀ imp fm registry e md,
      resolveModule st.cache srcDir tree imp fm registry = .ok (.hydrated e md) →
      alookup st.cache (relativeP srcDir (resolvePath srcDir imp fm)) = some e ∧
        hashFile tree srcDir (resolvePath srcDir imp fm) = some e.hash) ∧
    (∀ st' d tr, write T st tree srcDir destDir output cacheRoot = .ok (st', d, tr) →
      ∀ k eh fh, (Ev.reuseModule k eh fh ∈ tr ∨ Ev.reuseBundle k eh fh ∈ tr) →
        eh = fh) := by
  refine ⟨?_, ?_, ?_, ?_, ?_, ?_⟩
  · intro m e h
    exact validEntry_some st.cache tree srcDir m e h
  · intro m e hl hne
    exact validEntry_none_of_mismatch st.cache tree srcDir m e hl hne
  · intro mods e h
    exact bundleValid_some st.cache tree srcDir (joinP destDir output) mods e h
  · intro mods e hl hne
    cases hbv : bundleValid st.cache tree srcDir (joinP destDir output) mods with
    | none => rfl
    | some e' =>
      obtain ⟨hl', hh'⟩ := bundleValid_some st.cache tree srcDir (joinP destDir output)
        mods e' hbv
      rw [hl] at hl'
      exact absurd (Option.some.inj hl' ▸ hh') hne
  · intro imp fm registry e md h
    obtain ⟨-, hc, hhf, -⟩ := resolveModule_hydrated_inv st.cache srcDir tree imp fm
      registry e md h
    exact ⟨hc, hhf⟩
  · intro st' d tr h
    exact write_reuse_guarded T st tree srcDir destDir output cacheRoot st' d tr h

theorem claim_C4_witness :
    ((∀ m e, validEntry initState.cache trW srcW m = some e →
      alookup initState.cache m = some e ∧ e.hash = hashOne trW srcW m) ∧
    (∀ m e, alookup initState.cache m = some e → e.hash ≠ hashOne trW srcW m →
      validEntry initState.cache trW srcW m = none) ∧
    (∀ mods e, bundleValid initState.cache trW srcW (joinP destW outDirW) mods = some e →
      alookup initState.cache ⟨false, [basenameP (joinP destW outDirW)]⟩ = some e ∧
        e.hash = hashList trW srcW mods) ∧
    (∀ mods e, alookup initState.cache ⟨false, [basenameP (joinP destW outDirW)]⟩ = some e →
      e.hash ≠ hashList trW srcW mods →
      bundleValid initState.cache trW srcW (joinP destW outDirW) mods = none) ∧
    (∀ imp fm registry e md,
      resolveModule initState.cache srcW trW imp fm registry = .ok (.hydrated e md) →
      alookup initState.cache (relativeP srcW (resolvePath srcW imp fm)) = some e ∧
        hashFile trW srcW (resolvePath srcW imp fm) = some e.hash) ∧
    (∀ st' d tr, write trT initState trW srcW destW outDirW cacheW = .ok (st', d, tr) →
      ∀ k eh fh, (Ev.reuseModule k eh fh ∈ tr ∨ Ev.reuseBundle k eh fh ∈ tr) →
        eh = fh)) :=
  claim_C4 trT initState trW srcW destW outDirW cacheW

/-! ### Claim C5 -/

/-- C5: `CacheResolver.resolveModule` trichotomy.  If the container
registry holds a live module for the resolved path, that module is
returned.  Otherwise, when a cache entry keyed by the resolved path's
source-relative form exists and the file hashes successfully, the result
is a `CachedModule` hydrated from the entry's stored metadata exactly
when the stored hash equals the fresh hash, and absent (`null`) on a
mismatch; with no cache entry the result is absent, signaling fallback
to the file resolver.  Conversely, every hydrated result arises from a
present entry whose stored hash equals the fresh file hash, and the
returned module is built from the entry's stored metadata. -/
theorem claim_C5 (cache : Cache) (srcDir : JPath) (tree : SrcTree)
    (imp : JPath) (fm : Option ModuleData) (registry : List (JPath × ModuleData)) :
    (∀ md, alookup registry (resolvePath srcDir imp fm) = some md →
      resolveModule cache srcDir tree imp fm registry = .ok (.live md)) ∧
    (alookup registry (resolvePath srcDir imp fm) = none →
      alookup cache (relativeP srcDir (resolvePath srcDir imp fm)) = none →
      resolveModule cache srcDir tree imp fm registry = .ok .absent) ∧
    (∀ e h, alookup registry (resolvePath srcDir imp fm) = none →
      alookup cache (relativeP srcDir (resolvePath srcDir imp fm)) = some e →
      hashFile tree srcDir (resolvePath srcDir imp fm) = some h →
      resolveModule cache srcDir tree imp fm registry =
        (if e.hash = h then
          .ok (.hydrated e (mkCachedModule (resolvePath srcDir imp fm) imp e))
         else .ok .absent)) ∧
    (∀ e md, resolveModule cache srcDir tree imp fm registry = .ok (.hydrated e md) →
      alookup registry (resolvePath srcDir imp fm) = none ∧
      alookup cache (relativeP srcDir (resolvePath srcDir imp fm)) = some e ∧
      hashFile tree srcDir (resolvePath srcDir imp fm) = some e.hash ∧
      md = mkCachedModule (resolvePath srcDir imp fm) imp e) := by
  refine ⟨?_, ?_, ?_, ?_⟩
  · intro md h
    exact resolveModule_live cache srcDir tree imp fm registry md h
  · intro h1 h2
    exact resolveModule_absent_nocache cache srcDir tree imp fm registry h1 h2
  · intro e h h1 h2 h3
    by_cases he : e.hash = h
    · rw [if_pos he]
      exact resolveModule_hydrated cache srcDir tree imp fm registry e h h1 h2 h3 he
    · rw [if_neg he]
      exact resolveModule_absent_mismatch cache srcDir tree imp fm registry e h h1 h2 h3 he
  · intro e md h
    exact resolveModule_hydrated_inv cache srcDir tree imp fm registry e md h

theorem claim_C5_witness :
    ((∀ md, alookup ([] : List (JPath × ModuleData)) (resolvePath srcW bW none) = some md →
      resolveModule initState.cache srcW trW bW none [] = .ok (.live md)) ∧
    (alookup ([] : List (JPath × ModuleData)) (resolvePath srcW bW none) = none →
      alookup initState.cache (relativeP srcW (resolvePath srcW bW none)) = none →
      resolveModule initState.cache srcW trW bW none [] = .ok .absent) ∧
    (∀ e h, alookup ([] : List (JPath × ModuleData)) (resolvePath srcW bW none) = none →
      alookup initState.cache (relativeP srcW (resolvePath srcW bW none)) = some e →
      hashFile trW srcW (resolvePath srcW bW none) = some h →
      resolveModule initState.cache srcW trW bW none [] =
        (if e.hash = h then
          .ok (.hydrated e (mkCachedModule (resolvePath srcW bW none) bW e))
         else .ok .absent)) ∧
    (∀ e md, resolveModule initState.cache srcW trW bW none [] = .ok (.hydrated e md) →
      alookup ([] : List (JPath × ModuleData)) (resolvePath srcW bW none) = none ∧
      alookup initState.cache (relativeP srcW (resolvePath srcW bW none)) = some e ∧
      hashFile trW srcW (resolvePath srcW bW none) = some e.hash ∧
      md = mkCachedModule (resolvePath srcW bW none) bW e)) :=
  claim_C5 initState.cache srcW trW bW none []


/-! ### Claim C6 -/

/-- The extension rule of `resolvePath` in isolation: keep a path whose
extension is already `.js`, append `.js` to every other path. -/
def withJsExt (p : JPath) : JPath :=
  if extnameP p = ".js" then p else onLastSeg (fun s => s ++ ".js") p

/-- C6: `CacheResolver.resolvePath` resolves a dot-initial imported path
against the directory of `fromModule`'s path when a context module is
given, resolves every other imported path against the configured source
root, and then applies the extension rule: a resolved path whose
extension is already `.js` is returned unchanged, and `.js` is appended
to any other resolved path — also when a different extension is present. -/
theorem claim_C6 (srcDir imp : JPath) (fm : Option ModuleData) :
    (∀ m, fm = some m → startsWithDot imp = true →
      resolvePath srcDir imp fm = withJsExt (resolveP (dirnameP m.path) imp)) ∧
    ((fm = none ∨ startsWithDot imp = false) →
      resolvePath srcDir imp fm = withJsExt (resolveP srcDir imp)) ∧
    (∀ p, extnameP p = ".js" → withJsExt p = p) ∧
    (∀ p, extnameP p ≠ ".js" → withJsExt p = onLastSeg (fun s => s ++ ".js") p) := by
  refine ⟨?_, ?_, ?_, ?_⟩
  · intro m hm hdot
    subst hm
    simp [resolvePath, withJsExt, hdot]
  · intro hcase
    rcases hcase with hn | hdot
    · subst hn
      simp [resolvePath, withJsExt]
    · cases fm with
      | none => simp [resolvePath, withJsExt]
      | some m => simp [resolvePath, withJsExt, hdot]
  · intro p hp
    simp [withJsExt, hp]
  · intro p hp
    simp [withJsExt, hp]

theorem claim_C6_witness :
    ((∀ m, (none : Option ModuleData) = some m → startsWithDot ⟨false, ["style.css"]⟩ = true →
      resolvePath srcW ⟨false, ["style.css"]⟩ none =
        withJsExt (resolveP (dirnameP m.path) ⟨false, ["style.css"]⟩)) ∧
    (((none : Option ModuleData) = none ∨ startsWithDot ⟨false, ["style.css"]⟩ = false) →
      resolvePath srcW ⟨false, ["style.css"]⟩ none =
        withJsExt (resolveP srcW ⟨false, ["style.css"]⟩)) ∧
    (∀ p, extnameP p = ".js" → withJsExt p = p) ∧
    (∀ p, extnameP p ≠ ".js" → withJsExt p = onLastSeg (fun s => s ++ ".js") p)) :=
  claim_C6 srcW ⟨false, ["style.css"]⟩ none


/-! ### Claim C7 -/

def c7tree1 : SrcTree := [(⟨false, ["a.js"]⟩, .file "c")]

def c7tree2 : SrcTree :=
  [(⟨false, ["a.js"]⟩, .symlink ⟨false, ["real.js"]⟩),
   (⟨false, ["real.js"]⟩, .file "c")]

/-- C7 counterexample: replacing the regular file `a.js` (content `"c"`)
with a symlink to `real.js` holding the identical bytes leaves the bytes
a read observes unchanged, yet `hashFile` of `src/index.js` (which is
`helpers.hashTree` — the dereferencing wrapper is commented out) assigns
a different digest, so the replacement does register as a change.  The
dereferencing variant of `src/unnamed/part_001` assigns equal digests. -/
theorem claim_C7_counterexample :
    ((lookupTree c7tree2 ⟨false, ["a.js"]⟩).bind (readNode c7tree2) =
      (lookupTree c7tree1 ⟨false, ["a.js"]⟩).bind (readNode c7tree1)) ∧
    hashFile c7tree2 srcW (joinP srcW ⟨false, ["a.js"]⟩) ≠
      hashFile c7tree1 srcW (joinP srcW ⟨false, ["a.js"]⟩) ∧
    hashFileDeref c7tree2 srcW (joinP srcW ⟨false, ["a.js"]⟩) =
      hashFileDeref c7tree1 srcW (joinP srcW ⟨false, ["a.js"]⟩) := by
  refine ⟨by decide, ?_, by decide⟩
  intro h
  exact absurd h (by decide)

/-- C7 (amended): `hashFile` of `src/index.js` hashes a symbolic link as
a link — the digest of a symlink node differs from the digest of every
regular file, including one holding byte-identical content — while the
historical `hashFile` of `src/unnamed/part_001` dereferences the link
first and assigns the digest of the target's regular-file node, which is
the behavior the spec describes. -/
theorem claim_C7 (tree : SrcTree) (srcDir p : JPath) :
    (∀ tgt, lookupTree tree (relativeP srcDir p) = some (.symlink tgt) →
      hashFile tree srcDir p = some ("L" ++ pstr tgt)) ∧
    (∀ c, lookupTree tree (relativeP srcDir p) = some (.file c) →
      hashFile tree srcDir p = some ("F" ++ c)) ∧
    (∀ tgt c, hashNode (.symlink tgt) ≠ hashNode (.file c)) ∧
    (∀ tgt c, lookupTree tree (relativeP srcDir p) = some (.symlink tgt) →
      lookupTree tree tgt = some (.file c) →
      hashFileDeref tree srcDir p = some (hashNode (.file c))) := by
  refine ⟨?_, ?_, ?_, ?_⟩
  · intro tgt h
    simp [hashFile, h, hashNode]
  · intro c h
    simp [hashFile, h, hashNode]
  · intro tgt c h
    have hd := congrArg (fun s => s.data.head?) h
    simp [hashNode, pstr, String.data_append] at hd
  · intro tgt c h1 h2
    simp [hashFileDeref, h1, h2]

theorem claim_C7_witness :
    ((∀ tgt, lookupTree c7tree2 (relativeP srcW (joinP srcW ⟨false, ["a.js"]⟩)) =
        some (.symlink tgt) →
      hashFile c7tree2 srcW (joinP srcW ⟨false, ["a.js"]⟩) = some ("L" ++ pstr tgt)) ∧
    (∀ c, lookupTree c7tree2 (relativeP srcW (joinP srcW ⟨false, ["a.js"]⟩)) =
        some (.file c) →
      hashFile c7tree2 srcW (joinP srcW ⟨false, ["a.js"]⟩) = some ("F" ++ c)) ∧
    (∀ tgt c, hashNode (.symlink tgt) ≠ hashNode (.file c)) ∧
    (∀ tgt c, lookupTree c7tree2 (relativeP srcW (joinP srcW ⟨false, ["a.js"]⟩)) =
        some (.symlink tgt) →
      lookupTree c7tree2 tgt = some (.file c) →
      hashFileDeref c7tree2 srcW (joinP srcW ⟨false, ["a.js"]⟩) =
        some (hashNode (.file c)))) :=
  claim_C7 c7tree2 srcW (joinP srcW ⟨false, ["a.js"]⟩)


/-! ### Claim C8 -/

def c8entry : CacheEntry :=
  { hash := "F" ++ "ca",
    dir := some (joinP cacheW ⟨false, ["0"]⟩),
    outputFiles := [⟨false, ["a.js"]⟩, mapName ⟨false, ["a.js"]⟩] }

def c8tree : SrcTree := [(⟨false, ["a.js"]⟩, .file "ca")]

def c8st : BState := ⟨[(⟨false, ["a.js"]⟩, c8entry)], 1, []⟩

/-- C8 counterexample: the cache entry for `a.js` stores the matching
hash (`validEntry` hits), but its recorded artifacts are missing from
the scratch area; the build then fails (`copyPreserveSync` raises
`ENOENT` inside `copyFromCache`) instead of treating the entry as a
cache miss — nothing is recompiled and no event is emitted. -/
theorem claim_C8_counterexample :
    validEntry c8st.cache c8tree srcW ⟨false, ["a.js"]⟩ = some c8entry ∧
    (∀ f ∈ c8entry.outputFiles,
      alookup c8st.scratch (joinP (joinP cacheW ⟨false, ["0"]⟩) f) = none) ∧
    exOk (write trT c8st c8tree srcW destW outDirW cacheW) = false ∧
    wTrace (write trT c8st c8tree srcW destW outDirW cacheW) = [] := by
  decide

/-- C8 (amended): a hash-valid cache entry whose recorded artifact files
are missing from the scratch area is NOT treated as a cache miss — in
directory mode, when the first collected module has such an entry, the
whole `write` run aborts with the `ENOENT` error of `copyPreserveSync`,
the unit is not recompiled, and no event is emitted at all. -/
theorem claim_C8 (T : Transp) (st : BState) (tree : SrcTree)
    (srcDir destDir output cacheRoot : JPath) (m : JPath) (rest : List JPath)
    (e : CacheEntry) (cd : JPath)
    (hmods : modulesOf tree = m :: rest)
    (houtf : extnameP (joinP destDir output) ≠ ".js")
    (hve : validEntry st.cache tree srcDir m = some e)
    (hdir : e.dir = some cd)
    (hmiss : ∃ f ∈ e.outputFiles, alookup st.scratch (joinP cd f) = none) :
    write T st tree srcDir destDir output cacheRoot = .error "copyPreserveSync: ENOENT" ∧
    exOk (write T st tree srcDir destDir output cacheRoot) = false ∧
    wTrace (write T st tree srcDir destDir output cacheRoot) = [] := by
  obtain ⟨f, hf, hn⟩ := hmiss
  have hcc : copyFromCache st.scratch e (joinP destDir output)
      (copyPassthroughGo tree destDir tree []) = .error "copyPreserveSync: ENOENT" := by
    unfold copyFromCache
    rw [hdir]
    exact copyFiles_error st.scratch cd (joinP destDir output) e.outputFiles _ f hf hn
  have hdp : dirCachePass st.cache tree srcDir (joinP destDir output) st.scratch
      (modulesOf tree) [] (copyPassthroughGo tree destDir tree []) [Ev.mode false] =
      .error "copyPreserveSync: ENOENT" := by
    rw [hmods]
    unfold dirCachePass
    rw [hve]
    simp only []
    rw [hcc]
  have hw : write T st tree srcDir destDir output cacheRoot =
      .error "copyPreserveSync: ENOENT" := by
    rw [write_dir_eq T st tree srcDir destDir output cacheRoot houtf, hdp]
  exact ⟨hw, by rw [hw]; rfl, by rw [hw]; rfl⟩

theorem claim_C8_witness :
    (write trT c8st c8tree srcW destW outDirW cacheW = .error "copyPreserveSync: ENOENT" ∧
    exOk (write trT c8st c8tree srcW destW outDirW cacheW) = false ∧
    wTrace (write trT c8st c8tree srcW destW outDirW cacheW) = []) :=
  claim_C8 trT c8st c8tree srcW destW outDirW cacheW ⟨false, ["a.js"]⟩ []
    c8entry (joinP cacheW ⟨false, ["0"]⟩)
    (by decide) (by decide) (by decide) (by decide) (by decide)


/-! ### Claim C9 -/

theorem cacheModulesLoop_evs_mono (tree : SrcTree) (srcDir outputPath cacheDir : JPath)
    (oif : Bool) (scratch : List (JPath × String)) :
    ∀ (mds : List ModuleData) (cache : Cache) (dest : List (JPath × String))
      (evs : List Ev) (oh : List String) (c' : Cache) (d' : List (JPath × String))
      (evs' : List Ev) (oh' : List String),
      cacheModulesLoop tree srcDir outputPath cacheDir oif scratch mds cache dest evs oh =
        .ok (c', d', evs', oh') →
      ∀ ev ∈ evs, ev ∈ evs' := by
  intro mds
  induction mds with
  | nil =>
    intro cache dest evs oh c' d' evs' oh' h ev hev
    simp only [cacheModulesLoop, Except.ok.injEq, Prod.mk.injEq] at h
    obtain ⟨-, -, hevs, -⟩ := h
    rw [← hevs]
    exact hev
  | cons md rest ih =>
    intro cache dest evs oh c' d' evs' oh' h ev hev
    simp only [cacheModulesLoop] at h
    split at h
    · exact ih _ _ _ _ _ _ _ _ h ev (List.mem_append_left _ hev)
    · split at h
      · exact absurd h (by simp)
      · exact ih _ _ _ _ _ _ _ _ h ev (List.mem_append_left _ hev)

theorem compile_evs_mono (T : Transp) (st : BState) (tree : SrcTree)
    (srcDir outputPath cacheRoot : JPath) (mps : List JPath)
    (dest : List (JPath × String)) (evs : List Ev) (st' : BState)
    (d' : List (JPath × String)) (tr : List Ev)
    (h : compileAndCacheModules T st tree srcDir outputPath cacheRoot mps dest evs =
      .ok (st', d', tr)) :
    ∀ ev ∈ evs, ev ∈ tr := by
  intro ev hev
  simp only [compileAndCacheModules] at h
  split at h
  · simp only [Except.ok.injEq, Prod.mk.injEq] at h
    obtain ⟨-, -, htr⟩ := h
    rw [← htr]
    exact hev
  · split at h
    · exact absurd h (by simp)
    · split at h
      · exact absurd h (by simp)
      · rename_i mods reg hgm cache2 dest2 evs2 oh2 hloop
        have hml := cacheModulesLoop_evs_mono tree srcDir outputPath _ _ _ _ _ _ _ _ _ _ _ _
          hloop ev (List.mem_append_left _ hev)
        split at h
        · split at h
          · exact absurd h (by simp)
          · simp only [Except.ok.injEq, Prod.mk.injEq] at h
            obtain ⟨-, -, htr⟩ := h
            rw [← htr]
            exact List.mem_append_left _ hml
        · simp only [Except.ok.injEq, Prod.mk.injEq] at h
          obtain ⟨-, -, htr⟩ := h
          rw [← htr]
          exact hml

theorem dirCachePass_evs_mono (cache : Cache) (tree : SrcTree) (srcDir outputPath : JPath)
    (scratch : List (JPath × String)) :
    ∀ (mps queued : List JPath) (dest : List (JPath × String)) (evs : List Ev)
      (q' : List JPath) (d2 : List (JPath × String)) (evs2 : List Ev),
      dirCachePass cache tree srcDir outputPath scratch mps queued dest evs =
        .ok (q', d2, evs2) →
      ∀ ev ∈ evs, ev ∈ evs2 := by
  intro mps
  induction mps with
  | nil =>
    intro queued dest evs q' d2 evs2 h ev hev
    simp only [dirCachePass, Except.ok.injEq, Prod.mk.injEq] at h
    obtain ⟨-, -, hevs⟩ := h
    rw [← hevs]
    exact hev
  | cons m r ih =>
    intro queued dest evs q' d2 evs2 h ev hev
    simp only [dirCachePass] at h
    split at h
    · split at h
      · exact absurd h (by simp)
      · exact ih _ _ _ _ _ _ h ev (List.mem_append_left _ hev)
    · exact ih _ _ _ _ _ _ h ev hev

/-- C9 (amended): output-mode selection depends only on the extension of
the configured output path — never on the source tree, the instance
state, or any file-system inspection.  On every successful run the
emitted mode event carries `true` (bundle) exactly when the configured
output path's final segment has the `.js` extension; in particular a
configured directory target whose final segment ends in `.js` is NOT
treated as a directory target but compiled in bundle mode. -/
theorem claim_C9 (T : Transp) (st : BState) (tree : SrcTree)
    (srcDir destDir output cacheRoot : JPath) (st' : BState)
    (d : List (JPath × String)) (tr : List Ev)
    (h : write T st tree srcDir destDir output cacheRoot = .ok (st', d, tr)) :
    ∀ b, (Ev.mode b ∈ tr ↔ b = (extnameP (joinP destDir output) == ".js")) := by
  intro b
  by_cases hf : extnameP (joinP destDir output) = ".js"
  · have hbool : (extnameP (joinP destDir output) == ".js") = true := beq_iff_eq.mpr hf
    rw [hbool]
    cases hbv : bundleValid st.cache tree srcDir (joinP destDir output) (modulesOf tree) with
    | some e =>
      rw [write_bundle_reuse_eq T st tree srcDir destDir output cacheRoot e hf hbv] at h
      split at h
      · exact absurd h (by simp)
      · simp only [Except.ok.injEq, Prod.mk.injEq] at h
        obtain ⟨-, -, htr⟩ := h
        rw [← htr]
        constructor
        · intro hm
          simp only [List.mem_cons, List.mem_singleton] at hm
          rcases hm with h1 | h1 | h1
          · injection h1
          · exact absurd h1 (by simp)
          · exact absurd h1 (by simp)
        · intro hb
          rw [hb]
          simp
    | none =>
      rw [write_bundle_miss_eq T st tree srcDir destDir output cacheRoot hf hbv] at h
      constructor
      · intro hm
        rcases compile_evs T st tree srcDir (joinP destDir output) cacheRoot
            (modulesOf tree) (copyPassthroughGo tree destDir tree [])
            [Ev.mode true, Ev.queuedMods (modulesOf tree)] st' d tr h _ hm with
          h1 | h1 | h1
        · simp only [List.mem_cons, List.mem_singleton] at h1
          rcases h1 with h2 | h2
          · injection h2
          · exact absurd h2 (by simp)
        · obtain ⟨q, hq⟩ := h1
          exact absurd hq (by simp)
        · obtain ⟨a, c, hac⟩ := h1
          exact absurd hac (by simp)
      · intro hb
        rw [hb]
        exact compile_evs_mono T st tree srcDir (joinP destDir output) cacheRoot
          (modulesOf tree) (copyPassthroughGo tree destDir tree [])
          [Ev.mode true, Ev.queuedMods (modulesOf tree)] st' d tr h _ (by simp)
  · have hbool : (extnameP (joinP destDir output) == ".js") = false :=
      beq_eq_false_iff_ne.mpr hf
    rw [hbool]
    rw [write_dir_eq T st tree srcDir destDir output cacheRoot hf] at h
    split at h
    · exact absurd h (by simp)
    · rename_i q d1 e1 hdp
      constructor
      · intro hm
        rcases compile_evs T st tree srcDir (joinP destDir output) cacheRoot
            q d1 (e1 ++ [Ev.queuedMods q]) st' d tr h _ hm with h1 | h1 | h1
        · rcases List.mem_append.mp h1 with h2 | h2
          · rcases dirCachePass_evs_reuse st.cache tree srcDir (joinP destDir output)
                st.scratch (modulesOf tree) [] (copyPassthroughGo tree destDir tree [])
                [Ev.mode false] q d1 e1 hdp _ h2 with h3 | h3
            · simp only [List.mem_singleton] at h3
              injection h3
            · obtain ⟨m, e, hve, hev⟩ := h3
              exact absurd hev (by simp)
          · exact absurd (List.mem_singleton.mp h2) (by simp)
        · obtain ⟨q0, hq⟩ := h1
          exact absurd hq (by simp)
        · obtain ⟨a, c, hac⟩ := h1
          exact absurd hac (by simp)
      · intro hb
        rw [hb]
        refine compile_evs_mono T st tree srcDir (joinP destDir output) cacheRoot
          q d1 (e1 ++ [Ev.queuedMods q]) st' d tr h _ (List.mem_append_left _ ?_)
        exact dirCachePass_evs_mono st.cache tree srcDir (joinP destDir output)
          st.scratch (modulesOf tree) [] (copyPassthroughGo tree destDir tree [])
          [Ev.mode false] q d1 e1 hdp _ (by simp)

/-- The final segment of the configured output `app.js` carries the
`.js` extension, so this run — even if `app.js` were meant as a
directory target — is compiled in bundle mode. -/
theorem claim_C9_counterexample :
    extnameP (joinP destW outBW) = ".js" ∧
    Ev.mode true ∈ wTrace (write trT initState trW srcW destW outBW cacheW) ∧
    Ev.mode false ∉ wTrace (write trT initState trW srcW destW outBW cacheW) := by
  decide

theorem claim_C9_witness :
    (Ev.mode false ∈ wTrace (write trT initState trW srcW destW outDirW cacheW) ↔
      false = (extnameP (joinP destW outDirW) == ".js")) :=
  claim_C9 trT initState trW srcW destW outDirW cacheW
    (wState (write trT initState trW srcW destW outDirW cacheW))
    (wDest (write trT initState trW srcW destW outDirW cacheW))
    (wTrace (write trT initState trW srcW destW outDirW cacheW))
    (by rfl) false


/-! ### Claim C10 -/

def c10tree : SrcTree := [(⟨false, ["app.js"]⟩, .file "cx")]

/-- C10: per-module entries (keyed by source-relative module path) and
the bundle entry (keyed by the output file's base name) live in the one
`this._cache` map.  When a module's source-relative path equals the
configured bundle output's base name, one compile stores both entries
under the same key: the trace records a per-module `cachePut` and a
bundle `cachePut` for the identical key, and the bundle entry — stored
last — overwrites the module's metadata entry, so the final cache holds
at that key an entry with the aggregate hash and no stored AST. -/
theorem claim_C10 (T : Transp) (st : BState) (tree : SrcTree)
    (srcDir destDir output cacheRoot : JPath)
    (hsrc : isNormAbs srcDir) (hroot : isNormAbs cacheRoot)
    (hout : isNormAbs (joinP destDir output)) (hwf : treeWF tree)
    (houtf : extnameP (joinP destDir output) = ".js")
    (hne : modulesOf tree ≠ [])
    (hbv : bundleValid st.cache tree srcDir (joinP destDir output) (modulesOf tree) = none)
    (hm : (⟨false, [basenameP (joinP destDir output)]⟩ : JPath) ∈ modulesOf tree) :
    ∃ st' d tr, write T st tree srcDir destDir output cacheRoot = .ok (st', d, tr) ∧
      Ev.cachePut ⟨false, [basenameP (joinP destDir output)]⟩ false ∈ tr ∧
      Ev.cachePut ⟨false, [basenameP (joinP destDir output)]⟩ true ∈ tr ∧
      ∃ e, alookup st'.cache ⟨false, [basenameP (joinP destDir output)]⟩ = some e ∧
        e.hash = hashList tree srcDir (modulesOf tree) ∧ e.ast = none := by
  have hchar := compile_bundle_char T st tree srcDir (joinP destDir output) cacheRoot
    (modulesOf tree) (copyPassthroughGo tree destDir tree [])
    [Ev.mode true, Ev.queuedMods (modulesOf tree)]
    hsrc hroot hwf hout houtf (fun m hm0 => hm0) (modulesOf_nodup tree hwf) hne
  rw [write_bundle_miss_eq T st tree srcDir destDir output cacheRoot houtf hbv, hchar]
  refine ⟨_, _, _, rfl, ?_, by simp, ?_⟩
  · refine List.mem_append_left _ (List.mem_append_right _ ?_)
    exact List.mem_map.mpr ⟨_, hm, rfl⟩
  · refine ⟨{ hash := hashList tree srcDir (modulesOf tree),
              dir := some (joinP cacheRoot ⟨false, [Nat.repr st.cacheIndex]⟩),
              outputFiles := [⟨false, [basenameP (joinP destDir output)]⟩,
                              mapName ⟨false, [basenameP (joinP destDir output)]⟩] },
      ?_, rfl, rfl⟩
    exact if_pos rfl

theorem claim_C10_witness :
    (∃ st' d tr, write trT initState c10tree srcW destW outBW cacheW = .ok (st', d, tr) ∧
      Ev.cachePut ⟨false, [basenameP (joinP destW outBW)]⟩ false ∈ tr ∧
      Ev.cachePut ⟨false, [basenameP (joinP destW outBW)]⟩ true ∈ tr ∧
      ∃ e, alookup st'.cache ⟨false, [basenameP (joinP destW outBW)]⟩ = some e ∧
        e.hash = hashList c10tree srcW (modulesOf c10tree) ∧ e.ast = none) :=
  claim_C10 trT initState c10tree srcW destW outBW cacheW
    (by decide) (by decide) (by decide) (by decide) (by decide) (by decide)
    (by decide) (by decide)


end Bcm
